import Mathlib

/-!
# Verification of the isync/mbsync core against its specification

This development gives a shallow embedding of the parts of the isync
(mbsync) source tree that the specification's checkable claims are about,
and proves or refutes each claim over that embedding.

Embedded code (all paths relative to the repository root):
* src/sync_msg_cvt.c   - line-ending conversion (copy_msg_bytes)
* src/imap_msgs.c      - relative/absolute message sequence bookkeeping
* src/imap_utf7.c      - modified IMAP UTF-7 encoding and decoding
* src/sync_state.c     - sync state, journal replay, uid assignment
* src/sync.c           - sync engine: UIDVALIDITY recovery, the
                         new-message propagation loop, expiration,
                         maxuid/maxxfuid counter updates

C machine integers are modelled as `Nat`; the bit widths only matter where
explicitly noted (all embedded arithmetic stays far below the wrap-around
points, except where a `% 2 ^ w` appears in a definition).
-/

set_option autoImplicit false

namespace Isync

/-! ## Message flag bits (src/driver.h, BIT_ENUM F_...) -/

def F_DRAFT : Nat := 1
def F_FLAGGED : Nat := 2
def F_FORWARDED : Nat := 4
def F_ANSWERED : Nat := 8
def F_SEEN : Nat := 16
def F_DELETED : Nat := 32

/-! ## Sync record status bits (src/sync_p.h, BIT_ENUM S_...) -/

def S_DEAD : Nat := 1
def S_EXPIRE : Nat := 2
def S_EXPIRED : Nat := 4
def S_NEXPIRE : Nat := 8
def S_PENDING : Nat := 16
def S_DUMMY_F : Nat := 32
def S_DUMMY_N : Nat := 64
def S_SKIPPED : Nat := 128
def S_GONE_F : Nat := 256
def S_GONE_N : Nat := 512
def S_DEL_F : Nat := 1024
def S_DEL_N : Nat := 2048
def S_DELETE : Nat := 4096
def S_UPGRADE : Nat := 8192
def S_PURGE : Nat := 16384
def S_PURGED : Nat := 32768

/-- S_LOGGED from src/sync_p.h: the journal-logged persistent status bits. -/
def S_LOGGED : Nat := S_EXPIRE + S_EXPIRED + S_PENDING + S_DUMMY_F + S_DUMMY_N + S_SKIPPED

/-- Test whether any of the bits in `mask` is set in `x` (C `x & mask` as a truth value). -/
def hasBits (x mask : Nat) : Bool := x &&& mask != 0

/-- Complement within one byte (C `~x` applied to 8-bit flag values). -/
def bnot8 (x : Nat) : Nat := 255 ^^^ x

/-- Complement within 16 bits (C `~x` applied to the 16-bit status field). -/
def bnot16 (x : Nat) : Nat := 65535 ^^^ x

/-! ## Line-ending conversion (src/sync_msg_cvt.c, copy_msg_bytes)

The two conversion branches of `copy_msg_bytes` (the `out_cr != in_cr`
cases with `max_line_len == 0`), modelled byte for byte.  A message is a
list of bytes; `pc` is the previous byte, 0 before the first one, exactly
as in the C loops. -/

namespace MsgCvt

abbrev Byte := Nat

def CR : Byte := 13
def LF : Byte := 10

/-- The "adding CR" branch of copy_msg_bytes (src/sync_msg_cvt.c:20-25):
before each LF not already preceded by CR, a CR is inserted. -/
def addCR (pc : Byte) : List Byte → List Byte
  | [] => []
  | c :: rest =>
    if c = LF ∧ pc ≠ CR then CR :: c :: addCR c rest
    else c :: addCR c rest

/-- The "removing CR" branch of copy_msg_bytes (src/sync_msg_cvt.c:28-33),
with the output kept as a reversed accumulator: on an LF whose predecessor
was a CR, the C code backs up over the just-emitted CR (`out--`) and then
emits the LF. -/
def removeCRgo (acc : List Byte) (pc : Byte) : List Byte → List Byte
  | [] => acc.reverse
  | c :: rest =>
    removeCRgo (c :: (if c = LF ∧ pc = CR then acc.tail else acc)) c rest

def removeCR (l : List Byte) : List Byte := removeCRgo [] 0 l

/-- Strip all CR bytes (the plain reading of strip_CR in the claim). -/
def stripCR (l : List Byte) : List Byte := l.filter (fun c => c ≠ CR)

/-- The output of `removeCR`, computed by lookahead instead of by backing
up the output pointer: a CR directly followed by an LF is dropped. -/
def dropCRLF : List Byte → List Byte
  | [] => []
  | c :: rest =>
    if c = CR ∧ rest.head? = some LF then dropCRLF rest
    else c :: dropCRLF rest

/-- No CR byte is immediately followed by an LF byte. -/
def noCRLF : List Byte → Prop
  | c1 :: c2 :: rest => ¬(c1 = CR ∧ c2 = LF) ∧ noCRLF (c2 :: rest)
  | _ => True

/-- No CR byte is immediately followed by another CR byte. -/
def noRR : List Byte → Prop
  | c1 :: c2 :: rest => ¬(c1 = CR ∧ c2 = CR) ∧ noRR (c2 :: rest)
  | _ => True

instance noCRLF_decidable : (l : List Byte) → Decidable (noCRLF l)
  | [] => .isTrue trivial
  | [_] => .isTrue trivial
  | c1 :: c2 :: rest =>
    have := noCRLF_decidable (c2 :: rest)
    inferInstanceAs (Decidable (_ ∧ _))

instance noRR_decidable : (l : List Byte) → Decidable (noRR l)
  | [] => .isTrue trivial
  | [_] => .isTrue trivial
  | c1 :: c2 :: rest =>
    have := noRR_decidable (c2 :: rest)
    inferInstanceAs (Decidable (_ ∧ _))

theorem removeCRgo_eq_dropCRLF (l : List Byte) : ∀ (acc : List Byte) (pc : Byte),
    removeCRgo acc pc l =
      (if l.head? = some LF ∧ pc = CR then acc.tail else acc).reverse ++ dropCRLF l := by
  induction l with
  | nil => intro acc pc; simp [removeCRgo, dropCRLF]
  | cons c rest ih =>
    intro acc pc
    rw [removeCRgo, ih]
    by_cases hlf : c = LF ∧ pc = CR
    · obtain ⟨hc, hpc⟩ := hlf
      subst hc
      have hres : rest.head? = some LF ∧ LF = CR ↔ False := by
        simp [LF, CR]
      simp only [List.head?_cons, hpc, and_true, hres, if_false, if_true, dropCRLF]
      have : ¬(LF = CR ∧ rest.head? = some LF) := by
        intro h; exact absurd h.1 (by decide)
      simp [this]
    · have hne : ¬((c :: rest).head? = some LF ∧ pc = CR) := by
        intro h
        exact hlf ⟨by simpa using h.1, h.2⟩
      simp only [hne, if_false, hlf, if_false]
      by_cases hdrop : c = CR ∧ rest.head? = some LF
      · have : rest.head? = some LF ∧ c = CR := ⟨hdrop.2, hdrop.1⟩
        simp [dropCRLF, hdrop, this]
      · have : ¬(rest.head? = some LF ∧ c = CR) := fun h => hdrop ⟨h.2, h.1⟩
        simp [dropCRLF, hdrop, this]

theorem removeCR_eq_dropCRLF (l : List Byte) : removeCR l = dropCRLF l := by
  rw [removeCR, removeCRgo_eq_dropCRLF]
  have : ¬(l.head? = some LF ∧ (0 : Byte) = CR) := by
    intro h; exact absurd h.2 (by decide)
  simp [this]

theorem stripCR_addCR (pc : Byte) (l : List Byte) : stripCR (addCR pc l) = stripCR l := by
  induction l generalizing pc with
  | nil => rfl
  | cons c rest ih =>
    rw [addCR]
    by_cases h : c = LF ∧ pc ≠ CR
    · rw [if_pos h]
      obtain ⟨hc, -⟩ := h
      subst hc
      have := ih LF
      simp only [stripCR, ne_eq, CR, LF] at this ⊢
      rw [List.filter_cons, List.filter_cons, List.filter_cons, this]
      simp
    · rw [if_neg h]
      have := ih c
      simp only [stripCR, ne_eq, CR, LF] at this ⊢
      rw [List.filter_cons, List.filter_cons, this]

theorem noCRLF_dropCRLF (l : List Byte) (h : noRR l) : noCRLF (dropCRLF l) := by
  induction l with
  | nil => trivial
  | cons c rest ih =>
    rw [dropCRLF]
    by_cases hdrop : c = CR ∧ rest.head? = some LF
    · simp only [hdrop, if_true]
      apply ih
      cases rest with
      | nil => trivial
      | cons d r2 => exact h.2
    · simp only [hdrop, if_false]
      have hrest : noRR rest := by
        cases rest with
        | nil => trivial
        | cons d r2 => exact h.2
      have htail := ih hrest
      -- We must show the pair (c, head of dropCRLF rest) is not CR-LF.
      cases hres : dropCRLF rest with
      | nil => exact trivial
      | cons d2 r3 =>
        refine ⟨?_, by rw [← hres]; exact htail⟩
        rintro ⟨hc, hd2⟩
        subst hc hd2
        -- c = CR was kept, so rest does not start with LF; and by noRR rest
        -- does not start with CR either; so dropCRLF rest starts with the
        -- head of rest, which is neither.
        cases rest with
        | nil => simp [dropCRLF] at hres
        | cons d r2 =>
          have hdcr : d ≠ CR := by
            intro hdc
            exact h.1 ⟨rfl, hdc⟩
          have hdlf : d ≠ LF := by
            intro hdl
            exact hdrop ⟨rfl, by simp [hdl]⟩
          rw [dropCRLF] at hres
          have : ¬(d = CR ∧ r2.head? = some LF) := fun hh => hdcr hh.1
          rw [if_neg this] at hres
          injection hres with h1 h2
          exact hdlf h1

end MsgCvt

/-- C7, as the specification states it: for every message `m`,
stripping CRs commutes with the LF-to-CRLF conversion, and the
CRLF-to-LF conversion leaves no CR immediately before an LF. -/
def claimC7asStated : Prop :=
  ∀ m : List MsgCvt.Byte,
    MsgCvt.stripCR (MsgCvt.addCR 0 m) = MsgCvt.stripCR m ∧
    MsgCvt.noCRLF (MsgCvt.removeCR m)

/-- C7 counterexample: on the message CR CR LF, the CRLF-to-LF conversion
of copy_msg_bytes drops only the CR directly before the LF and yields
CR LF, which still has a CR immediately before an LF. -/
theorem C7_counterexample : ¬ claimC7asStated := by
  intro h
  have h2 := (h [MsgCvt.CR, MsgCvt.CR, MsgCvt.LF]).2
  rw [MsgCvt.removeCR_eq_dropCRLF] at h2
  revert h2
  decide

/-- C7 amended: stripping CRs from the LF-to-CRLF conversion of `m` gives
the same bytes as stripping CRs from `m`; and if `m` has no run of two
consecutive CRs, then the CRLF-to-LF conversion of `m` has no CR
immediately before an LF. -/
theorem C7_line_ending_conversion (m : List MsgCvt.Byte) :
    MsgCvt.stripCR (MsgCvt.addCR 0 m) = MsgCvt.stripCR m ∧
    (MsgCvt.noRR m → MsgCvt.noCRLF (MsgCvt.removeCR m)) := by
  refine ⟨MsgCvt.stripCR_addCR 0 m, fun h => ?_⟩
  rw [MsgCvt.removeCR_eq_dropCRLF]
  exact MsgCvt.noCRLF_dropCRLF m h

/-- Witness for C7 on the concrete message "a CR LF b LF". -/
theorem C7_witness :
    MsgCvt.stripCR (MsgCvt.addCR 0 [97, 13, 10, 98, 10]) =
      MsgCvt.stripCR [97, 13, 10, 98, 10] ∧
    MsgCvt.noCRLF (MsgCvt.removeCR [97, 13, 10, 98, 10]) := by
  have h := C7_line_ending_conversion [97, 13, 10, 98, 10]
  exact ⟨h.1, h.2 (by decide)⟩

/-! ## IMAP message sequence bookkeeping (src/imap_msgs.c)

The driver keeps an ordered list of known messages.  In "absolute" form
(`cursor = none`) each entry's `seq` is its 1-based IMAP sequence number;
in "relative" form (`cursor` set) each entry's `seq` is the jump from its
predecessor, and the cursor holds a position and that position's absolute
sequence number.  `imap_expunge_msg` works on the relative form.

The C cursor is a pointer; we model it as an index into the list together
with the saved `cursor_seq`.  `qsort` with the comparator
`imap_compare_msgs` (strict on distinct uids) is modelled by insertion
sort; on lists with pairwise-distinct uids every correct sort produces
the same result, so the choice of algorithm is immaterial. -/

namespace ImapMsgs

structure IMsg where
  uid : Nat
  seq : Nat
  dead : Bool
deriving Repr, DecidableEq

instance : Inhabited IMsg := ⟨⟨0, 0, false⟩⟩

structure IMsgs where
  list : List IMsg
  cursor : Option (Nat × Nat)
deriving Repr, DecidableEq

def byUid (a b : IMsg) : Prop := a.uid ≤ b.uid

instance : DecidableRel byUid := fun a b => inferInstanceAs (Decidable (a.uid ≤ b.uid))

instance : IsTotal IMsg byUid := ⟨fun a b => Nat.le_total a.uid b.uid⟩

instance : IsTrans IMsg byUid := ⟨fun _ _ _ => Nat.le_trans⟩

/-- The inner loop of imap_ensure_relative (src/imap_msgs.c:72-78): each
entry's seq becomes the difference to its predecessor's absolute seq.
On the absolute lists this is applied to, `b.seq ≥ prev` always holds, so
`Nat` subtraction coincides with the C unsigned subtraction. -/
def relGo (prev : Nat) : List IMsg → List IMsg
  | [] => []
  | b :: rest => { b with seq := b.seq - prev } :: relGo b.seq rest

/-- imap_ensure_relative's relativization: the head keeps its (absolute)
seq, the rest become deltas. -/
def relativize : List IMsg → List IMsg
  | [] => []
  | a :: rest => a :: relGo a.seq rest

/-- imap_ensure_relative (src/imap_msgs.c:49-86). -/
def ensureRel (s : IMsgs) : IMsgs :=
  if s.cursor.isSome then s
  else if s.list.isEmpty then s
  else
    { list := relativize (List.insertionSort byUid s.list),
      cursor := some (0, (List.insertionSort byUid s.list).headI.seq) }

/-- The loop of imap_ensure_absolute (src/imap_msgs.c:93-97): prefix sums. -/
def absGo (acc : Nat) : List IMsg → List IMsg
  | [] => []
  | a :: rest => { a with seq := acc + a.seq } :: absGo (acc + a.seq) rest

/-- imap_ensure_absolute (src/imap_msgs.c:88-100). -/
def ensureAbs (s : IMsgs) : IMsgs :=
  if s.cursor.isSome then { list := absGo 0 s.list, cursor := none } else s

/-- Result of the cursor walk of imap_expunge_msg: the zipper around the
final cursor position, its walk seq, whether the message's seq is to be
lowered, and whether a live message with the wanted seq was found. -/
structure WalkRes where
  before : List IMsg
  cur : IMsg
  after : List IMsg
  seqv : Nat
  lower : Bool
  found : Bool

/-- The forward phase of the imap_expunge_msg walk (src/imap_msgs.c:110-139,
taken while `seq < fseq` keeps holding).  When the walk overshoots
(`seq ≥ fseq` without a live match), the C code inspects the predecessor;
in this phase the predecessor's absolute seq is below `fseq` (that is why
the walk moved forward), so the loop breaks and lowers the current entry. -/
def walkFwd (fseq : Nat) (before : List IMsg) (cur : IMsg) (seqv : Nat) :
    List IMsg → WalkRes
  | [] =>
    if seqv = fseq ∧ ¬cur.dead then ⟨before, cur, [], seqv, true, true⟩
    else if seqv < fseq then ⟨before, cur, [], seqv, false, false⟩
    else ⟨before, cur, [], seqv, true, false⟩
  | a :: rest =>
    if seqv = fseq ∧ ¬cur.dead then ⟨before, cur, a :: rest, seqv, true, true⟩
    else if seqv < fseq then walkFwd fseq (cur :: before) a (seqv + a.seq) rest
    else ⟨before, cur, a :: rest, seqv, true, false⟩

/-- The backward phase of the imap_expunge_msg walk (entered when the
cursor starts at or above `fseq`; moving to the predecessor keeps
`seq ≥ fseq`, so the walk never turns forward again). -/
def walkBwd (fseq : Nat) (after : List IMsg) (cur : IMsg) (seqv : Nat) :
    List IMsg → WalkRes
  | [] =>
    if seqv = fseq ∧ ¬cur.dead then ⟨[], cur, after, seqv, true, true⟩
    else ⟨[], cur, after, seqv, true, false⟩
  | b :: rest =>
    if seqv = fseq ∧ ¬cur.dead then ⟨b :: rest, cur, after, seqv, true, true⟩
    else if seqv - cur.seq < fseq then ⟨b :: rest, cur, after, seqv, true, false⟩
    else walkBwd fseq (cur :: after) b (seqv - cur.seq) rest

/-- Split a list into a zipper at index `i` (the C cursor pointer). -/
def zipAt (l : List IMsg) (i : Nat) : List IMsg × IMsg × List IMsg :=
  ((l.take i).reverse, l.getD i default, l.drop (i + 1))

/-- imap_expunge_msg (src/imap_msgs.c:102-153).  Returns the new state and
the expunged message, if one was found.  The walk marks the found message
dead and decrements its relative seq (and the walk seq); `goto done` (the
forward walk running off the end) skips the decrement. -/
def expungeMsg (s : IMsgs) (fseq : Nat) : IMsgs × Option IMsg :=
  let s := ensureRel s
  match s.cursor with
  | none => (s, none)
  | some (ci, cseq) =>
    let (before, cur, after) := zipAt s.list ci
    let r :=
      if cseq < fseq then walkFwd fseq before cur cseq after
      else walkBwd fseq after cur cseq before
    let cur1 := if r.found then { r.cur with dead := true } else r.cur
    let cur2 := if r.lower then { cur1 with seq := cur1.seq - 1 } else cur1
    let seq2 := if r.lower then r.seqv - 1 else r.seqv
    let newList := r.before.reverse ++ cur2 :: r.after
    ({ list := newList, cursor := some (r.before.length, seq2) },
     if r.found then some cur1 else none)

/-- imap_new_msg plus the FETCH bookkeeping of the IMAP driver
(src/drv_imap.c:1307-1314): ensure absolute form, then append a message
with the absolute seq and uid from the FETCH response. -/
def fetchNew (s : IMsgs) (uid seq : Nat) : IMsgs :=
  let s := ensureAbs s
  { s with list := s.list ++ [⟨uid, seq, false⟩] }

/-- States of the message list reachable by interleaved FETCH/EXPUNGE
processing and load completion (imap_submit_load_p3 calls
imap_ensure_relative), starting from the empty reset state. -/
inductive Reached : IMsgs → Prop
  | init : Reached ⟨[], none⟩
  | fetch (s : IMsgs) (uid seq : Nat) (hs : Reached s)
      (hfresh : ∀ m ∈ s.list, m.uid ≠ uid) : Reached (fetchNew s uid seq)
  | expunge (s : IMsgs) (fseq : Nat) (hs : Reached s) :
      Reached (expungeMsg s fseq).1
  | loadDone (s : IMsgs) (hs : Reached s) : Reached (ensureRel s)

/-- uids of a state, in list order. -/
def uids (s : IMsgs) : List Nat := s.list.map IMsg.uid

theorem absGo_map_uid (a : Nat) (l : List IMsg) :
    (absGo a l).map IMsg.uid = l.map IMsg.uid := by
  induction l generalizing a with
  | nil => rfl
  | cons b rest ih => simp [absGo, ih]

theorem relGo_map_uid (p : Nat) (l : List IMsg) :
    (relGo p l).map IMsg.uid = l.map IMsg.uid := by
  induction l generalizing p with
  | nil => rfl
  | cons b rest ih => simp [relGo, ih]

theorem relativize_map_uid (l : List IMsg) :
    (relativize l).map IMsg.uid = l.map IMsg.uid := by
  cases l with
  | nil => rfl
  | cons a rest => simp [relativize, relGo_map_uid]

theorem relGo_absGo (p : Nat) (l : List IMsg) : relGo p (absGo p l) = l := by
  induction l generalizing p with
  | nil => rfl
  | cons b rest ih =>
    simp only [absGo, relGo, Nat.add_sub_cancel_left]
    rw [ih (p + b.seq)]

theorem relativize_absGo (l : List IMsg) : relativize (absGo 0 l) = l := by
  cases l with
  | nil => rfl
  | cons a rest =>
    simp only [absGo, relativize, Nat.zero_add]
    rw [relGo_absGo a.seq rest]

theorem sorted_byUid_iff (l : List IMsg) :
    l.Sorted byUid ↔ (l.map IMsg.uid).Sorted (· ≤ ·) := by
  unfold List.Sorted
  rw [List.pairwise_map]
  rfl

theorem sorted_of_map_uid_eq (l1 l2 : List IMsg)
    (h : l1.map IMsg.uid = l2.map IMsg.uid) (hs : l1.Sorted byUid) :
    l2.Sorted byUid := by
  rw [sorted_byUid_iff] at hs ⊢
  rw [← h]
  exact hs

/-- The walk of imap_expunge_msg only refocuses the zipper; the underlying
list is untouched. -/
theorem walkFwd_zip (fseq : Nat) (after : List IMsg) :
    ∀ (before : List IMsg) (cur : IMsg) (seqv : Nat),
    (walkFwd fseq before cur seqv after).before.reverse ++
      (walkFwd fseq before cur seqv after).cur :: (walkFwd fseq before cur seqv after).after =
      before.reverse ++ cur :: after := by
  induction after with
  | nil =>
    intro before cur seqv
    rw [walkFwd]
    split
    · rfl
    · split <;> rfl
  | cons a rest ih =>
    intro before cur seqv
    rw [walkFwd]
    split
    · rfl
    · split
      · rw [ih]
        simp
      · rfl

theorem walkBwd_zip (fseq : Nat) (before : List IMsg) :
    ∀ (after : List IMsg) (cur : IMsg) (seqv : Nat),
    (walkBwd fseq after cur seqv before).before.reverse ++
      (walkBwd fseq after cur seqv before).cur :: (walkBwd fseq after cur seqv before).after =
      before.reverse ++ cur :: after := by
  induction before with
  | nil =>
    intro after cur seqv
    rw [walkBwd]
    split <;> rfl
  | cons b rest ih =>
    intro after cur seqv
    rw [walkBwd]
    split
    · rfl
    · split
      · rfl
      · rw [ih]
        simp

/-- The model invariant: uids are pairwise distinct, and whenever the list
is in relative form the list is nonempty, sorted by uid, and the cursor
index is in range. -/
def Inv (s : IMsgs) : Prop :=
  (uids s).Nodup ∧
  ∀ ci cs, s.cursor = some (ci, cs) →
    s.list ≠ [] ∧ s.list.Sorted byUid ∧ ci < s.list.length

theorem ensureRel_inv (s : IMsgs) (h : Inv s) : Inv (ensureRel s) := by
  unfold ensureRel
  by_cases hc : s.cursor.isSome
  · simpa [hc] using h
  · rw [if_neg hc]
    by_cases he : s.list.isEmpty
    · simpa [he] using h
    · rw [if_neg he]
      have hperm : List.Perm ((List.insertionSort byUid s.list).map IMsg.uid)
          (s.list.map IMsg.uid) :=
        (List.perm_insertionSort byUid s.list).map IMsg.uid
      have hmap : (relativize (List.insertionSort byUid s.list)).map IMsg.uid =
          (List.insertionSort byUid s.list).map IMsg.uid := relativize_map_uid _
      have hlen : (relativize (List.insertionSort byUid s.list)).length = s.list.length := by
        have hh := congrArg List.length hmap
        simp only [List.length_map] at hh
        rw [hh, List.length_insertionSort]
      have hpos : 0 < s.list.length := by
        cases hl : s.list with
        | nil => rw [hl] at he; simp at he
        | cons a r => simp [hl]
      refine ⟨?_, ?_⟩
      · show ((relativize (List.insertionSort byUid s.list)).map IMsg.uid).Nodup
        rw [hmap]
        exact hperm.nodup_iff.mpr h.1
      · intro ci cs hcur
        simp only [Option.some.injEq, Prod.mk.injEq] at hcur
        show relativize (List.insertionSort byUid s.list) ≠ [] ∧
          (relativize (List.insertionSort byUid s.list)).Sorted byUid ∧
          ci < (relativize (List.insertionSort byUid s.list)).length
        refine ⟨?_, ?_, ?_⟩
        · intro hnil
          rw [hnil] at hlen
          simp at hlen
          omega
        · exact sorted_of_map_uid_eq _ _ hmap.symm (List.sorted_insertionSort byUid s.list)
        · rw [← hcur.1, hlen]
          exact hpos

theorem uids_ensureAbs (s : IMsgs) : uids (ensureAbs s) = uids s := by
  unfold ensureAbs uids
  by_cases hc : s.cursor.isSome
  · rw [if_pos hc]
    exact absGo_map_uid 0 s.list
  · rw [if_neg hc]

theorem ensureAbs_cursor (s : IMsgs) : (ensureAbs s).cursor = none := by
  unfold ensureAbs
  by_cases hc : s.cursor.isSome
  · rw [if_pos hc]
  · rw [if_neg hc]
    exact Option.not_isSome_iff_eq_none.mp (by simp [hc])

theorem ensureAbs_inv (s : IMsgs) (h : Inv s) : Inv (ensureAbs s) := by
  refine ⟨?_, ?_⟩
  · rw [uids_ensureAbs]
    exact h.1
  · intro ci cs hcur
    rw [ensureAbs_cursor] at hcur
    exact absurd hcur (by simp)

theorem fetchNew_inv (s : IMsgs) (uid seq : Nat) (h : Inv s)
    (hfresh : ∀ m ∈ s.list, m.uid ≠ uid) : Inv (fetchNew s uid seq) := by
  have habs := ensureAbs_inv s h
  refine ⟨?_, ?_⟩
  · show ((((ensureAbs s).list) ++ [(⟨uid, seq, false⟩ : IMsg)]).map IMsg.uid).Nodup
    rw [List.map_append]
    rw [List.nodup_append]
    refine ⟨habs.1, by simp, ?_⟩
    intro x hx hx2
    simp only [List.map_cons, List.map_nil, List.mem_cons, List.not_mem_nil, or_false] at hx2
    subst hx2
    have hxs : x ∈ uids s := by
      have hu := uids_ensureAbs s
      unfold uids at hu ⊢
      rw [← hu]
      exact hx
    unfold uids at hxs
    obtain ⟨m, hm, hmu⟩ := List.mem_map.mp hxs
    exact hfresh m hm hmu
  · intro ci cs hcur
    have hcc : (fetchNew s uid seq).cursor = (ensureAbs s).cursor := rfl
    rw [hcc, ensureAbs_cursor] at hcur
    exact absurd hcur (by simp)

theorem expungeMsg_list_uids (s : IMsgs) (fseq : Nat) (h : Inv s) :
    uids (expungeMsg s fseq).1 = uids (ensureRel s) := by
  have h1 : Inv (ensureRel s) := ensureRel_inv s h
  unfold expungeMsg
  cases hcur : (ensureRel s).cursor with
  | none => simp [hcur, uids]
  | some p =>
    obtain ⟨ci, cs⟩ := p
    obtain ⟨hne, hsort, hci⟩ := h1.2 ci cs hcur
    simp only [hcur]
    set l := (ensureRel s).list with hl
    have hzip : ((l.take ci).reverse).reverse ++ l.getD ci default :: l.drop (ci + 1) = l := by
      rw [List.reverse_reverse, List.getD_eq_getElem l default hci,
        ← List.drop_eq_getElem_cons hci, List.take_append_drop]
    -- the walk refocuses the same zipper
    set r := if cs < fseq then walkFwd fseq ((l.take ci).reverse) (l.getD ci default) cs (l.drop (ci + 1))
             else walkBwd fseq (l.drop (ci + 1)) (l.getD ci default) cs ((l.take ci).reverse) with hr
    have hrzip : r.before.reverse ++ r.cur :: r.after =
        ((l.take ci).reverse).reverse ++ l.getD ci default :: l.drop (ci + 1) := by
      rw [hr]
      by_cases hlt : cs < fseq
      · rw [if_pos hlt]
        exact walkFwd_zip fseq (l.drop (ci + 1)) ((l.take ci).reverse) (l.getD ci default) cs
      · rw [if_neg hlt]
        exact walkBwd_zip fseq ((l.take ci).reverse) (l.drop (ci + 1)) (l.getD ci default) cs
    show ((r.before.reverse ++
        (if r.lower then { (if r.found then { r.cur with dead := true } else r.cur) with
            seq := (if r.found then { r.cur with dead := true } else r.cur).seq - 1 }
          else (if r.found then { r.cur with dead := true } else r.cur)) :: r.after).map IMsg.uid) =
      l.map IMsg.uid
    have huidmid : (if r.lower then { (if r.found then { r.cur with dead := true } else r.cur) with
            seq := (if r.found then { r.cur with dead := true } else r.cur).seq - 1 }
          else (if r.found then { r.cur with dead := true } else r.cur)).uid = r.cur.uid := by
      by_cases hlow : r.lower <;> by_cases hf : r.found <;> simp [hlow, hf]
    rw [List.map_append, List.map_cons, huidmid, ← List.map_cons, ← List.map_append, hrzip, hzip]

theorem expungeMsg_shape (s : IMsgs) (fseq : Nat) :
    (expungeMsg s fseq).1 = ensureRel s ∨
    ∃ (bl : List IMsg) (cur2 : IMsg) (after : List IMsg) (seq2 : Nat),
      (expungeMsg s fseq).1.list = bl.reverse ++ cur2 :: after ∧
      (expungeMsg s fseq).1.cursor = some (bl.length, seq2) := by
  unfold expungeMsg
  cases hcur : (ensureRel s).cursor with
  | none =>
    left
    simp only [hcur]
  | some p =>
    obtain ⟨ci, cs⟩ := p
    right
    simp only [hcur, zipAt]
    exact ⟨_, _, _, _, rfl, rfl⟩

theorem expungeMsg_inv (s : IMsgs) (fseq : Nat) (h : Inv s) : Inv (expungeMsg s fseq).1 := by
  have h1 : Inv (ensureRel s) := ensureRel_inv s h
  have huids := expungeMsg_list_uids s fseq h
  cases expungeMsg_shape s fseq with
  | inl heq => rw [heq]; exact h1
  | inr hsh =>
    obtain ⟨bl, cur2, after, seq2, hlist, hcur⟩ := hsh
    refine ⟨?_, ?_⟩
    · show (uids (expungeMsg s fseq).1).Nodup
      rw [huids]
      exact h1.1
    · intro ci2 cs2 hcur2
      rw [hcur] at hcur2
      simp only [Option.some.injEq, Prod.mk.injEq] at hcur2
      have hmapeq : (expungeMsg s fseq).1.list.map IMsg.uid = (ensureRel s).list.map IMsg.uid :=
        huids
      refine ⟨?_, ?_, ?_⟩
      · rw [hlist]; simp
      · -- sorted: the expunge walk preserves uids and order, and (ensureRel s)
        -- is sorted whenever its cursor is set; when it is not, the expunge
        -- result equals (s', none) and cannot have a cursor, contradiction.
        cases hcr : (ensureRel s).cursor with
        | none =>
          exfalso
          have : (expungeMsg s fseq).1 = ensureRel s := by
            unfold expungeMsg
            simp only [hcr]
          rw [this] at hcur
          rw [hcr] at hcur
          exact Option.noConfusion hcur
        | some p =>
          obtain ⟨ci, cs⟩ := p
          obtain ⟨-, hsort, -⟩ := h1.2 ci cs hcr
          exact sorted_of_map_uid_eq _ _ hmapeq.symm hsort
      · rw [← hcur2.1, hlist]
        simp

/-- All states reachable by the driver's FETCH/EXPUNGE/load processing
satisfy the bookkeeping invariant. -/
theorem reached_inv (s : IMsgs) (h : Reached s) : Inv s := by
  induction h with
  | init =>
    refine ⟨by simp [uids], ?_⟩
    intro ci cs hcur
    exact absurd hcur (by simp)
  | fetch s uid seq hs hfresh ih => exact fetchNew_inv s uid seq ih hfresh
  | expunge s fseq hs ih => exact expungeMsg_inv s fseq ih
  | loadDone s hs ih => exact ensureRel_inv s ih

end ImapMsgs

/-- C8: for any message list produced by a sequence of interleaved
EXPUNGE/FETCH/EXISTS processing (modelled by `ImapMsgs.Reached`), whenever
the list is in relative-seq form, converting it to absolute sequence
numbers (imap_ensure_absolute) and back to relative form
(imap_ensure_relative) reproduces exactly the same entries with the same
relative offsets. -/
theorem C8_seq_bookkeeping_roundtrip (s : ImapMsgs.IMsgs) (h : ImapMsgs.Reached s)
    (hc : s.cursor.isSome) :
    (ImapMsgs.ensureRel (ImapMsgs.ensureAbs s)).list = s.list := by
  have hinv := ImapMsgs.reached_inv s h
  obtain ⟨⟨ci, cs⟩, hcur⟩ := Option.isSome_iff_exists.mp hc
  obtain ⟨hne, hsort, -⟩ := hinv.2 ci cs hcur
  have habs : ImapMsgs.ensureAbs s =
      { list := ImapMsgs.absGo 0 s.list, cursor := none } := by
    unfold ImapMsgs.ensureAbs
    rw [if_pos hc]
  rw [habs]
  have hlen : (ImapMsgs.absGo 0 s.list).length = s.list.length := by
    have hh := congrArg List.length (ImapMsgs.absGo_map_uid 0 s.list)
    simpa using hh
  have hne2 : (ImapMsgs.absGo 0 s.list).isEmpty = false := by
    cases hl : s.list with
    | nil => exact absurd hl hne
    | cons a r => rfl
  have hsorted_abs : (ImapMsgs.absGo 0 s.list).Sorted ImapMsgs.byUid :=
    ImapMsgs.sorted_of_map_uid_eq _ _ (ImapMsgs.absGo_map_uid 0 s.list).symm hsort
  show (ImapMsgs.ensureRel ⟨ImapMsgs.absGo 0 s.list, none⟩).list = s.list
  unfold ImapMsgs.ensureRel
  rw [if_neg (by simp), if_neg (by simp [hne2])]
  show ImapMsgs.relativize (List.insertionSort ImapMsgs.byUid (ImapMsgs.absGo 0 s.list)) = s.list
  rw [hsorted_abs.insertionSort_eq]
  exact ImapMsgs.relativize_absGo s.list

/-- Witness for C8: load two messages (uids 5 and 9), switch to relative
form, expunge seq 1, and check the absolute/relative round trip on the
resulting state. -/
theorem C8_witness :
    (ImapMsgs.ensureRel (ImapMsgs.ensureAbs
        ((ImapMsgs.expungeMsg (ImapMsgs.ensureRel
          (ImapMsgs.fetchNew (ImapMsgs.fetchNew ⟨[], none⟩ 5 1) 9 2)) 1).1))).list =
      ((ImapMsgs.expungeMsg (ImapMsgs.ensureRel
          (ImapMsgs.fetchNew (ImapMsgs.fetchNew ⟨[], none⟩ 5 1) 9 2)) 1).1).list :=
  C8_seq_bookkeeping_roundtrip _
    (ImapMsgs.Reached.expunge _ 1
      (ImapMsgs.Reached.loadDone _
        (ImapMsgs.Reached.fetch _ 9 2
          (ImapMsgs.Reached.fetch _ 5 1 ImapMsgs.Reached.init (by decide))
          (by decide))))
    (by decide)

/-! ## The maxuid / maxxfuid counters (C1)

The three persistent counters of a mailbox pair are MaxPulledUid
(`maxuid[F]`), MaxPushedUid (`maxuid[N]`) and MaxExpiredFarUid
(`maxxfuid`).  A run also keeps `newmaxuid[2]` and `oldmaxuid[2]`
(src/sync_p.h:59-65).  The embedding below collects every statement in
the source that writes one of these counters during a run over a
current-format committed state, together with the journal entries those
statements emit and the counter effects of replaying such entries in
load_state.  (The pre-1.3 legacy state-file conversion in
src/sync_state.c:234-259 concerns state files no version of save_state
ever wrote and is outside this model.) -/

namespace Counters

/-- In-run counter state.  load_state initializes
`newmaxuid[t] = maxuid[t]` (src/sync_state.c:261-262); `oldmaxuid` is
snapshotted in box_loaded (src/sync.c:890-891). -/
structure RState where
  maxuidF : Nat
  maxuidN : Nat
  newmaxF : Nat
  newmaxN : Nat
  oldmaxF : Nat
  oldmaxN : Nat
  maxxfuid : Nat
deriving Repr, DecidableEq

def RState.maxuid (s : RState) (t : Bool) : Nat := if t then s.maxuidN else s.maxuidF

def RState.newmax (s : RState) (t : Bool) : Nat := if t then s.newmaxN else s.newmaxF

def setMaxuid (s : RState) (t : Bool) (v : Nat) : RState :=
  if t then { s with maxuidN := v } else { s with maxuidF := v }

def setNewmax (s : RState) (t : Bool) (v : Nat) : RState :=
  if t then { s with newmaxN := v } else { s with newmaxF := v }

/-- The run starts from the committed counters (a freshly loaded state). -/
def initRun (mF mN xf : Nat) : RState := ⟨mF, mN, mF, mN, mF, mN, xf⟩

/-- Counter effect of assign_uid (src/sync_state.c:531-547): newmaxuid is
advanced only when the assigned uid is exactly contiguous. -/
def assignUidEff (t : Bool) (uid : Nat) (s : RState) : RState :=
  if uid = s.newmax t + 1 then setNewmax s t uid else s

/-- The counter-relevant operations a run performs, each mirroring one
assignment in the source. -/
inductive COp
  /-- assign_uid on side t (also reached from journal replay of a
  '<' or '>' entry); logs that entry first via ASSIGN_UID. -/
  | assignUid (t : Bool) (uid : Nat)
  /-- creation of a fresh sync record for a new message on side t
  (src/sync.c:1152-1162): `if (newmaxuid[t] < uid) newmaxuid[t] = uid`,
  plus the '+' journal entry (far uid and near uid, one of them 0). -/
  | newRec (t : Bool) (uid : Nat)
  /-- the legacy catch-up bump for paired messages while `topping`
  (src/sync.c:1054-1055); not journalled. -/
  | bumpNew (t : Bool) (uid : Nat)
  /-- maxxfuid advance: `if (maxxfuid < uid) maxxfuid = uid`
  (src/sync.c:1291-1292 and src/sync.c:1563-1564), each followed by a
  '~' journal entry whose logged status has S_EXPIRED set. -/
  | bumpXf (uid : Nat)
  /-- the oldmaxuid snapshot of box_loaded (src/sync.c:890-891). -/
  | snapshot
  /-- the commit of box_closed_p2 (src/sync.c:1874-1882):
  `maxuid[t] = newmaxuid[t]`, logging 'N' when it differs from
  oldmaxuid[t]. -/
  | commit

def applyCOp (s : RState) : COp → RState
  | .assignUid t uid => assignUidEff t uid s
  | .newRec t uid => if s.newmax t < uid then setNewmax s t uid else s
  | .bumpNew t uid => if s.newmax t < uid then setNewmax s t uid else s
  | .bumpXf uid => if s.maxxfuid < uid then { s with maxxfuid := uid } else s
  | .snapshot => { s with oldmaxF := s.newmaxF, oldmaxN := s.newmaxN }
  | .commit => { s with maxuidF := s.newmaxF, maxuidN := s.newmaxN }

def runOps (s : RState) (ops : List COp) : RState := ops.foldl applyCOp s

/-- The journal entries relevant to the counters, with the uid arguments
they carry. -/
inductive JEnt
  /-- '<' or '>' (uid assignment on side t with new uid). -/
  | assign (t : Bool) (uid : Nat)
  /-- '+' (new entry with far uid uf and near uid un; one of them 0). -/
  | add (uf un : Nat)
  /-- 'N' (new maxuid of side t). -/
  | setMax (t : Bool) (uid : Nat)
  /-- '~' (logged status bits; `expired` is its S_EXPIRED bit, `uid` the
  record's uid on the far side). -/
  | xf (uid : Nat) (expired : Bool)

/-- The journal entries an operation emits (JLOG sites named on `COp`). -/
def entriesOf (s : RState) : COp → List JEnt
  | .assignUid t uid => [.assign t uid]
  | .newRec t uid => [if t then .add 0 uid else .add uid 0]
  | .bumpNew _ _ => []
  | .bumpXf uid => [.xf uid true]
  | .snapshot => []
  | .commit =>
    (if s.newmaxF ≠ s.oldmaxF then [JEnt.setMax false s.newmaxF] else []) ++
    (if s.newmaxN ≠ s.oldmaxN then [JEnt.setMax true s.newmaxN] else [])

/-- The whole journal written by a run. -/
def journalOf (s : RState) : List COp → List JEnt
  | [] => []
  | op :: ops => entriesOf s op ++ journalOf (applyCOp s op) ops

/-- Counter effect of replaying one journal entry in load_state
(src/sync_state.c:327-347 for 'N' and '+', 377-384 for '<' and '>',
398-403 for '~'). -/
def replayEnt (s : RState) : JEnt → RState
  | .assign t uid => assignUidEff t uid s
  | .add uf un =>
    let s1 := if s.newmaxF < uf then setNewmax s false uf else s
    if s1.newmaxN < un then setNewmax s1 true un else s1
  | .setMax t uid => setNewmax (setMaxuid s t uid) t uid
  | .xf uid expired =>
    if expired ∧ s.maxxfuid < uid then { s with maxxfuid := uid } else s

def replayList (s : RState) (es : List JEnt) : RState := es.foldl replayEnt s

/-- Pointwise order on the counters a run may never lower. -/
def cle (a b : RState) : Prop :=
  a.maxuidF ≤ b.maxuidF ∧ a.maxuidN ≤ b.maxuidN ∧
  a.newmaxF ≤ b.newmaxF ∧ a.newmaxN ≤ b.newmaxN ∧ a.maxxfuid ≤ b.maxxfuid

/-- The in-run well-formedness: newmaxuid never falls behind maxuid. -/
def Wf (s : RState) : Prop := s.maxuidF ≤ s.newmaxF ∧ s.maxuidN ≤ s.newmaxN

theorem cle_refl (s : RState) : cle s s := by
  unfold cle
  omega

theorem cle_trans (a b c : RState) (h1 : cle a b) (h2 : cle b c) : cle a c := by
  unfold cle at *
  omega

theorem applyCOp_mono (s : RState) (op : COp) (hwf : Wf s) :
    cle s (applyCOp s op) ∧ Wf (applyCOp s op) := by
  unfold Wf at hwf
  cases op with
  | assignUid t uid =>
    simp only [applyCOp, assignUidEff, setNewmax, RState.newmax, cle, Wf]
    cases t <;> split_ifs <;> simp_all <;> omega
  | newRec t uid =>
    simp only [applyCOp, setNewmax, RState.newmax, cle, Wf]
    cases t <;> split_ifs <;> simp_all <;> omega
  | bumpNew t uid =>
    simp only [applyCOp, setNewmax, RState.newmax, cle, Wf]
    cases t <;> split_ifs <;> simp_all <;> omega
  | bumpXf uid =>
    simp only [applyCOp, cle, Wf]
    split_ifs <;> simp_all <;> omega
  | snapshot =>
    simp only [applyCOp, cle, Wf]
    simp_all
  | commit =>
    simp only [applyCOp, cle, Wf]
    simp_all

theorem runOps_mono (ops : List COp) : ∀ (s : RState), Wf s →
    cle s (runOps s ops) ∧ Wf (runOps s ops) := by
  induction ops with
  | nil => intro s hwf; exact ⟨cle_refl s, hwf⟩
  | cons op ops ih =>
    intro s hwf
    have h1 := applyCOp_mono s op hwf
    have h2 := ih (applyCOp s op) h1.2
    exact ⟨cle_trans _ _ _ h1.1 h2.1, h2.2⟩

/-- Every 'N' journal entry written by a run from a well-formed state
carries a value at least the state's newmaxuid at journal time; together
with run monotonicity, at least the initial committed maxuid. -/
def entsBounded (mF mN : Nat) : List JEnt → Prop
  | [] => True
  | e :: es =>
    (∀ t v, e = JEnt.setMax t v → (if t then mN else mF) ≤ v) ∧ entsBounded mF mN es

theorem entsBounded_append (mF mN : Nat) (l1 l2 : List JEnt)
    (h1 : entsBounded mF mN l1) (h2 : entsBounded mF mN l2) :
    entsBounded mF mN (l1 ++ l2) := by
  induction l1 with
  | nil => simpa using h2
  | cons e es ih => exact ⟨h1.1, ih h1.2⟩

theorem journalOf_bounded (ops : List COp) : ∀ (s : RState), Wf s →
    entsBounded s.maxuidF s.maxuidN (journalOf s ops) := by
  induction ops with
  | nil => intro s _; trivial
  | cons op ops ih =>
    intro s hwf
    have hmono := applyCOp_mono s op hwf
    have hrec := ih (applyCOp s op) hmono.2
    have hweak : entsBounded s.maxuidF s.maxuidN (journalOf (applyCOp s op) ops) := by
      -- weaken the bound from the post-op maxuid to the pre-op maxuid
      have hF : s.maxuidF ≤ (applyCOp s op).maxuidF := hmono.1.1
      have hN : s.maxuidN ≤ (applyCOp s op).maxuidN := hmono.1.2.1
      clear hmono hwf ih
      generalize journalOf (applyCOp s op) ops = es at hrec ⊢
      induction es with
      | nil => trivial
      | cons e es ihe =>
        refine ⟨?_, ihe hrec.2⟩
        intro t v hev
        have := hrec.1 t v hev
        cases t <;> simp at this ⊢ <;> omega
    refine entsBounded_append _ _ _ _ ?_ hweak
    cases op with
    | assignUid t uid => exact ⟨fun t2 v h => JEnt.noConfusion h, trivial⟩
    | newRec t uid =>
      refine ⟨?_, trivial⟩
      intro t2 v h
      cases t <;> simp [entriesOf] at h
    | bumpNew t uid => trivial
    | bumpXf uid => exact ⟨fun t2 v h => JEnt.noConfusion h, trivial⟩
    | snapshot => trivial
    | commit =>
      unfold entriesOf
      have hwfF : s.maxuidF ≤ s.newmaxF := hwf.1
      have hwfN : s.maxuidN ≤ s.newmaxN := hwf.2
      refine entsBounded_append _ _ _ _ ?_ ?_
      · split
        · refine ⟨?_, trivial⟩
          intro t v h
          cases h
          simpa using hwfF
        · trivial
      · split
        · refine ⟨?_, trivial⟩
          intro t v h
          cases h
          simpa using hwfN
        · trivial

theorem replayEnt_mono (s : RState) (e : JEnt) (mF mN : Nat)
    (hF : mF ≤ s.maxuidF) (hN : mN ≤ s.maxuidN) (hwf : Wf s)
    (hbound : ∀ t v, e = JEnt.setMax t v → (if t then mN else mF) ≤ v) :
    (mF ≤ (replayEnt s e).maxuidF ∧ mN ≤ (replayEnt s e).maxuidN ∧
      s.maxxfuid ≤ (replayEnt s e).maxxfuid) ∧ Wf (replayEnt s e) := by
  unfold Wf at hwf
  cases e with
  | assign t uid =>
    simp only [replayEnt, assignUidEff, setNewmax, RState.newmax, Wf]
    cases t <;> split_ifs <;> simp_all <;> omega
  | add uf un =>
    simp only [replayEnt, setNewmax, Wf]
    split_ifs <;> simp_all <;> omega
  | setMax t uid =>
    have hb := hbound t uid rfl
    simp only [replayEnt, setNewmax, setMaxuid, Wf]
    cases t <;> simp_all <;> omega
  | xf uid expired =>
    simp only [replayEnt, Wf]
    split_ifs <;> simp_all <;> omega

theorem replayList_mono (es : List JEnt) : ∀ (s : RState) (mF mN : Nat),
    mF ≤ s.maxuidF → mN ≤ s.maxuidN → Wf s → entsBounded mF mN es →
    (mF ≤ (replayList s es).maxuidF ∧ mN ≤ (replayList s es).maxuidN ∧
      s.maxxfuid ≤ (replayList s es).maxxfuid) ∧ Wf (replayList s es) := by
  induction es with
  | nil => intro s mF mN hF hN hwf _; exact ⟨⟨hF, hN, le_refl _⟩, hwf⟩
  | cons e es ih =>
    intro s mF mN hF hN hwf hb
    have h1 := replayEnt_mono s e mF mN hF hN hwf hb.1
    have h2 := ih (replayEnt s e) mF mN h1.1.1 h1.1.2.1 h1.2 hb.2
    refine ⟨⟨h2.1.1, h2.1.2.1, le_trans h1.1.2.2 h2.1.2.2⟩, h2.2⟩

end Counters

/-- C1: the counters maxuid[F], maxuid[N] and maxxfuid are monotone
non-decreasing.  (1) Starting from any committed state, no in-run counter
operation ever lowers any of maxuid, newmaxuid, maxxfuid, so the values
committed by save_state (maxuid[t] = newmaxuid[t] at commit) are at least
the previously committed ones.  (2) Replaying the journal written by any
run over the previously committed state, as load_state does, also never
takes maxuid[F], maxuid[N] or maxxfuid below their previously committed
values. -/
theorem C1_counters_monotone (mF mN xf : Nat) (ops : List Counters.COp) :
    (Counters.cle (Counters.initRun mF mN xf)
        (Counters.runOps (Counters.initRun mF mN xf) ops) ∧
      mF ≤ (Counters.runOps (Counters.initRun mF mN xf) ops).maxuidF ∧
      mN ≤ (Counters.runOps (Counters.initRun mF mN xf) ops).maxuidN ∧
      xf ≤ (Counters.runOps (Counters.initRun mF mN xf) ops).maxxfuid) ∧
    (mF ≤ (Counters.replayList (Counters.initRun mF mN xf)
            (Counters.journalOf (Counters.initRun mF mN xf) ops)).maxuidF ∧
      mN ≤ (Counters.replayList (Counters.initRun mF mN xf)
            (Counters.journalOf (Counters.initRun mF mN xf) ops)).maxuidN ∧
      xf ≤ (Counters.replayList (Counters.initRun mF mN xf)
            (Counters.journalOf (Counters.initRun mF mN xf) ops)).maxxfuid) := by
  have hwf0 : Counters.Wf (Counters.initRun mF mN xf) := ⟨le_refl _, le_refl _⟩
  have hrun := Counters.runOps_mono ops (Counters.initRun mF mN xf) hwf0
  have hF0 : mF ≤ (Counters.initRun mF mN xf).maxuidF := le_refl _
  have hN0 : mN ≤ (Counters.initRun mF mN xf).maxuidN := le_refl _
  have hb := Counters.journalOf_bounded ops (Counters.initRun mF mN xf) hwf0
  have hrep := Counters.replayList_mono
    (Counters.journalOf (Counters.initRun mF mN xf) ops)
    (Counters.initRun mF mN xf) mF mN hF0 hN0 hwf0 hb
  refine ⟨⟨hrun.1, ?_, ?_, ?_⟩, hrep.1.1, hrep.1.2.1, hrep.1.2.2⟩
  · exact hrun.1.1
  · exact hrun.1.2.1
  · exact hrun.1.2.2.2.2

/-! ## UIDVALIDITY recovery (C4, src/sync.c:836-882)

When the UIDVALIDITY of exactly one side changed, box_loaded walks the
sync records and checks, by Message-ID, whether the paired messages are
still the same.  We model each record by its liveness, its uid pair, and
the loaded message (with optional Message-ID, abstracted to a number) on
the changed side (`msgT`) and the other side (`msgO`).  `none` means the
message is not present/loaded; `some none` a message without Message-ID. -/

namespace UidVal

structure VRec where
  dead : Bool
  uidT : Nat
  uidO : Nat
  msgT : Option (Option Nat)
  msgO : Option (Option Nat)
deriving Repr, DecidableEq

inductive VOutcome | fail | accept
deriving Repr, DecidableEq

/-- The counting loop (src/sync.c:842-862): every live record counts
toward `need`; records whose changed-side message disappeared, carries no
Message-ID, or whose partner disappeared are skipped; a present partner
without Message-ID or with a different Message-ID aborts with an error
(`none`); otherwise the record counts toward `got`. -/
def tally : List VRec → Option (Nat × Nat)
  | [] => some (0, 0)
  | r :: rest =>
    if r.dead then tally rest
    else
      match r.msgT with
      | none => (tally rest).map (fun p => (p.1 + 1, p.2))
      | some none => (tally rest).map (fun p => (p.1 + 1, p.2))
      | some (some idT) =>
        match r.msgO with
        | none => (tally rest).map (fun p => (p.1 + 1, p.2))
        | some none => none
        | some (some idO) =>
          if idT = idO then (tally rest).map (fun p => (p.1 + 1, p.2 + 1))
          else none

/-- The acceptance decision (src/sync.c:853-881): a contradicting record
fails outright; otherwise the new validity is accepted unless
`got < 20 && got * 5 < need * 4`. -/
def uvApprove (recs : List VRec) : VOutcome :=
  match tally recs with
  | none => .fail
  | some (need, got) => if got < 20 ∧ got * 5 < need * 4 then .fail else .accept

/-- A record that disproves the spurious-change hypothesis. -/
def isContra (r : VRec) : Bool :=
  !r.dead &&
    (match r.msgT, r.msgO with
     | some (some _), some none => true
     | some (some idT), some (some idO) => idT ≠ idO
     | _, _ => false)

/-- A record whose pair still matches by Message-ID. -/
def isMatch (r : VRec) : Bool :=
  !r.dead &&
    (match r.msgT, r.msgO with
     | some (some idT), some (some idO) => idT = idO
     | _, _ => false)

def isLive (r : VRec) : Bool := !r.dead

theorem tally_spec (recs : List VRec) :
    (tally recs = none ↔ recs.any isContra) ∧
    (¬recs.any isContra →
      tally recs = some (recs.countP isLive, recs.countP isMatch)) := by
  induction recs with
  | nil => refine ⟨by simp [tally], fun _ => by simp [tally]⟩
  | cons r rest ih =>
    by_cases hd : r.dead
    · have h1 : tally (r :: rest) = tally rest := by
        simp [tally, hd]
      have h2 : isContra r = false := by simp [isContra, hd]
      have h3 : isMatch r = false := by simp [isMatch, hd]
      have h4 : isLive r = false := by simp [isLive, hd]
      constructor
      · rw [h1, List.any_cons, h2]
        simpa using ih.1
      · intro hna
        rw [List.any_cons, h2] at hna
        simp only [Bool.false_or] at hna
        rw [h1, List.countP_cons, List.countP_cons, h3, h4]
        simpa using ih.2 (by simpa using hna)
    · cases hmt : r.msgT with
      | none =>
        have h1 : tally (r :: rest) = (tally rest).map (fun p => (p.1 + 1, p.2)) := by
          simp [tally, hd, hmt]
        have h2 : isContra r = false := by simp [isContra, hmt]
        have h3 : isMatch r = false := by simp [isMatch, hmt]
        have h4 : isLive r = true := by simp [isLive, hd]
        constructor
        · rw [h1, List.any_cons, h2]
          cases htr : tally rest with
          | none => simpa [htr] using (ih.1.mp htr)
          | some p =>
            simp only [Option.map_some, Bool.false_or]
            constructor
            · intro hh; exact Option.noConfusion hh
            · intro hany
              exact absurd (ih.1.mpr (by simpa using hany)) (by simp [htr])
        · intro hna
          rw [List.any_cons, h2] at hna
          simp only [Bool.false_or] at hna
          have := ih.2 (by simpa using hna)
          rw [h1, this, List.countP_cons, List.countP_cons, h3, h4]
          simp
      | some mid =>
        cases mid with
        | none =>
          have h1 : tally (r :: rest) = (tally rest).map (fun p => (p.1 + 1, p.2)) := by
            simp [tally, hd, hmt]
          have h2 : isContra r = false := by simp [isContra, hmt]
          have h3 : isMatch r = false := by simp [isMatch, hmt]
          have h4 : isLive r = true := by simp [isLive, hd]
          constructor
          · rw [h1, List.any_cons, h2]
            cases htr : tally rest with
            | none => simpa [htr] using (ih.1.mp htr)
            | some p =>
              simp only [Option.map_some, Bool.false_or]
              constructor
              · intro hh; exact Option.noConfusion hh
              · intro hany
                exact absurd (ih.1.mpr (by simpa using hany)) (by simp [htr])
          · intro hna
            rw [List.any_cons, h2] at hna
            simp only [Bool.false_or] at hna
            have := ih.2 (by simpa using hna)
            rw [h1, this, List.countP_cons, List.countP_cons, h3, h4]
            simp
        | some idT =>
          cases hmo : r.msgO with
          | none =>
            have h1 : tally (r :: rest) = (tally rest).map (fun p => (p.1 + 1, p.2)) := by
              simp [tally, hd, hmt, hmo]
            have h2 : isContra r = false := by simp [isContra, hmt, hmo]
            have h3 : isMatch r = false := by simp [isMatch, hmt, hmo]
            have h4 : isLive r = true := by simp [isLive, hd]
            constructor
            · rw [h1, List.any_cons, h2]
              cases htr : tally rest with
              | none => simpa [htr] using (ih.1.mp htr)
              | some p =>
                simp only [Option.map_some, Bool.false_or]
                constructor
                · intro hh; exact Option.noConfusion hh
                · intro hany
                  exact absurd (ih.1.mpr (by simpa using hany)) (by simp [htr])
            · intro hna
              rw [List.any_cons, h2] at hna
              simp only [Bool.false_or] at hna
              have := ih.2 (by simpa using hna)
              rw [h1, this, List.countP_cons, List.countP_cons, h3, h4]
              simp
          | some mido =>
            cases mido with
            | none =>
              have h1 : tally (r :: rest) = none := by
                simp [tally, hd, hmt, hmo]
              have h2 : isContra r = true := by simp [isContra, hd, hmt, hmo]
              constructor
              · rw [h1, List.any_cons, h2]
                simp
              · intro hna
                rw [List.any_cons, h2] at hna
                simp at hna
            | some idO =>
              by_cases heq : idT = idO
              · have h1 : tally (r :: rest) =
                    (tally rest).map (fun p => (p.1 + 1, p.2 + 1)) := by
                  simp [tally, hd, hmt, hmo, heq]
                have h2 : isContra r = false := by simp [isContra, hmt, hmo, heq]
                have h3 : isMatch r = true := by simp [isMatch, hd, hmt, hmo, heq]
                have h4 : isLive r = true := by simp [isLive, hd]
                constructor
                · rw [h1, List.any_cons, h2]
                  cases htr : tally rest with
                  | none => simpa [htr] using (ih.1.mp htr)
                  | some p =>
                    simp only [Option.map_some, Bool.false_or]
                    constructor
                    · intro hh; exact Option.noConfusion hh
                    · intro hany
                      exact absurd (ih.1.mpr (by simpa using hany)) (by simp [htr])
                · intro hna
                  rw [List.any_cons, h2] at hna
                  simp only [Bool.false_or] at hna
                  have := ih.2 (by simpa using hna)
                  rw [h1, this, List.countP_cons, List.countP_cons, h3, h4]
                  simp
              · have h1 : tally (r :: rest) = none := by
                  simp [tally, hd, hmt, hmo, heq]
                have h2 : isContra r = true := by simp [isContra, hd, hmt, hmo, heq]
                constructor
                · rw [h1, List.any_cons, h2]
                  simp
                · intro hna
                  rw [List.any_cons, h2] at hna
                  simp at hna

end UidVal

/-- C4, as the specification states it: the new validity is accepted iff
no record contradicts the pairing and at least 20 pairs still match or at
least 80 percent of the previously-present paired records (both uids
nonzero) still match. -/
def claimC4asStated : Prop :=
  ∀ recs : List UidVal.VRec,
    UidVal.uvApprove recs = UidVal.VOutcome.accept ↔
      (¬recs.any UidVal.isContra ∧
        (20 ≤ recs.countP UidVal.isMatch ∨
          4 * recs.countP (fun r => !r.dead && (r.uidT != 0) && (r.uidO != 0)) ≤
            5 * recs.countP UidVal.isMatch))

/-- C4 counterexample: one matching pair plus four orphaned records
(uid 0 on the changed side, no messages).  All previously-present paired
records still match, so the claim demands acceptance, but box_loaded's
`need` counts every live record, giving got=1, need=5 and
`got*5 < need*4`, so the code fails the channel. -/
theorem C4_counterexample : ¬ claimC4asStated := by
  intro h
  have h5 := h [⟨false, 1, 1, some (some 7), some (some 7)⟩,
                ⟨false, 0, 2, none, none⟩,
                ⟨false, 0, 3, none, none⟩,
                ⟨false, 0, 4, none, none⟩,
                ⟨false, 0, 5, none, none⟩]
  revert h5
  decide

/-- C4 amended: after a UIDVALIDITY change on one side, the engine
validates pairs by Message-ID.  Any live record whose changed-side
message and partner are both present but whose Message-IDs are missing on
the partner or differ makes the channel fail (SYNC_FAIL, no state
committed).  Otherwise the new validity is accepted if and only if at
least 20 pairs still match, or at least 80 percent of ALL live sync
records (orphans and unloaded records included, not just the
previously-present paired ones) are still-matching pairs. -/
theorem C4_uidvalidity_recovery (recs : List UidVal.VRec) :
    UidVal.uvApprove recs = UidVal.VOutcome.accept ↔
      (¬recs.any UidVal.isContra ∧
        (20 ≤ recs.countP UidVal.isMatch ∨
          4 * recs.countP UidVal.isLive ≤ 5 * recs.countP UidVal.isMatch)) := by
  have hs := UidVal.tally_spec recs
  by_cases hc : recs.any UidVal.isContra
  · have hn := hs.1.mpr hc
    have hval : UidVal.uvApprove recs = UidVal.VOutcome.fail := by
      unfold UidVal.uvApprove
      rw [hn]
    rw [hval]
    constructor
    · intro hfa
      exact absurd hfa (by decide)
    · rintro ⟨hnc, -⟩
      exact absurd hc (by simpa using hnc)
  · have ht := hs.2 (by simpa using hc)
    have hval : UidVal.uvApprove recs =
        (if recs.countP UidVal.isMatch < 20 ∧
            recs.countP UidVal.isMatch * 5 < recs.countP UidVal.isLive * 4
         then UidVal.VOutcome.fail else UidVal.VOutcome.accept) := by
      unfold UidVal.uvApprove
      rw [ht]
    rw [hval]
    by_cases hcond : recs.countP UidVal.isMatch < 20 ∧
        recs.countP UidVal.isMatch * 5 < recs.countP UidVal.isLive * 4
    · rw [if_pos hcond]
      constructor
      · intro hfa
        exact absurd hfa (by decide)
      · rintro ⟨-, hth⟩
        omega
    · rw [if_neg hcond]
      constructor
      · intro _
        exact ⟨by simpa using hc, by omega⟩
      · intro _
        rfl

/-- Witness for C4 on 20 matching pairs plus one dead record. -/
theorem C4_witness :
    UidVal.uvApprove (List.replicate 20 (⟨false, 1, 1, some (some 3), some (some 3)⟩ : UidVal.VRec) ++
        [⟨true, 9, 9, none, none⟩]) = UidVal.VOutcome.accept :=
  (C4_uidvalidity_recovery _).mpr (by decide)

/-! ## Journal replay (C5, src/sync_state.c:263-440)

A journal line is modelled by its leading character, the list of unsigned
integers `sscanf` extracts after it (so `args.length < n` models a failed
`%u` conversion), and the length of the trailing TUID token for '#'.
Record lookup walks the record list from the last-touched record and
wraps around (src/sync_state.c:354-359); it does NOT skip records marked
S_DEAD.  The two side indices in 'N'/'F'/'T' entries are 0 (far) or 1
(near) in every journal mbsync writes; the model maps 0 to far and
anything else to near. -/

namespace Journal

structure JRec where
  uidF : Nat
  uidN : Nat
  status : Nat
  flags : Nat
  pflags : Nat
  aflagsF : Nat
  aflagsN : Nat
  dflagsF : Nat
  dflagsN : Nat
  tuidSet : Bool
deriving Repr, DecidableEq

instance : Inhabited JRec := ⟨⟨0, 0, 0, 0, 0, 0, 0, 0, 0, false⟩⟩

structure JState where
  srecs : List JRec
  cursor : Option Nat
  maxuidF : Nat
  maxuidN : Nat
  newmaxF : Nat
  newmaxN : Nat
  finduidF : Nat
  finduidN : Nat
  uidvalF : Nat
  uidvalN : Nat
  maxxfuid : Nat
  trashedF : List Nat
  trashedN : List Nat
deriving Repr, DecidableEq

structure JLine where
  tag : Char
  args : List Nat
  tuidLen : Nat
deriving Repr, DecidableEq

/-- The per-tag syntax check of the load_state switch
(src/sync_state.c:292-325): '#' needs two integers and an exactly
TUIDL-character TUID; the listed tags need 2, 3 or 4 integers; any other
leading character is unrecognized.  `false` is fatal. -/
def lineOk (l : JLine) : Bool :=
  if l.tag = '#' then 2 ≤ l.args.length && l.tuidLen == 12
  else if l.tag ∈ (['N', 'F', 'T', 'P', '+', '&', '-', '_', '|'] : List Char) then
    2 ≤ l.args.length
  else if l.tag ∈ (['<', '>', '*', '%', '~', '^'] : List Char) then 3 ≤ l.args.length
  else if l.tag = '$' then 4 ≤ l.args.length
  else false

/-- Tags whose entry refers to an existing sync record (everything except
'|', 'N', 'F', 'T' and '+', src/sync_state.c:327-352). -/
def requiresRec (c : Char) : Bool :=
  !(c ∈ (['N', 'F', 'T', '|', '+'] : List Char))

def recMatches (t1 t2 : Nat) (r : JRec) : Bool := r.uidF == t1 && r.uidN == t2

/-- The index the wrapping record lookup starts at: the last-touched
record, or past the end when none was touched yet (C pointer NULL). -/
def startIdx (s : JState) : Nat :=
  match s.cursor with
  | some i => i
  | none => s.srecs.length

/-- The record lookup of load_state (src/sync_state.c:354-359): scan from
the last-touched record to the end, then from the head up to it.  Dead
records are not skipped. -/
def findRec (s : JState) (t1 t2 : Nat) : Option Nat :=
  match (s.srecs.drop (startIdx s)).findIdx? (recMatches t1 t2) with
  | some j => some (startIdx s + j)
  | none => (s.srecs.take (startIdx s)).findIdx? (recMatches t1 t2)

/-- assign_uid (src/sync_state.c:531-547) applied to record `i`. -/
def jAssignUid (s : JState) (i : Nat) (t : Bool) (uid : Nat) : JState :=
  let r := s.srecs.getD i default
  let r1 := if t then { r with uidN := uid } else { r with uidF := uid }
  let s1 := if uid = (if t then s.newmaxN else s.newmaxF) + 1 then
      (if t then { s with newmaxN := uid } else { s with newmaxF := uid })
    else s
  let r2 :=
    if uid ≠ 0 then
      if hasBits r1.status S_UPGRADE then
        let fl := ((r1.flags ||| (if t then r1.aflagsN else r1.aflagsF)) &&&
          bnot8 (if t then r1.dflagsN else r1.dflagsF))
        if t then { r1 with flags := fl, aflagsN := 0, dflagsN := 0 }
        else { r1 with flags := fl, aflagsF := 0, dflagsF := 0 }
      else { r1 with flags := r1.pflags }
    else r1
  let r3 := { r2 with status := r2.status &&& bnot16 (S_PENDING + S_UPGRADE),
                      tuidSet := false }
  { s1 with srecs := s1.srecs.set i r3, cursor := some i }

/-- upgrade_srec (src/sync_state.c:603-627) applied to record `i` on side
`t`: append a sibling Purge record holding the placeholder, and mark the
original Pending+Upgrade. -/
def jUpgradeSrec (s : JState) (i : Nat) (t : Bool) : JState :=
  let r := s.srecs.getD i default
  let r1 := if t then { r with uidN := 0 } else { r with uidF := 0 }
  let r2 := { r1 with status :=
    (r1.status &&& bnot16 (S_DUMMY_F + S_DUMMY_N)) ||| (S_PENDING + S_UPGRADE) }
  let n0 : JRec := default
  let n1 := if t then { n0 with uidN := r.uidN } else { n0 with uidF := r.uidF }
  let n2 := { n1 with status := S_PURGE ||| (r2.status &&& (S_DEL_F + S_DEL_N)) }
  let n3 := if t then { n2 with aflagsN := F_DELETED } else { n2 with aflagsF := F_DELETED }
  { s with srecs := (s.srecs.set i r2).insertIdx (i + 1) n3, cursor := some (i + 1) }

/-- The effect of a record-referring journal entry on the found record
(the inner switch of load_state, src/sync_state.c:364-424). -/
def applyRecEntry (s : JState) (i : Nat) (tag : Char) (t3 t4 : Nat) : JState :=
  let r := s.srecs.getD i default
  let withRec := fun (r2 : JRec) => { s with srecs := s.srecs.set i r2, cursor := some i }
  if tag = '-' then withRec { r with status := S_DEAD }
  else if tag = '#' then withRec { r with tuidSet := true }
  else if tag = '&' then withRec { r with tuidSet := false }
  else if tag = '<' then jAssignUid s i false t3
  else if tag = '>' then jAssignUid s i true t3
  else if tag = '*' then withRec { r with flags := t3 % 256 }
  else if tag = 'P' then
    withRec { r with aflagsF := 0, aflagsN := 0,
                     status := (r.status &&& bnot16 S_PURGE) ||| S_PURGED }
  else if tag = '%' then withRec { r with pflags := t3 % 256 }
  else if tag = '~' then
    let st := (r.status &&& bnot16 S_LOGGED) ||| (t3 % 65536)
    let s1 := withRec { r with status := st }
    if hasBits st S_EXPIRED ∧ s1.maxxfuid < r.uidF then { s1 with maxxfuid := r.uidF }
    else s1
  else if tag = '_' then
    withRec { r with status := S_PENDING ||| (if r.uidF = 0 then S_DUMMY_F else S_DUMMY_N) }
  else if tag = '^' then
    let tn := hasBits r.status S_DUMMY_F = false
    -- tn: F when the far side holds the dummy, N otherwise (modelled as a Bool, true = near)
    let s1 := withRec { r with pflags := t3 % 256 }
    jUpgradeSrec s1 i tn
  else -- tag = '$'
    let tn := r.uidF = 0
    if tn then withRec { r with aflagsF := t3 % 256, dflagsF := t4 % 256 }
    else withRec { r with aflagsN := t3 % 256, dflagsN := t4 % 256 }

/-- Replay of a single journal line (the body of the load_state replay
loop, src/sync_state.c:282-425).  `none` is fatal: load_state returns 0
and the mailbox pair is not synced. -/
def replayStep (s : JState) (l : JLine) : Option JState :=
  if !lineOk l then none
  else
    let t1 := l.args.getD 0 0
    let t2 := l.args.getD 1 0
    let t3 := l.args.getD 2 0
    let t4 := l.args.getD 3 0
    if l.tag = 'N' then
      some (if t1 = 0 then { s with maxuidF := t2, newmaxF := t2 }
            else { s with maxuidN := t2, newmaxN := t2 })
    else if l.tag = 'F' then
      some (if t1 = 0 then { s with finduidF := t2 } else { s with finduidN := t2 })
    else if l.tag = 'T' then
      some (if t1 = 0 then { s with trashedF := s.trashedF ++ [t2] }
            else { s with trashedN := s.trashedN ++ [t2] })
    else if l.tag = '|' then
      some { s with uidvalF := t1, uidvalN := t2 }
    else if l.tag = '+' then
      some { s with
        srecs := s.srecs ++ [⟨t1, t2, S_PENDING, 0, 0, 0, 0, 0, 0, false⟩],
        cursor := some s.srecs.length,
        newmaxF := if s.newmaxF < t1 then t1 else s.newmaxF,
        newmaxN := if s.newmaxN < t2 then t2 else s.newmaxN }
    else
      match findRec s t1 t2 with
      | none => none
      | some i => some (applyRecEntry s i l.tag t3 t4)

/-- Replay of a whole journal. -/
def replay (s : JState) : List JLine → Option JState
  | [] => some s
  | l :: ls =>
    match replayStep s l with
    | none => none
    | some s1 => replay s1 ls

theorem findRec_none_iff (s : JState) (t1 t2 : Nat) :
    findRec s t1 t2 = none ↔ ∀ r ∈ s.srecs, recMatches t1 t2 r = false := by
  unfold findRec
  cases hd : (s.srecs.drop (startIdx s)).findIdx? (recMatches t1 t2) with
  | some j =>
    simp only [hd]
    constructor
    · intro h; exact Option.noConfusion h
    · intro hall
      have hnone : (s.srecs.drop (startIdx s)).findIdx? (recMatches t1 t2) = none :=
        List.findIdx?_eq_none_iff.mpr (fun x hx =>
          hall x (List.mem_of_mem_drop hx))
      rw [hd] at hnone
      exact Option.noConfusion hnone
  | none =>
    simp only [hd]
    rw [List.findIdx?_eq_none_iff]
    constructor
    · intro htake r hr
      have hsplit : r ∈ s.srecs.take (startIdx s) ∨ r ∈ s.srecs.drop (startIdx s) := by
        have hmem : r ∈ s.srecs.take (startIdx s) ++ s.srecs.drop (startIdx s) := by
          rw [List.take_append_drop]
          exact hr
        exact List.mem_append.mp hmem
      cases hsplit with
      | inl h => exact htake r h
      | inr h => exact List.findIdx?_eq_none_iff.mp hd r h
    · intro hall r hr
      exact hall r (List.mem_of_mem_take hr)

end Journal

/-- C5, as the specification states it: during replay, a syntactically
malformed or unrecognized line is fatal, and a record-referring line
(any tag except '|', 'N', 'F', 'T', '+') whose uid pair matches no
currently-LIVE (non-S_DEAD) record is fatal. -/
def claimC5asStated : Prop :=
  ∀ (s : Journal.JState) (l : Journal.JLine),
    (Journal.lineOk l = false → Journal.replayStep s l = none) ∧
    (Journal.requiresRec l.tag = true →
      (∀ r ∈ s.srecs, hasBits r.status S_DEAD = false →
        Journal.recMatches (l.args.getD 0 0) (l.args.getD 1 0) r = false) →
      Journal.replayStep s l = none)

/-- C5 counterexample: a state holding one record (1,2) already marked
S_DEAD (exactly what replaying "+ 1 2" followed by "- 1 2" leaves
behind), and the entry "* 1 2 4".  The pair (1,2) matches no live record,
yet the lookup of load_state does not skip dead records, finds the dead
one, and applies the entry instead of failing. -/
theorem C5_counterexample : ¬ claimC5asStated := by
  intro h
  have h2 := (h ⟨[⟨1, 2, S_DEAD, 0, 0, 0, 0, 0, 0, false⟩], some 0,
                 0, 0, 0, 0, 0, 0, 0, 0, 0, [], []⟩
               ⟨Char.ofNat 42, [1, 2, 4], 0⟩).2
  revert h2
  decide

/-- C5 amended: during journal replay, every syntactically malformed or
unrecognized entry is fatal (load_state returns failure without applying
it), and a record-referring entry (any tag except '|', 'N', 'F', 'T' and
'+') is fatal exactly when its uid pair matches NO sync record at all,
dead or alive - the lookup does not skip records killed by an earlier '-'
entry. -/
theorem C5_journal_replay_fatal (s : Journal.JState) (l : Journal.JLine) :
    Journal.replayStep s l = none ↔
      (Journal.lineOk l = false ∨
        (Journal.requiresRec l.tag = true ∧
          ∀ r ∈ s.srecs,
            Journal.recMatches (l.args.getD 0 0) (l.args.getD 1 0) r = false)) := by
  by_cases hok : Journal.lineOk l
  · rw [Journal.replayStep]
    simp only [hok, Bool.not_true, Bool.false_eq_true, if_false]
    by_cases h1 : l.tag = 'N'
    · simp [h1, hok, Journal.requiresRec]
    · rw [if_neg h1]
      by_cases h2 : l.tag = 'F'
      · simp [h2, hok, Journal.requiresRec]
      · rw [if_neg h2]
        by_cases h3 : l.tag = 'T'
        · simp [h3, hok, Journal.requiresRec]
        · rw [if_neg h3]
          by_cases h4 : l.tag = '|'
          · simp [h4, hok, Journal.requiresRec]
          · rw [if_neg h4]
            by_cases h5 : l.tag = '+'
            · simp [h5, hok, Journal.requiresRec]
            · rw [if_neg h5]
              have hreq : Journal.requiresRec l.tag = true := by
                simp [Journal.requiresRec, h1, h2, h3, h4, h5]
              cases hf : Journal.findRec s (l.args.getD 0 0) (l.args.getD 1 0) with
              | none =>
                simp only [hf]
                constructor
                · intro _
                  exact Or.inr ⟨hreq, (Journal.findRec_none_iff s _ _).mp hf⟩
                · intro _
                  trivial
              | some i =>
                simp only [hf]
                constructor
                · intro hh
                  exact Option.noConfusion hh
                · intro hh
                  cases hh with
                  | inl hl => exact Bool.noConfusion hl
                  | inr hr =>
                    have := (Journal.findRec_none_iff s _ _).mpr hr.2
                    rw [hf] at this
                    exact Option.noConfusion this
  · have hf : Journal.lineOk l = false := by simpa using hok
    rw [Journal.replayStep]
    simp [hf]

/-! ## Message expiration (C2 and C10, src/sync.c:1181-1298)

`xt` is the expire side (`chan->expire_side`; `false` = far, `true` =
near).  Each record carries its uid pair, status, flags, the pending
aflags/dflags on the expire side, and the loaded message (just its flag
byte) on each side.  Phase one computes the effective flags (`nflags`)
of every alive paired record and collects them; phase two sorts them BY
UID ON THE OPPOSITE SIDE (cmp_srec_far when expiring the near side) and
walks them oldest-first deciding which get S_NEXPIRE; then the
ExpireUnread sanity check may fail the mailbox; only after it do the
journalled expiration transactions begin. -/

namespace Expire

structure ERec where
  uidF : Nat
  uidN : Nat
  status : Nat
  flags : Nat
  pflags : Nat
  aflagsXt : Nat
  dflagsXt : Nat
  msgF : Option Nat
  msgN : Option Nat
deriving Repr, DecidableEq

instance : Inhabited ERec := ⟨⟨0, 0, 0, 0, 0, 0, 0, none, none⟩⟩

def ERec.uid (r : ERec) (t : Bool) : Nat := if t then r.uidN else r.uidF

def ERec.msg (r : ERec) (t : Bool) : Option Nat := if t then r.msgN else r.msgF

def S_DUMMY (t : Bool) : Nat := if t then S_DUMMY_N else S_DUMMY_F

/-- Phase one, per record (src/sync.c:1188-1232): select the alive paired
records and compute their effective flag byte.  `none` means the record
does not participate.  (In the pending non-upgrade branch the C code
dereferences `srec->msg[xt^1]` unconditionally; a record in that branch
always has its source message loaded, and the impossible missing case is
modelled as non-participation.) -/
def arecOf (xt : Bool) (r : ERec) : Option (ERec × Nat) :=
  if hasBits r.status S_DEAD then none
  else if r.uid (!xt) = 0 then none
  else
    let nfl? :=
      if !hasBits r.status S_PENDING then
        match r.msg xt with
        | none => none
        | some mf =>
          let base? :=
            if hasBits r.status (S_DUMMY xt) then
              match r.msg (!xt) with
              | none => none
              | some sf =>
                let afl := (sf &&& bnot8 r.flags) &&& (F_SEEN + F_FLAGGED)
                let dfl := (bnot8 sf &&& r.flags) &&& F_SEEN
                some ((mf &&& (bnot8 (F_SEEN + F_FLAGGED) ||| (r.flags &&& F_SEEN)) &&&
                  bnot8 dfl) ||| afl)
            else some mf
          base?.map (fun nf => (nf ||| r.aflagsXt) &&& bnot8 r.dflagsXt)
      else
        if hasBits r.status S_UPGRADE then
          some ((r.pflags ||| r.aflagsXt) &&& bnot8 r.dflagsXt)
        else
          (r.msg (!xt)).map id
    match nfl? with
    | none => none
    | some nflags =>
      if ¬hasBits nflags F_DELETED ∨ hasBits r.status (S_EXPIRE + S_EXPIRED) then
        some (r, nflags)
      else none

/-- The sort key relation of phase two: uid on the side OPPOSITE the
expire side (qsort with cmp_srec_near when xt = F, cmp_srec_far when
xt = N, src/sync.c:1235). -/
def byOtherUid (xt : Bool) (a b : ERec × Nat) : Prop :=
  a.1.uid (!xt) ≤ b.1.uid (!xt)

instance byOtherUidDec (xt : Bool) : DecidableRel (byOtherUid xt) :=
  fun a b => inferInstanceAs (Decidable (_ ≤ _))

instance byOtherUidTotal (xt : Bool) : IsTotal (ERec × Nat) (byOtherUid xt) :=
  ⟨fun a b => Nat.le_total _ _⟩

instance byOtherUidTrans (xt : Bool) : IsTrans (ERec × Nat) (byOtherUid xt) :=
  ⟨fun _ _ _ => Nat.le_trans⟩

/-- The sorted alive list the marking loop walks. -/
def sortedAlive (xt : Bool) (recs : List ERec) : List (ERec × Nat) :=
  List.insertionSort (byOtherUid xt) (recs.filterMap (arecOf xt))

/-- Important messages are always fetched/kept (src/sync.c:1242-1243):
Flagged, or unread while ExpireUnread is not enabled. -/
def important (eu : Int) (nflags : Nat) : Bool :=
  hasBits nflags F_FLAGGED || !(hasBits nflags F_SEEN || eu > 0)

/-- A record whose expiration transaction must be resumed or completed
even though the quota is exhausted (src/sync.c:1248-1249). -/
def forced (xt : Bool) (r : ERec) : Bool :=
  (r.status &&& (S_EXPIRE + S_EXPIRED) == S_EXPIRE + S_EXPIRED) ||
  (hasBits r.status (S_EXPIRE + S_EXPIRED) &&
    (match r.msg xt with
     | some mf => hasBits mf F_DELETED
     | none => false))

/-- The marking loop (src/sync.c:1238-1255).  Returns each entry paired
with its S_NEXPIRE decision, and the final `unseen` counter.  `todel`
decrements for every important and every expired record; `unseen` counts
unflagged unread records encountered while `todel > 0`. -/
def markLoop (eu : Int) (xt : Bool) : Int → Nat → List (ERec × Nat) →
    List ((ERec × Nat) × Bool) × Nat
  | _, unseen, [] => ([], unseen)
  | todel, unseen, rn :: rest =>
    let nflags := rn.2
    let unseen1 :=
      if !hasBits nflags F_FLAGGED ∧ !hasBits nflags F_SEEN ∧ todel > 0 then unseen + 1
      else unseen
    if important eu nflags then
      let r := markLoop eu xt (todel - 1) unseen1 rest
      ((rn, false) :: r.1, r.2)
    else if todel > 0 ∨ forced xt rn.1 then
      let r := markLoop eu xt (todel - 1) unseen1 rest
      ((rn, true) :: r.1, r.2)
    else
      let r := markLoop eu xt todel unseen1 rest
      ((rn, false) :: r.1, r.2)

structure EOut where
  marks : List ((ERec × Nat) × Bool)
  unseen : Nat
  failed : Bool
deriving Repr, DecidableEq

/-- Phases one and two plus the ExpireUnread sanity check
(src/sync.c:1186-1264): on `failed` the engine reports the error, sets
SYNC_FAIL and cancels the sync before phase three. -/
def expireRun (xt : Bool) (maxMessages : Nat) (eu : Int) (recs : List ERec) : EOut :=
  let al := sortedAlive xt recs
  let todel : Int := (al.length : Int) - (maxMessages : Int)
  let mu := markLoop eu xt todel 0 al
  ⟨mu.1, mu.2, decide (eu < 0) && decide (mu.2 * 2 > maxMessages)⟩

/-- Phase three (src/sync.c:1265-1296), reduced to which records get an
expiration transaction journalled ('~' entries): state-changing
non-pending records whose wanted state differs from both EXPIRED and
EXPIRE, and pending records being expired unborn. -/
def transactionsOf (ms : List ((ERec × Nat) × Bool)) : List (Nat × Nat) :=
  ms.filterMap (fun rm =>
    let r := rm.1.1
    let nex := rm.2
    if !hasBits r.status S_PENDING then
      if nex ≠ hasBits r.status S_EXPIRED then
        if nex ≠ hasBits r.status S_EXPIRE then some (r.uidF, r.uidN) else none
      else none
    else
      if nex then some (r.uidF, r.uidN) else none)

/-- The expiration transactions the run starts: none at all when the
ExpireUnread check failed the mailbox (box_loaded returns right after
cancel_sync, before phase three). -/
def expireTransactions (xt : Bool) (maxMessages : Nat) (eu : Int) (recs : List ERec) :
    List (Nat × Nat) :=
  let o := expireRun xt maxMessages eu recs
  if o.failed then [] else transactionsOf o.marks

/-- What the marking loop marks, in closed form: position `i` of the
sorted alive list is marked iff it is not important and either lies in
the excess prefix (`i < todel0`) or resumes a prior transaction. -/
def markPred (eu : Int) (xt : Bool) (todel : Int) (i : Nat) (rn : ERec × Nat) : Bool :=
  !important eu rn.2 && (decide ((i : Int) < todel) || forced xt rn.1)

theorem markLoop_marks_from (eu : Int) (xt : Bool) (l : List (ERec × Nat)) :
    ∀ (todel : Int) (n : Nat) (unseen : Nat),
    (markLoop eu xt todel unseen l).1 =
      (l.enumFrom n).map (fun p => (p.2, markPred eu xt (todel + n) p.1 p.2)) := by
  induction l with
  | nil => intro todel n unseen; rfl
  | cons rn rest ih =>
    intro todel n unseen
    rw [markLoop, List.enumFrom_cons, List.map_cons]
    have hhead0 : (markPred eu xt (todel + n) n rn) =
        (!important eu rn.2 && (decide (0 < todel) || forced xt rn.1)) := by
      unfold markPred
      have hdec : decide ((n : Int) < todel + n) = decide (0 < todel) :=
        decide_eq_decide.mpr (by omega)
      rw [hdec]
    by_cases himp : important eu rn.2
    · simp only [himp, if_true]
      have hh : markPred eu xt (todel + n) n rn = false := by
        rw [hhead0, himp]
        rfl
      rw [hh, ih (todel - 1) (n + 1) _]
      have harg : todel - 1 + ((n + 1 : Nat) : Int) = todel + (n : Int) := by
        push_cast
        omega
      rw [harg]
    · have himp2 : important eu rn.2 = false := by simpa using himp
      rw [if_neg himp]
      by_cases hexp : todel > 0 ∨ forced xt rn.1
      · rw [if_pos hexp]
        dsimp only
        have hh : markPred eu xt (todel + n) n rn = true := by
          rw [hhead0]
          simp only [himp2, Bool.not_false, Bool.true_and]
          rcases hexp with h | h
          · simp [h]
          · simp [h]
        rw [hh, ih (todel - 1) (n + 1) _]
        have harg : todel - 1 + ((n + 1 : Nat) : Int) = todel + (n : Int) := by
          push_cast
          omega
        rw [harg]
      · rw [if_neg hexp]
        dsimp only
        push_neg at hexp
        have hforced : forced xt rn.1 = false := by simpa using hexp.2
        have hh : markPred eu xt (todel + n) n rn = false := by
          rw [hhead0]
          have h1 : decide (0 < todel) = false := by
            simp only [decide_eq_false_iff_not]
            omega
          rw [h1, hforced]
          simp
        rw [hh, ih todel (n + 1) _]
        apply congrArg
        apply List.map_congr_left
        intro p hp
        have hge : n + 1 ≤ p.1 := (List.mem_enumFrom hp).1
        unfold markPred
        have htl : todel ≤ 0 := hexp.1
        have e1 : decide ((p.1 : Int) < todel + ((n + 1 : Nat) : Int)) =
            decide ((p.1 : Int) < todel + (n : Int)) := by
          apply decide_eq_decide.mpr
          push_cast
          omega
        rw [e1]

theorem markLoop_marks (eu : Int) (xt : Bool) (l : List (ERec × Nat)) (todel : Int) (unseen : Nat) :
    (markLoop eu xt todel unseen l).1 =
      l.enum.map (fun p => (p.2, markPred eu xt todel p.1 p.2)) := by
  have h := markLoop_marks_from eu xt l todel 0 unseen
  simpa using h

/-- An unflagged unread entry, as counted by the `unseen` counter. -/
def unseenPred (rn : ERec × Nat) : Bool :=
  !hasBits rn.2 F_FLAGGED && !hasBits rn.2 F_SEEN

theorem markLoop_unseen (eu : Int) (xt : Bool) (l : List (ERec × Nat)) :
    ∀ (todel : Int) (unseen : Nat),
    (markLoop eu xt todel unseen l).2 =
      unseen + (l.take todel.toNat).countP unseenPred := by
  induction l with
  | nil => intro todel unseen; simp [markLoop]
  | cons rn rest ih =>
    intro todel unseen
    rw [markLoop]
    dsimp only
    by_cases hpos : todel > 0
    · have htake : (rn :: rest).take todel.toNat = rn :: rest.take (todel - 1).toNat := by
        have h1 : todel.toNat = (todel - 1).toNat + 1 := by omega
        rw [h1, List.take_succ_cons]
      have hun : (if (!hasBits rn.2 F_FLAGGED) = true ∧ (!hasBits rn.2 F_SEEN) = true ∧ todel > 0
            then unseen + 1 else unseen) =
          unseen + (if unseenPred rn then 1 else 0) := by
        unfold unseenPred
        by_cases hf : hasBits rn.2 F_FLAGGED <;> by_cases hs : hasBits rn.2 F_SEEN <;>
          simp [hf, hs, hpos]
      by_cases himp : important eu rn.2
      · rw [if_pos himp]
        dsimp only
        rw [hun, ih (todel - 1) _, htake, List.countP_cons]
        unfold unseenPred
        omega
      · rw [if_neg himp, if_pos (Or.inl hpos)]
        dsimp only
        rw [hun, ih (todel - 1) _, htake, List.countP_cons]
        unfold unseenPred
        omega
    · have htake : (rn :: rest).take todel.toNat = [] := by
        have h1 : todel.toNat = 0 := by omega
        rw [h1, List.take_zero]
      have hun : (if (!hasBits rn.2 F_FLAGGED) = true ∧ (!hasBits rn.2 F_SEEN) = true ∧ todel > 0
            then unseen + 1 else unseen) = unseen := by
        have : ¬((!hasBits rn.2 F_FLAGGED) = true ∧ (!hasBits rn.2 F_SEEN) = true ∧ todel > 0) := by
          rintro ⟨-, -, hc⟩
          exact hpos hc
        rw [if_neg this]
      have htake1 : rest.take (todel - 1).toNat = [] := by
        have h1 : (todel - 1).toNat = 0 := by omega
        rw [h1, List.take_zero]
      have htake2 : rest.take todel.toNat = [] := by
        have h1 : todel.toNat = 0 := by omega
        rw [h1, List.take_zero]
      by_cases himp : important eu rn.2
      · rw [if_pos himp]
        dsimp only
        rw [hun, ih (todel - 1) _, htake, htake1]
      · by_cases hor : todel > 0 ∨ forced xt rn.1
        · rw [if_neg himp, if_pos hor]
          dsimp only
          rw [hun, ih (todel - 1) _, htake, htake1]
        · rw [if_neg himp, if_neg hor]
          dsimp only
          rw [hun, ih todel _, htake, htake2]

/-- Modelled from the spec's words (for refutation): pick the `k` oldest
records that are neither Flagged nor protected unread. -/
def specPick (eu : Int) : Nat → List (ERec × Nat) → List (ERec × Nat)
  | 0, _ => []
  | _ + 1, [] => []
  | k + 1, rn :: rest =>
    if important eu rn.2 then specPick eu (k + 1) rest
    else rn :: specPick eu k rest

/-- Modelled from the spec's words (for refutation): "rank alive paired
records by UID on the expire side (oldest first); drop Flagged;
optionally drop Unread (per expire_unread); expire enough to reach the
cap" - the uids (on the expire side) this reading would expire. -/
def specExpiredUids (xt : Bool) (mm : Nat) (eu : Int) (recs : List ERec) : List Nat :=
  let al := List.insertionSort (fun (a b : ERec × Nat) => a.1.uid xt ≤ b.1.uid xt)
      (recs.filterMap (arecOf xt))
  (specPick eu (al.length - mm) al).map (fun rn => rn.1.uid xt)

/-- The expire-side uids of the records the code actually expires. -/
def codeExpiredUids (xt : Bool) (mm : Nat) (eu : Int) (recs : List ERec) : List Nat :=
  (((expireRun xt mm eu recs).marks.filter (fun rm => rm.2)).map (fun rm => rm.1.1.uid xt))

end Expire

/-- C2, as the specification states it: expiration expires exactly the
records selected by ranking the alive paired records by UID on the
EXPIRE side, dropping Flagged (and unread per expire_unread), and taking
enough of the oldest to bring the count down to max_messages. -/
def claimC2asStated : Prop :=
  ∀ (xt : Bool) (mm : Nat) (eu : Int) (recs : List Expire.ERec),
    Expire.codeExpiredUids xt mm eu recs = Expire.specExpiredUids xt mm eu recs

/-- C2 counterexample: two seen, unflagged paired records with crossed
uid orders - (far 1, near 10) and (far 2, near 5) - with max_messages 1
on the near side.  The code sorts by the FAR uid (cmp_srec_far) and
expires the record whose near uid is 10; ranking by the near (expire)
side as the claim states would expire near uid 5 instead. -/
theorem C2_counterexample : ¬ claimC2asStated := by
  intro h
  have h2 := h true 1 1
    [⟨1, 10, 0, 16, 0, 0, 0, some 16, some 16⟩,
     ⟨2, 5, 0, 16, 0, 0, 0, some 16, some 16⟩]
  revert h2
  decide

/-- C2 amended: with max_messages set, expiration (1) walks the alive
paired records sorted by UID on the side OPPOSITE the expire side
(oldest first), and marks for expiration (S_NEXPIRE) exactly the
non-protected records among the oldest `alive - max_messages` positions,
plus non-protected records resuming an interrupted expiration
transaction; (2) the walked list is sorted by opposite-side UID;
(3) records whose effective flags include Flagged are never expired; and
(4) unread records are never expired when expire_unread is not enabled.
Protected records within the excess therefore reduce the number expired
(the count stops at max_messages plus the number of protected records
among the excess), rather than the count always reaching the cap. -/
theorem C2_expiration (xt : Bool) (mm : Nat) (eu : Int) (recs : List Expire.ERec) :
    ((Expire.expireRun xt mm eu recs).marks =
      (Expire.sortedAlive xt recs).enum.map (fun p =>
        (p.2, Expire.markPred eu xt
          (((Expire.sortedAlive xt recs).length : Int) - (mm : Int)) p.1 p.2))) ∧
    (Expire.sortedAlive xt recs).Sorted (Expire.byOtherUid xt) ∧
    (∀ rm ∈ (Expire.expireRun xt mm eu recs).marks,
      hasBits rm.1.2 F_FLAGGED = true → rm.2 = false) ∧
    (∀ rm ∈ (Expire.expireRun xt mm eu recs).marks,
      hasBits rm.1.2 F_SEEN = false → ¬(eu > 0) → rm.2 = false) := by
  have hmarks : (Expire.expireRun xt mm eu recs).marks =
      (Expire.sortedAlive xt recs).enum.map (fun p =>
        (p.2, Expire.markPred eu xt
          (((Expire.sortedAlive xt recs).length : Int) - (mm : Int)) p.1 p.2)) := by
    unfold Expire.expireRun
    dsimp only
    exact Expire.markLoop_marks eu xt (Expire.sortedAlive xt recs) _ 0
  refine ⟨hmarks, List.sorted_insertionSort _ _, ?_, ?_⟩
  · intro rm hrm hfl
    rw [hmarks] at hrm
    obtain ⟨p, hp, hpe⟩ := List.mem_map.mp hrm
    have h2 : rm.2 = Expire.markPred eu xt
        (((Expire.sortedAlive xt recs).length : Int) - (mm : Int)) p.1 p.2 := by
      rw [← hpe]
    rw [h2]
    unfold Expire.markPred Expire.important
    have hfl2 : hasBits p.2.2 F_FLAGGED = true := by
      have : rm.1 = p.2 := by rw [← hpe]
      rw [this] at hfl
      exact hfl
    rw [hfl2]
    simp
  · intro rm hrm hseen heu
    rw [hmarks] at hrm
    obtain ⟨p, hp, hpe⟩ := List.mem_map.mp hrm
    have h2 : rm.2 = Expire.markPred eu xt
        (((Expire.sortedAlive xt recs).length : Int) - (mm : Int)) p.1 p.2 := by
      rw [← hpe]
    rw [h2]
    unfold Expire.markPred Expire.important
    have hs2 : hasBits p.2.2 F_SEEN = false := by
      have : rm.1 = p.2 := by rw [← hpe]
      rw [this] at hseen
      exact hseen
    rw [hs2]
    have heu2 : decide (eu > 0) = false := by
      simp only [decide_eq_false_iff_not]
      exact heu
    simp [heu2]

/-- Witness for C2: the counterexample input again; the theorem's closed
consequences evaluated there. -/
theorem C2_witness :
    ((Expire.expireRun true 1 1
        [⟨1, 10, 0, 16, 0, 0, 0, some 16, some 16⟩,
         ⟨2, 5, 0, 16, 0, 0, 0, some 16, some 16⟩]).marks =
      (Expire.sortedAlive true
        [⟨1, 10, 0, 16, 0, 0, 0, some 16, some 16⟩,
         ⟨2, 5, 0, 16, 0, 0, 0, some 16, some 16⟩]).enum.map (fun p =>
        (p.2, Expire.markPred 1 true
          (((Expire.sortedAlive true
            [⟨1, 10, 0, 16, 0, 0, 0, some 16, some 16⟩,
             ⟨2, 5, 0, 16, 0, 0, 0, some 16, some 16⟩]).length : Int) - (1 : Int)) p.1 p.2))) ∧
    ((Expire.expireRun true 1 1
        [⟨1, 10, 0, 16, 0, 0, 0, some 16, some 16⟩,
         ⟨2, 5, 0, 16, 0, 0, 0, some 16, some 16⟩]).marks.map (fun rm => rm.2) = [true, false]) :=
  ⟨(C2_expiration true 1 1
      [⟨1, 10, 0, 16, 0, 0, 0, some 16, some 16⟩,
       ⟨2, 5, 0, 16, 0, 0, 0, some 16, some 16⟩]).1, by decide⟩

/-- C10: when ExpireUnread is left unset (negative tri-state) while
max_messages is in effect, and the number of unread, unflagged messages
within the excess to be expired (the oldest `alive - max_messages`
positions of the sorted alive list) exceeds half of max_messages, the
engine fails the mailbox (SYNC_FAIL, sync canceled) before journalling
any expiration transaction; and it fails exactly under that condition. -/
theorem C10_expire_unread_guard (xt : Bool) (mm : Nat) (eu : Int) (recs : List Expire.ERec) :
    ((Expire.expireRun xt mm eu recs).failed = true ↔
      (eu < 0 ∧
        ((Expire.sortedAlive xt recs).take
            ((Expire.sortedAlive xt recs).length - mm)).countP Expire.unseenPred * 2 > mm)) ∧
    ((Expire.expireRun xt mm eu recs).failed = true →
      Expire.expireTransactions xt mm eu recs = []) := by
  have huns : (Expire.expireRun xt mm eu recs).unseen =
      ((Expire.sortedAlive xt recs).take
        ((Expire.sortedAlive xt recs).length - mm)).countP Expire.unseenPred := by
    unfold Expire.expireRun
    dsimp only
    rw [Expire.markLoop_unseen eu xt (Expire.sortedAlive xt recs) _ 0]
    have htn : (((Expire.sortedAlive xt recs).length : Int) - (mm : Int)).toNat =
        (Expire.sortedAlive xt recs).length - mm := by omega
    rw [htn]
    simp
  constructor
  · have hfail : (Expire.expireRun xt mm eu recs).failed =
        (decide (eu < 0) && decide ((Expire.expireRun xt mm eu recs).unseen * 2 > mm)) := rfl
    rw [hfail, huns]
    constructor
    · intro hb
      have := Bool.and_eq_true .. ▸ hb
      exact ⟨by simpa using this.1, by simpa using this.2⟩
    · intro hb
      simp [hb.1, hb.2]
  · intro hf
    unfold Expire.expireTransactions
    simp [hf]

/-- Witness for C10: three seen-less, unflagged paired records with
max_messages 1 and ExpireUnread unset: two unread messages fall in the
excess, 2 * 2 > 1, so the run fails and journals no transaction. -/
theorem C10_witness :
    (Expire.expireRun true 1 (-1)
      [⟨1, 1, 0, 0, 0, 0, 0, some 0, some 0⟩,
       ⟨2, 2, 0, 0, 0, 0, 0, some 0, some 0⟩,
       ⟨3, 3, 0, 0, 0, 0, 0, some 0, some 0⟩]).failed = true ∧
    Expire.expireTransactions true 1 (-1)
      [⟨1, 1, 0, 0, 0, 0, 0, some 0, some 0⟩,
       ⟨2, 2, 0, 0, 0, 0, 0, some 0, some 0⟩,
       ⟨3, 3, 0, 0, 0, 0, 0, some 0, some 0⟩] = [] := by
  have h := C10_expire_unread_guard true 1 (-1)
    [⟨1, 1, 0, 0, 0, 0, 0, some 0, some 0⟩,
     ⟨2, 2, 0, 0, 0, 0, 0, some 0, some 0⟩,
     ⟨3, 3, 0, 0, 0, 0, 0, some 0, some 0⟩]
  have hf := h.1.mpr (by decide)
  exact ⟨hf, h.2 hf⟩

/-! ## New-message propagation (sync.c box_loaded, lines 1041-1178) and the
maxuid commit (sync.c box_closed_p2, line 1879).

The loop runs for a fixed target side t over the opposite-side message list
svars->msgs[t^1].  `NMsg` is one list entry (tmsg), `NSrec` the sync record
it may be paired with (tmsg->srec), `NState` the loop-carried variables
(svars->newmaxuid[t^1] and the local `topping` flag). -/

namespace NewMsg

/-- The fields of a sync record read or written by the loop:
srec->uid[t], srec->status, srec->pflags, srec->aflags[]/dflags[]. -/
structure NSrec where
  uidT : Nat
  status : Nat
  pflags : Nat
  aflagsT : Nat
  dflagsT : Nat
  aflagsO : Nat
  dflagsO : Nat
  deriving DecidableEq, Repr

/-- One entry of svars->msgs[t^1]: tmsg->uid, tmsg->flags, tmsg->size,
tmsg->status & M_DEAD, and tmsg->srec. -/
structure NMsg where
  uid : Nat
  flags : Nat
  size : Nat
  dead : Bool
  srec : Option NSrec
  deriving DecidableEq, Repr

/-- Loop state: svars->newmaxuid[t^1] and the local `topping` flag. -/
structure NState where
  newmaxuid : Nat
  topping : Bool
  deriving DecidableEq, Repr

/-- The configuration the loop reads: which side t is (for S_DUMMY(t)),
whether t == expire_side, the OP_* bits of ops[t] / ops[t^1],
chan->expire_unread, svars->maxuid[t^1], svars->maxxfuid, and
chan->stores[t]->max_size. -/
structure NParams where
  tN : Bool
  tIsXt : Bool
  opNew : Bool
  opOld : Bool
  opUpgrade : Bool
  opExpungeT : Bool
  opExpungeO : Bool
  expireUnread : Int
  maxuidO : Nat
  maxxfuid : Nat
  maxSize : Nat
  deriving DecidableEq, Repr

/-- What happened to one message. -/
inductive NRes where
  /-- one of the `continue` paths that touches no record state -/
  | skipped : NRes
  /-- S_PENDING|S_UPGRADE record: tmsg->status |= M_FLAGS, any_new, continue
      (sync.c:1114-1117) -/
  | upgradeFlags : NRes
  /-- S_PENDING|S_UPGRADE record whose target would be expunged: the upgrade
      is cancelled, new status recorded (sync.c:1100-1112) -/
  | upgradeCancelled (st : Nat) : NRes
  /-- the record (status `st` on entry, freshly created iff `created`) is
      killed because the message is deleted and expunge is on
      (sync.c:1163-1170) -/
  | killed (st : Nat) (created : Bool) : NRes
  /-- the message proceeds to propagation: status `stBefore` on reaching the
      tail checks, final status `st`, `placeholder` iff S_DUMMY(t) was added
      by the size check (sync.c:1171-1177) -/
  | propagated (stBefore st : Nat) (created placeholder : Bool) : NRes
  deriving DecidableEq, Repr

/-- sync.c:1055-1056: while topping, a paired message bumps newmaxuid. -/
def bumpTop (s : NState) (uid : Nat) : NState :=
  if s.topping && decide (s.newmaxuid < uid) then { s with newmaxuid := uid } else s

/-- sync.c:1121-1125: the first unknown message that should be known ends
the synced range (`topping = 0` unless t == xt and uid <= maxxfuid). -/
def noteUnknown (p : NParams) (s : NState) (uid : Nat) : NState :=
  if !p.tIsXt || decide (p.maxxfuid < uid) then { s with topping := false } else s

/-- sync.c:1163-1177, the checks every non-continued message falls through
to: the expunge kill, then the size check which turns the entry into a
placeholder iff the message is too big and the record carries no S_DUMMY
bit yet.  `st` is srec->status on entry, `created` whether the record was
freshly allocated for this message. -/
def tailChecks (p : NParams) (m : NMsg) (st : Nat) (created : Bool) : NRes :=
  if (p.opExpungeT || p.opExpungeO) && hasBits m.flags F_DELETED then
    NRes.killed st created
  else if decide (p.maxSize < m.size) && !(hasBits st (S_DUMMY_F ||| S_DUMMY_N)) then
    NRes.propagated st (st ||| Expire.S_DUMMY p.tN) created true
  else
    NRes.propagated st st created false

/-- sync.c:1150-1161: allocate a fresh sync record (status S_PENDING,
uid[t^1] = tmsg->uid), bump newmaxuid, fall through to the tail checks. -/
def newRec (p : NParams) (s : NState) (m : NMsg) : NState × NRes :=
  ({ s with newmaxuid := max s.newmaxuid m.uid }, tailChecks p m S_PENDING true)

/-- sync.c:1058-1119: the branch for a message that already has a sync
record.  Returns the per-message result; `continue`d messages yield
`skipped` / `upgradeFlags` / `upgradeCancelled`. -/
def srecRes (p : NParams) (m : NMsg) (r : NSrec) : NRes :=
  if hasBits r.status S_SKIPPED then
    if !p.opUpgrade then NRes.skipped
    else tailChecks p m (S_PENDING ||| Expire.S_DUMMY p.tN) false
  else if !(hasBits r.status S_PENDING) then
    if r.uidT != 0 then NRes.skipped
    else if !p.opOld then NRes.skipped
    else if !p.tIsXt || !(hasBits r.status S_EXPIRED) then NRes.skipped
    else if !(hasBits m.flags F_FLAGGED) &&
            (hasBits m.flags F_SEEN || decide (0 < p.expireUnread)) then NRes.skipped
    else tailChecks p m (r.status ||| S_PENDING) false
  else if hasBits r.status S_UPGRADE then
    if (p.opExpungeT &&
        hasBits ((r.pflags ||| r.aflagsT) &&& bnot8 r.dflagsT) F_DELETED) ||
       (p.opExpungeO &&
        hasBits ((m.flags ||| r.aflagsO) &&& bnot8 r.dflagsO) F_DELETED) then
      NRes.upgradeCancelled
        ((r.status &&& bnot16 (S_PENDING ||| S_UPGRADE)) ||| Expire.S_DUMMY p.tN)
    else NRes.upgradeFlags
  else tailChecks p m r.status false

/-- One iteration of the loop body (sync.c:1044-1178) for message `m`. -/
def procMsg (p : NParams) (s : NState) (m : NMsg) : NState × NRes :=
  if m.dead then (s, NRes.skipped)
  else
    match m.srec with
    | some r => (bumpTop s m.uid, srecRes p m r)
    | none =>
        if m.uid ≤ p.maxuidO then
          if !p.opOld then (noteUnknown p s m.uid, NRes.skipped)
          else if (noteUnknown p s m.uid).topping then
            if !(hasBits m.flags F_FLAGGED) &&
               (hasBits m.flags F_SEEN || decide (0 < p.expireUnread)) then
              (noteUnknown p s m.uid, NRes.skipped)
            else newRec p (noteUnknown p s m.uid) m
          else newRec p (noteUnknown p s m.uid) m
        else if !p.opNew then (noteUnknown p s m.uid, NRes.skipped)
        else newRec p (noteUnknown p s m.uid) m

/-- The whole loop over svars->msgs[t^1]. -/
def runNewMsgs (p : NParams) : NState → List NMsg → NState × List (NMsg × NRes)
  | s, [] => (s, [])
  | s, m :: rest =>
      ((runNewMsgs p (procMsg p s m).1 rest).1,
       (m, (procMsg p s m).2) :: (runNewMsgs p (procMsg p s m).1 rest).2)

/-- sync.c box_closed_p2:1879: svars->maxuid[t] = svars->newmaxuid[t]. -/
def commitMaxuid (s : NState) : Nat := s.newmaxuid

/-- Whether a result carries a freshly created sync record. -/
def createdOf : NRes → Bool
  | NRes.skipped => false
  | NRes.upgradeFlags => false
  | NRes.upgradeCancelled _ => false
  | NRes.killed _ c => c
  | NRes.propagated _ _ c _ => c

/-- A message that is paired: it has a sync record with uid[t] set
(sync.c:1068, the `continue` for "the message is paired"). -/
def pairedMsg (m : NMsg) : Bool :=
  match m.srec with
  | some r => decide (r.uidT ≠ 0) && !(hasBits r.status S_PENDING)
  | none => false

theorem createdOf_tailChecks (p : NParams) (m : NMsg) (st : Nat) (c : Bool) :
    createdOf (tailChecks p m st c) = c := by
  unfold tailChecks
  split_ifs <;> rfl

theorem srecRes_not_created (p : NParams) (m : NMsg) (r : NSrec) :
    createdOf (srecRes p m r) = false := by
  unfold srecRes
  split_ifs <;> first
    | rfl
    | rw [createdOf_tailChecks]

theorem bumpTop_newmaxuid (s : NState) (u : Nat) :
    s.newmaxuid ≤ (bumpTop s u).newmaxuid := by
  unfold bumpTop
  split_ifs with h
  · exact Nat.le_of_lt (by simpa using (Bool.and_eq_true ..).mp h |>.2)
  · exact Nat.le_refl _

theorem noteUnknown_newmaxuid (p : NParams) (s : NState) (u : Nat) :
    (noteUnknown p s u).newmaxuid = s.newmaxuid := by
  unfold noteUnknown
  split_ifs <;> rfl

theorem procMsg_newmaxuid_mono (p : NParams) (s : NState) (m : NMsg) :
    s.newmaxuid ≤ (procMsg p s m).1.newmaxuid := by
  unfold procMsg
  by_cases hd : m.dead
  · rw [if_pos hd]
  · rw [if_neg hd]
    cases hm : m.srec with
    | some r =>
        dsimp only
        exact bumpTop_newmaxuid s m.uid
    | none =>
        dsimp only
        split_ifs <;>
          simp only [newRec, noteUnknown_newmaxuid] <;>
          first
            | exact Nat.le_refl _
            | exact Nat.le_max_left _ _

theorem procMsg_created_le (p : NParams) (s : NState) (m : NMsg)
    (hc : createdOf (procMsg p s m).2 = true) :
    m.uid ≤ (procMsg p s m).1.newmaxuid := by
  unfold procMsg at hc ⊢
  by_cases hd : m.dead
  · rw [if_pos hd] at hc
    exact absurd hc (by simp [createdOf])
  · rw [if_neg hd] at hc ⊢
    cases hm : m.srec with
    | some r =>
        rw [hm] at hc
        dsimp only at hc
        rw [srecRes_not_created] at hc
        exact Bool.noConfusion hc
    | none =>
        rw [hm] at hc
        dsimp only at hc ⊢
        split_ifs at hc ⊢ <;>
          dsimp only [newRec, createdOf] at hc ⊢ <;>
          first
            | exact Bool.noConfusion hc
            | exact Nat.le_max_right _ _

theorem runNewMsgs_newmaxuid_mono (p : NParams) (s : NState) (ms : List NMsg) :
    s.newmaxuid ≤ (runNewMsgs p s ms).1.newmaxuid := by
  induction ms generalizing s with
  | nil => exact Nat.le_refl _
  | cons m rest ih =>
      simp only [runNewMsgs]
      exact Nat.le_trans (procMsg_newmaxuid_mono p s m) (ih (procMsg p s m).1)

theorem runNewMsgs_created_le (p : NParams) (s : NState) (ms : List NMsg)
    (m : NMsg) (r : NRes) (hmem : (m, r) ∈ (runNewMsgs p s ms).2)
    (hc : createdOf r = true) :
    m.uid ≤ (runNewMsgs p s ms).1.newmaxuid := by
  induction ms generalizing s with
  | nil => simp [runNewMsgs] at hmem
  | cons m0 rest ih =>
      simp only [runNewMsgs, List.mem_cons] at hmem
      rcases hmem with heq | hmem
      · have h1 : m = m0 ∧ r = (procMsg p s m0).2 := by
          exact ⟨congrArg Prod.fst heq, congrArg Prod.snd heq⟩
        rcases h1 with ⟨h1, h2⟩
        subst h1
        have := procMsg_created_le p s m (by rw [h2] at hc; exact hc)
        exact Nat.le_trans this (runNewMsgs_newmaxuid_mono p (procMsg p s m).1 rest)
      · exact ih (procMsg p s m0).1 hmem

end NewMsg

/-- C3 as stated in the spec (spec-modelled, for refutation): for every
unseen message with UID above maxuid on the opposite side that gets
propagated, a placeholder is emitted exactly when the message exceeds the
size cap AND is not Flagged. -/
def claimC3asStated : Prop :=
  ∀ (p : NewMsg.NParams) (s : NewMsg.NState) (m : NewMsg.NMsg)
    (stB st : Nat) (c ph : Bool),
    m.srec = none → p.maxuidO < m.uid → hasBits m.flags F_SEEN = false →
    (NewMsg.procMsg p s m).2 = NewMsg.NRes.propagated stB st c ph →
    ph = (decide (p.maxSize < m.size) && !(hasBits m.flags F_FLAGGED))

/-- C3, counterexample: a Flagged, unseen, oversized new message still
gets only a placeholder (sync.c:1173 tests the S_DUMMY bits, not
F_FLAGGED), while the claim says it would be copied verbatim. -/
theorem C3_counterexample : ¬ claimC3asStated := by
  intro h
  have := h ⟨false, false, true, false, false, false, false, 0, 0, 0, 5⟩
    ⟨0, true⟩ ⟨10, F_FLAGGED, 100, false, none⟩
    S_PENDING (S_PENDING ||| S_DUMMY_F) true true
    rfl (by decide) (by decide) (by decide)
  exact absurd this (by decide)

/-- C3 (amended): for every message that reaches propagation (is not
continued away and not expunge-killed), a placeholder is emitted instead
of a full copy exactly when the message's size exceeds the target store's
size cap and the record does not already carry a placeholder bit on either
side; the Flagged flag plays no role in this decision.  The final record
status adds S_DUMMY(t) exactly in the placeholder case. -/
theorem C3_placeholder_decision (p : NewMsg.NParams) (s : NewMsg.NState)
    (m : NewMsg.NMsg) (stB st : Nat) (c ph : Bool)
    (h : (NewMsg.procMsg p s m).2 = NewMsg.NRes.propagated stB st c ph) :
    ph = (decide (p.maxSize < m.size) &&
          !(hasBits stB (S_DUMMY_F ||| S_DUMMY_N))) ∧
    st = (if ph then stB ||| Expire.S_DUMMY p.tN else stB) := by
  have key : ∀ (st0 : Nat) (c0 : Bool),
      NewMsg.tailChecks p m st0 c0 = NewMsg.NRes.propagated stB st c ph →
      ph = (decide (p.maxSize < m.size) &&
            !(hasBits stB (S_DUMMY_F ||| S_DUMMY_N))) ∧
      st = (if ph then stB ||| Expire.S_DUMMY p.tN else stB) := by
    intro st0 c0 ht
    unfold NewMsg.tailChecks at ht
    split_ifs at ht with h1 h2
    · injection ht with hb hs hc2 hp
      subst hb; subst hp; subst hs
      exact ⟨h2.symm, rfl⟩
    · injection ht with hb hs hc2 hp
      subst hb; subst hp; subst hs
      rw [Bool.not_eq_true] at h2
      exact ⟨h2.symm, rfl⟩
  unfold NewMsg.procMsg at h
  by_cases hd : m.dead
  · rw [if_pos hd] at h
    exact absurd h (by simp)
  · rw [if_neg hd] at h
    cases hm : m.srec with
    | some r =>
        rw [hm] at h
        dsimp only at h
        unfold NewMsg.srecRes at h
        split_ifs at h <;>
          first
            | exact key _ _ h
            | exact absurd h (by simp)
    | none =>
        rw [hm] at h
        dsimp only at h
        split_ifs at h <;>
          (try dsimp only [NewMsg.newRec] at h) <;>
          first
            | exact key _ _ h
            | exact absurd h (by simp)

/-- C3, witness: an unflagged oversized new message is dummified; the
decision applied at a concrete propagated message. -/
theorem C3_witness :
    (NewMsg.procMsg ⟨false, false, true, false, false, false, false, 0, 0, 0, 5⟩
        ⟨0, true⟩ ⟨10, 0, 100, false, none⟩).2 =
      NewMsg.NRes.propagated S_PENDING (S_PENDING ||| S_DUMMY_F) true true ∧
    (true = (decide (5 < 100) &&
             !(hasBits S_PENDING (S_DUMMY_F ||| S_DUMMY_N))) ∧
     (S_PENDING ||| S_DUMMY_F) =
       (if true then S_PENDING ||| Expire.S_DUMMY false else S_PENDING)) := by
  refine ⟨by decide, ?_⟩
  exact C3_placeholder_decision
    ⟨false, false, true, false, false, false, false, 0, 0, 0, 5⟩
    ⟨0, true⟩ ⟨10, 0, 100, false, none⟩
    S_PENDING (S_PENDING ||| S_DUMMY_F) true true (by decide)

/-- C9 as stated in the spec (spec-modelled, for refutation): the committed
maxuid bounds the UIDs of all considered messages, in particular of all
paired messages. -/
def claimC9asStated : Prop :=
  ∀ (p : NewMsg.NParams) (s : NewMsg.NState) (ms : List NewMsg.NMsg)
    (m : NewMsg.NMsg), m ∈ ms → m.dead = false → NewMsg.pairedMsg m = true →
    m.uid ≤ NewMsg.commitMaxuid (NewMsg.runNewMsgs p s ms).1

/-- C9, counterexample: once `topping` ends (here: a skipped new message
with OP_NEW off on a side other than the expire side), a paired message
with a larger UID no longer bumps newmaxuid, so the committed maxuid (2)
stays below the UID (5) of a message that was considered (paired). -/
theorem C9_counterexample : ¬ claimC9asStated := by
  intro h
  have := h ⟨false, false, false, false, false, false, false, 0, 2, 0, 0⟩
    ⟨2, true⟩
    [⟨3, 0, 0, false, none⟩, ⟨5, 0, 0, false, some ⟨7, 0, 0, 0, 0, 0, 0⟩⟩]
    ⟨5, 0, 0, false, some ⟨7, 0, 0, 0, 0, 0, 0⟩⟩
    (by simp) rfl (by decide)
  exact absurd this (by decide)

/-- C9 (amended): across the new-message pass, newmaxuid never decreases,
and the committed maxuid (box_closed_p2 sets maxuid = newmaxuid) is an
upper bound on the UID of every message for which a sync record was
created during this run; UIDs of messages merely skipped or paired beyond
the topping prefix are not necessarily bounded. -/
theorem C9_maxuid_bound (p : NewMsg.NParams) (s : NewMsg.NState)
    (ms : List NewMsg.NMsg) (m : NewMsg.NMsg) (r : NewMsg.NRes)
    (hmem : (m, r) ∈ (NewMsg.runNewMsgs p s ms).2)
    (hc : NewMsg.createdOf r = true) :
    s.newmaxuid ≤ NewMsg.commitMaxuid (NewMsg.runNewMsgs p s ms).1 ∧
    m.uid ≤ NewMsg.commitMaxuid (NewMsg.runNewMsgs p s ms).1 :=
  ⟨NewMsg.runNewMsgs_newmaxuid_mono p s ms,
   NewMsg.runNewMsgs_created_le p s ms m r hmem hc⟩

/-- C9, witness: the bound applied at a concrete run that creates a record
for a new message with UID 5 over a committed maxuid of 2. -/
theorem C9_witness :
    2 ≤ NewMsg.commitMaxuid
        (NewMsg.runNewMsgs
          ⟨false, false, true, false, false, false, false, 0, 2, 0, 9⟩
          ⟨2, true⟩ [⟨5, 0, 0, false, none⟩]).1 ∧
    5 ≤ NewMsg.commitMaxuid
        (NewMsg.runNewMsgs
          ⟨false, false, true, false, false, false, false, 0, 2, 0, 9⟩
          ⟨2, true⟩ [⟨5, 0, 0, false, none⟩]).1 :=
  C9_maxuid_bound
    ⟨false, false, true, false, false, false, false, 0, 2, 0, 9⟩
    ⟨2, true⟩ [⟨5, 0, 0, false, none⟩]
    ⟨5, 0, 0, false, none⟩
    (NewMsg.NRes.propagated S_PENDING S_PENDING true false)
    (by decide) (by decide)


/-! ## Modified UTF-7 mailbox-name conversion (imap_utf7.c). -/

namespace Utf7

/-- The bit fifo (imap_utf7.c:16-19).  The C value is a u64 and is never
truncated on eat; all reads mask within the live `bits` (kept at or below
64 by the asserts), so an untruncated Nat value yields the same results. -/
structure Fifo where
  value : Nat
  bits : Nat
  deriving DecidableEq, Repr

/-- add_bits (imap_utf7.c:21-27). -/
def add_bits (f : Fifo) (v size : Nat) : Fifo :=
  ⟨(f.value <<< size) ||| v, f.bits + size⟩

/-- eat_bits (imap_utf7.c:29-34): the eaten value and the updated fifo. -/
def eat_bits (f : Fifo) (size : Nat) : Nat × Fifo :=
  ((f.value >>> (f.bits - size)) &&& ((1 <<< size) - 1), ⟨f.value, f.bits - size⟩)

/-- peek_bits (imap_utf7.c:36-40). -/
def peek_bits (f : Fifo) (size : Nat) : Nat :=
  (f.value >>> (f.bits - size)) &&& ((1 <<< size) - 1)

/-- read_as_utf8 (imap_utf7.c:54-94) on the remaining buffer; reading the
NUL terminator at the end of the string yields 0.  Where the C reads the
terminator as a (failing) continuation byte, the list is simply too
short, with the same result. -/
def read_as_utf8 : List Nat → Option (Nat × List Nat)
  | [] => some (0, [])
  | chr :: rest =>
    if chr < 0x80 then some (chr, rest)
    else if chr &&& 0xf8 == 0xf0 then
      match rest with
      | chr2 :: chr3 :: chr4 :: rest4 =>
          if (chr2 &&& 0xc0 == 0x80) && (chr3 &&& 0xc0 == 0x80) &&
             (chr4 &&& 0xc0 == 0x80) then
            some ((((chr &&& 0x7) <<< 18) ||| ((chr2 &&& 0x3f) <<< 12) |||
                   ((chr3 &&& 0x3f) <<< 6) ||| (chr4 &&& 0x3f)), rest4)
          else none
      | _ => none
    else if chr &&& 0xf0 == 0xe0 then
      match rest with
      | chr2 :: chr3 :: rest3 =>
          if (chr2 &&& 0xc0 == 0x80) && (chr3 &&& 0xc0 == 0x80) then
            some ((((chr &&& 0xf) <<< 12) ||| ((chr2 &&& 0x3f) <<< 6) |||
                   (chr3 &&& 0x3f)), rest3)
          else none
      | _ => none
    else if chr &&& 0xe0 == 0xc0 then
      match rest with
      | chr2 :: rest2 =>
          if chr2 &&& 0xc0 == 0x80 then
            some ((((chr &&& 0x1f) <<< 6) ||| (chr2 &&& 0x3f)), rest2)
          else none
      | _ => none
    else none

/-- needs_encoding (imap_utf7.c:96-100). -/
def needs_encoding (chr : Nat) : Bool :=
  chr != 0 && (decide (chr ≤ 0x1f) || decide (0x7f ≤ chr))

/-- utf16_encode (imap_utf7.c:102-107). -/
def utf16_encode (chr : Nat) : Nat :=
  ((((chr - 0x10000) >>> 10) + 0xd800) <<< 16) ||| (((chr - 0x10000) &&& 0x3ff) + 0xdc00)

/-- The base64 alphabet of b64_encode (imap_utf7.c:113),
"ABCDEFGHIJKLMNOPQRSTUVWXYZabcdefghijklmnopqrstuvwxyz0123456789+,",
as byte values. -/
def b64_alphabet : List Nat :=
  [65, 66, 67, 68, 69, 70, 71, 72, 73, 74, 75, 76, 77, 78, 79, 80, 81, 82,
   83, 84, 85, 86, 87, 88, 89, 90,
   97, 98, 99, 100, 101, 102, 103, 104, 105, 106, 107, 108, 109, 110, 111,
   112, 113, 114, 115, 116, 117, 118, 119, 120, 121, 122,
   48, 49, 50, 51, 52, 53, 54, 55, 56, 57, 43, 44]

/-- b64_encode (imap_utf7.c:109-114). -/
def b64_encode (chr : Nat) : Nat := b64_alphabet.getD chr 0

/-- ~0U, the sentinel in b64_decode's lookup table. -/
def NOTU : Nat := 0xffffffff

/-- The lookup table of b64_decode (imap_utf7.c:205-214). -/
def b64_lu : List Nat :=
  [NOTU, NOTU, NOTU, NOTU, NOTU, NOTU, NOTU, NOTU,
   NOTU, NOTU, NOTU, NOTU, NOTU, NOTU, NOTU, NOTU,
   NOTU, NOTU, NOTU, NOTU, NOTU, NOTU, NOTU, NOTU,
   NOTU, NOTU, NOTU, NOTU, NOTU, NOTU, NOTU, NOTU,
   NOTU, NOTU, NOTU, NOTU, NOTU, NOTU, NOTU, NOTU,
   NOTU, NOTU, NOTU, 62, 63, NOTU, NOTU, NOTU,
   52, 53, 54, 55, 56, 57, 58, 59, 60, 61, NOTU, NOTU, NOTU, NOTU, NOTU, NOTU,
   NOTU, 0, 1, 2, 3, 4, 5, 6, 7, 8, 9, 10, 11, 12, 13, 14,
   15, 16, 17, 18, 19, 20, 21, 22, 23, 24, 25, NOTU, NOTU, NOTU, NOTU, NOTU,
   NOTU, 26, 27, 28, 29, 30, 31, 32, 33, 34, 35, 36, 37, 38, 39, 40,
   41, 42, 43, 44, 45, 46, 47, 48, 49, 50, 51, NOTU, NOTU, NOTU, NOTU, NOTU]

/-- b64_decode (imap_utf7.c:202-216).  The C indexes lu[chr] only after
the chr & 0x80 check, so chr < 128. -/
def b64_decode (chr : Nat) : Nat := b64_lu.getD chr NOTU

/-- write_as_utf8 (imap_utf7.c:169-188); the list of appended bytes.
(The C has `assert(chr <= 0xfffff)` in the 4-byte branch, which is off by
a factor of 16 and would fire for planes 16 and up; the emitted bytes are
correct for the whole range, and the model omits the assert.) -/
def write_as_utf8 (chr : Nat) : List Nat :=
  if chr ≤ 0x7f then [chr]
  else if chr ≤ 0x7ff then
    [(chr >>> 6) ||| 0xc0, (chr &&& 0x3f) ||| 0x80]
  else if chr ≤ 0xffff then
    [(chr >>> 12) ||| 0xe0, ((chr >>> 6) &&& 0x3f) ||| 0x80, (chr &&& 0x3f) ||| 0x80]
  else
    [(chr >>> 18) ||| 0xf0, ((chr >>> 12) &&& 0x3f) ||| 0x80,
     ((chr >>> 6) &&& 0x3f) ||| 0x80, (chr &&& 0x3f) ||| 0x80]

/-- need_another_16bit (imap_utf7.c:190-194). -/
def need_another_16bit (bits : Nat) : Bool := bits &&& 0xfc00 == 0xd800

/-- utf16_decode (imap_utf7.c:196-200). -/
def utf16_decode (subject : Nat) : Nat :=
  0x10000 + (((subject >>> 16) - 0xd800) <<< 10) + ((subject &&& 0xffff) - 0xdc00)

/-- The drain loop of imap_utf8_to_utf7 (imap_utf7.c:148-149). -/
def drain (f : Fifo) : List Nat × Fifo :=
  if h : 6 ≤ f.bits then
    let e := eat_bits f 6
    let r := drain e.2
    (b64_encode e.1 :: r.1, r.2)
  else ([], f)
termination_by f.bits
decreasing_by simp [eat_bits]; omega

/-- The end-of-run flush of imap_utf8_to_utf7 (imap_utf7.c:151-158): the
zero-padded trail character (when bits are pending) and the closing '-'. -/
def endSeq (f : Fifo) : List Nat :=
  (if f.bits != 0 then
     [b64_encode ((eat_bits f f.bits).1 <<< (6 - f.bits))]
   else []) ++ [45]

theorem read_as_utf8_progress (l : List Nat) (chr : Nat) (rest : List Nat)
    (h : read_as_utf8 l = some (chr, rest)) (hc : chr ≠ 0) :
    rest.length < l.length := by
  match l with
  | [] =>
      simp only [read_as_utf8] at h
      injection h with h
      injection h with h1 h2
      exact absurd h1.symm hc
  | c :: tl =>
      simp only [read_as_utf8] at h
      split_ifs at h with h1 h2 h3 h4
      · injection h with h
        injection h with ha hb
        subst hb
        simp
      all_goals (
        first
          | (split at h
             · split_ifs at h
               injection h with h
               injection h with ha hb
               subst hb
               simp
               omega
             · exact absurd h (by simp))
          | exact absurd h (by simp))

/-- The main loop of imap_utf8_to_utf7 (imap_utf7.c:132-164).  In the
non-encoded branch the fifo's bit count is zero (it is only ever left
with bits pending inside a run), which the recursive call makes
explicit. -/
def utf8to7go (f : Fifo) (encoding : Bool) (l : List Nat) : Option (List Nat) :=
  match h : read_as_utf8 l with
  | none => none
  | some (chr, rest) =>
      if chr == 0 then
        -- the NUL terminator: flush the run and stop (the terminator
        -- itself is not part of the returned string value)
        some (if encoding then endSeq f else [])
      else if needs_encoding chr then
        match utf8to7go (drain (if chr ≤ 0xffff then add_bits f chr 16
                                else add_bits f (utf16_encode chr) 32)).2 true rest with
        | none => none
        | some out =>
            some ((if encoding then [] else [38]) ++
                  (drain (if chr ≤ 0xffff then add_bits f chr 16
                          else add_bits f (utf16_encode chr) 32)).1 ++ out)
      else
        match utf8to7go ⟨f.value, 0⟩ false rest with
        | none => none
        | some out =>
            some ((if encoding then endSeq f else []) ++
                  (if chr == 38 then [38, 45] else [chr]) ++ out)
termination_by l.length
decreasing_by
  all_goals exact read_as_utf8_progress l chr rest h (by simp_all)

/-- imap_utf8_to_utf7 (imap_utf7.c:116-167). -/
def imap_utf8_to_utf7 (l : List Nat) : Option (List Nat) :=
  utf8to7go ⟨0, 0⟩ false l

/-- The per-character processing of one shift-sequence character
(imap_utf7.c:252-275): the 8-bit and alphabet checks, the 6-bit push, and
the 16/32-bit pops.  Returns the decoded bytes and the updated fifo, or
none on error. -/
def runStepFifo (f : Fifo) (chr : Nat) : Option (List Nat × Fifo) :=
  if chr &&& 0x80 != 0 then none
  else if b64_decode chr == NOTU then none
  else
    if 16 ≤ (add_bits f (b64_decode chr) 6).bits then
      if need_another_16bit (peek_bits (add_bits f (b64_decode chr) 6) 16) then
        if 32 ≤ (add_bits f (b64_decode chr) 6).bits then
          if (eat_bits (add_bits f (b64_decode chr) 6) 32).1 &&& 0xfc00 != 0xdc00 then
            none
          else
            some
              (write_as_utf8 (utf16_decode (eat_bits (add_bits f (b64_decode chr) 6) 32).1),
               (eat_bits (add_bits f (b64_decode chr) 6) 32).2)
        else some ([], add_bits f (b64_decode chr) 6)
      else
        some (write_as_utf8 (eat_bits (add_bits f (b64_decode chr) 6) 16).1,
              (eat_bits (add_bits f (b64_decode chr) 6) 16).2)
    else some ([], add_bits f (b64_decode chr) 6)

/-- One shift sequence (the inner do-while of imap_utf7_to_utf8,
imap_utf7.c:250-285): `chr` is the current character, `l` the rest of the
input.  Returns the decoded bytes and the input remaining after the
terminating '-'. -/
def utf7run (f : Fifo) (chr : Nat) (l : List Nat) : Option (List Nat × List Nat) :=
  match runStepFifo f chr with
  | none => none
  | some (out, f2) =>
      match l with
      | [] => none
      | c2 :: rest =>
          if c2 == 45 then
            if 6 < f2.bits then none else some (out, rest)
          else
            match utf7run f2 c2 rest with
            | none => none
            | some (out2, rest2) => some (out ++ out2, rest2)

theorem utf7run_length (f : Fifo) (chr : Nat) (l : List Nat)
    (out : List Nat) (rest : List Nat) (h : utf7run f chr l = some (out, rest)) :
    rest.length < l.length := by
  induction l generalizing f chr out with
  | nil =>
      unfold utf7run at h
      rcases hs : runStepFifo f chr with _ | ⟨o0, f2⟩ <;> rw [hs] at h
      · exact absurd h (by simp)
      · exact absurd h (by simp)
  | cons c2 tl ih =>
      unfold utf7run at h
      rcases hs : runStepFifo f chr with _ | ⟨o0, f2⟩ <;> rw [hs] at h
      · exact absurd h (by simp)
      · dsimp only at h
        by_cases hd : (c2 == 45) = true
        · rw [if_pos hd] at h
          by_cases hb : 6 < f2.bits
          · rw [if_pos hb] at h
            exact absurd h (by simp)
          · rw [if_neg hb] at h
            injection h with h
            injection h with ha hb2
            subst hb2
            simp
        · rw [if_neg hd] at h
          rcases hr : utf7run f2 c2 tl with _ | ⟨o2, r2⟩ <;> rw [hr] at h
          · exact absurd h (by simp)
          · dsimp only at h
            injection h with h
            injection h with ha hb2
            subst hb2
            exact Nat.lt_trans (ih f2 c2 o2 hr) (by simp)

/-- imap_utf7_to_utf8 (imap_utf7.c:218-288).  The C resets only the bit
count at the start of each shift sequence; the stale value is never read
beyond the live bits, so the model passes a zeroed fifo. -/
def imap_utf7_to_utf8 (l : List Nat) : Option (List Nat) :=
  match l with
  | [] => some []
  | chr :: rest =>
      if chr != 38 then
        if chr &&& 0x80 != 0 then none
        else Option.map (fun out => chr :: out) (imap_utf7_to_utf8 rest)
      else
        match rest with
        | [] => none
        | c2 :: rest2 =>
            if c2 == 45 then
              Option.map (fun out => 38 :: out) (imap_utf7_to_utf8 rest2)
            else
              match h : utf7run ⟨0, 0⟩ c2 rest2 with
              | none => none
              | some (out, rest3) =>
                  Option.map (fun out2 => out ++ out2) (imap_utf7_to_utf8 rest3)
termination_by l.length
decreasing_by
  · simp
  · simp
    omega
  · have := utf7run_length _ _ _ _ _ h
    simp
    omega

/-! ### Arithmetic characterization of the fifo and of the bit operations.

`content f` is the number formed by the live bits of the fifo; all fifo
reads depend only on it. -/

def content (f : Fifo) : Nat := f.value % 2 ^ f.bits

theorem content_lt (f : Fifo) : content f < 2 ^ f.bits :=
  Nat.mod_lt _ (Nat.two_pow_pos _)

theorem and_mask (x w : Nat) : x &&& ((1 <<< w) - 1) = x % 2 ^ w := by
  rw [Nat.one_shiftLeft, Nat.and_pow_two_sub_one_eq_mod]

theorem lor_add (x v w : Nat) (hv : v < 2 ^ w) :
    (x <<< w) ||| v = x * 2 ^ w + v := by
  calc (x <<< w) ||| v = (2 ^ w * x) ||| v := by rw [Nat.shiftLeft_eq, Nat.mul_comm]
    _ = 2 ^ w * x + v := (Nat.mul_add_lt_is_or hv x).symm
    _ = x * 2 ^ w + v := by rw [Nat.mul_comm]

theorem and_fc00 (x : Nat) : x &&& 64512 = x / 1024 % 64 * 1024 := by
  have hr : x / 1024 % 64 * 1024 = ((x >>> 10) % 2 ^ 6) <<< 10 := by
    rw [Nat.shiftLeft_eq, Nat.shiftRight_eq_div_pow]
    norm_num
  rw [hr]
  apply Nat.eq_of_testBit_eq
  intro i
  rw [Nat.testBit_and, Nat.testBit_shiftLeft,
      (by norm_num [Nat.shiftLeft_eq] : (64512 : Nat) = 63 <<< 10),
      Nat.testBit_shiftLeft, (by norm_num : (63 : Nat) = 2 ^ 6 - 1),
      Nat.testBit_two_pow_sub_one, Nat.testBit_mod_two_pow, Nat.testBit_shiftRight]
  by_cases h10 : 10 ≤ i
  · have he : 10 + (i - 10) = i := by omega
    rw [he]
    by_cases h6 : i - 10 < 6 <;> simp [h10, h6, Bool.and_comm]
  · simp [h10]

theorem add_bits_bits (f : Fifo) (v size : Nat) :
    (add_bits f v size).bits = f.bits + size := rfl

theorem content_add_bits (f : Fifo) (v size : Nat) (hv : v < 2 ^ size) :
    content (add_bits f v size) = content f * 2 ^ size + v := by
  unfold content add_bits
  dsimp only
  rw [lor_add _ _ _ hv, Nat.pow_add]
  have h1 : f.value * 2 ^ size % (2 ^ f.bits * 2 ^ size) =
      f.value % 2 ^ f.bits * 2 ^ size := Nat.mul_mod_mul_right _ _ _
  have hm : f.value % 2 ^ f.bits < 2 ^ f.bits := Nat.mod_lt _ (Nat.two_pow_pos _)
  have hsle : 2 ^ size ≤ 2 ^ f.bits * 2 ^ size :=
    Nat.le_mul_of_pos_left _ (Nat.two_pow_pos _)
  have hlt : f.value % 2 ^ f.bits * 2 ^ size + v < 2 ^ f.bits * 2 ^ size := by
    have h2 : f.value % 2 ^ f.bits * 2 ^ size + v <
        f.value % 2 ^ f.bits * 2 ^ size + 2 ^ size := by omega
    have h3 : (f.value % 2 ^ f.bits + 1) * 2 ^ size ≤ 2 ^ f.bits * 2 ^ size :=
      Nat.mul_le_mul_right _ (Nat.succ_le_of_lt hm)
    calc f.value % 2 ^ f.bits * 2 ^ size + v
        < (f.value % 2 ^ f.bits + 1) * 2 ^ size := by
          rw [Nat.succ_mul]
          omega
      _ ≤ 2 ^ f.bits * 2 ^ size := h3
  rw [Nat.add_mod, h1, Nat.mod_eq_of_lt (Nat.lt_of_lt_of_le hv hsle),
      Nat.mod_eq_of_lt hlt]

theorem eat_bits_fst (f : Fifo) (w : Nat) (hw : w ≤ f.bits) :
    (eat_bits f w).1 = content f / 2 ^ (f.bits - w) := by
  unfold eat_bits content
  dsimp only
  rw [and_mask, Nat.shiftRight_eq_div_pow, Nat.div_mod_eq_mod_mul_div, ← Nat.pow_add]
  have he : f.bits - w + w = f.bits := by omega
  rw [he]

theorem eat_bits_snd (f : Fifo) (w : Nat) :
    (eat_bits f w).2 = ⟨f.value, f.bits - w⟩ := rfl

theorem content_eat_bits (f : Fifo) (w : Nat) :
    content (eat_bits f w).2 = content f % 2 ^ (f.bits - w) := by
  unfold eat_bits content
  dsimp only
  exact (Nat.mod_mod_of_dvd _ (Nat.pow_dvd_pow 2 (by omega))).symm

theorem peek_bits_eq_eat (f : Fifo) (w : Nat) : peek_bits f w = (eat_bits f w).1 := rfl

set_option maxRecDepth 8192 in
/-- b64_encode and b64_decode are mutually inverse on six-bit values, and
the alphabet avoids the special characters. -/
theorem b64_facts : ∀ s, s < 64 → b64_decode (b64_encode s) = s ∧
    b64_encode s < 128 ∧ b64_encode s ≠ 45 ∧ b64_encode s ≠ 38 ∧
    b64_encode s &&& 128 = 0 ∧ b64_encode s ≠ 0 := by decide

set_option maxRecDepth 8192 in
/-- Byte-level mask classifications used by read_as_utf8 and the
decoders, settled for all byte values. -/
theorem byte_class : ∀ b, b < 256 →
    ((b &&& 0xf8 == 0xf0) = decide (0xf0 ≤ b ∧ b < 0xf8)) ∧
    ((b &&& 0xf0 == 0xe0) = decide (0xe0 ≤ b ∧ b < 0xf0)) ∧
    ((b &&& 0xe0 == 0xc0) = decide (0xc0 ≤ b ∧ b < 0xe0)) ∧
    ((b &&& 0xc0 == 0x80) = decide (0x80 ≤ b ∧ b < 0xc0)) ∧
    ((b &&& 0x80 != 0) = decide (0x80 ≤ b)) := by decide

set_option maxRecDepth 8192 in
/-- Byte-level masks as remainders, for all byte values. -/
theorem byte_mask : ∀ b, b < 256 →
    b &&& 0x7 = b % 8 ∧ b &&& 0xf = b % 16 ∧ b &&& 0x1f = b % 32 ∧
    b &&& 0x3f = b % 64 := by decide

/-! ### Arithmetic forms of the byte assembly in read_as_utf8 /
write_as_utf8. -/

theorem and7 (x : Nat) : x &&& 7 = x % 8 := by
  have h := and_mask x 3
  norm_num [Nat.shiftLeft_eq] at h
  exact h

theorem and15 (x : Nat) : x &&& 15 = x % 16 := by
  have h := and_mask x 4
  norm_num [Nat.shiftLeft_eq] at h
  exact h

theorem and31 (x : Nat) : x &&& 31 = x % 32 := by
  have h := and_mask x 5
  norm_num [Nat.shiftLeft_eq] at h
  exact h

theorem and63 (x : Nat) : x &&& 63 = x % 64 := by
  have h := and_mask x 6
  norm_num [Nat.shiftLeft_eq] at h
  exact h

theorem and1023 (x : Nat) : x &&& 1023 = x % 1024 := by
  have h := and_mask x 10
  norm_num [Nat.shiftLeft_eq] at h
  exact h

theorem and65535 (x : Nat) : x &&& 65535 = x % 65536 := by
  have h := and_mask x 16
  norm_num [Nat.shiftLeft_eq] at h
  exact h

theorem lor_add_mul (x v w : Nat) (hv : v < 2 ^ w) :
    (x * 2 ^ w) ||| v = x * 2 ^ w + v := by
  rw [← Nat.shiftLeft_eq, lor_add x v w hv, Nat.shiftLeft_eq]

theorem or_high (k w v : Nat) (hv : v < 2 ^ w) : v ||| k * 2 ^ w = k * 2 ^ w + v := by
  rw [Nat.lor_comm, lor_add_mul k v w hv]

theorem or_c0 (v : Nat) (hv : v < 64) : v ||| 192 = 192 + v := by
  have h := or_high 3 6 v (by norm_num; omega)
  norm_num at h
  exact h

theorem or_80 (v : Nat) (hv : v < 64) : v ||| 128 = 128 + v := by
  have h := or_high 2 6 v (by norm_num; omega)
  norm_num at h
  exact h

theorem or_e0 (v : Nat) (hv : v < 32) : v ||| 224 = 224 + v := by
  have h := or_high 7 5 v (by norm_num; omega)
  norm_num at h
  exact h

theorem or_f0 (v : Nat) (hv : v < 16) : v ||| 240 = 240 + v := by
  have h := or_high 15 4 v (by norm_num; omega)
  norm_num at h
  exact h

theorem assemble2 (a b : Nat) (hb : b < 64) : (a <<< 6) ||| b = a * 64 + b := by
  simp only [Nat.shiftLeft_eq]
  rw [lor_add_mul a b 6 (by norm_num; omega)]
  ring

theorem assemble3 (a b c : Nat) (hb : b < 64) (hc : c < 64) :
    (a <<< 12) ||| (b <<< 6) ||| c = a * 4096 + b * 64 + c := by
  simp only [Nat.shiftLeft_eq]
  rw [lor_add_mul a (b * 2 ^ 6) 12 (by norm_num; omega)]
  rw [(by ring : a * 2 ^ 12 + b * 2 ^ 6 = (a * 2 ^ 6 + b) * 2 ^ 6)]
  rw [lor_add_mul _ c 6 (by norm_num; omega)]
  ring

theorem assemble4 (a b c d : Nat) (hb : b < 64) (hc : c < 64) (hd : d < 64) :
    (a <<< 18) ||| (b <<< 12) ||| (c <<< 6) ||| d =
      a * 262144 + b * 4096 + c * 64 + d := by
  simp only [Nat.shiftLeft_eq]
  rw [lor_add_mul a (b * 2 ^ 12) 18 (by norm_num; omega)]
  rw [(by ring : a * 2 ^ 18 + b * 2 ^ 12 = (a * 2 ^ 6 + b) * 2 ^ 12)]
  rw [lor_add_mul _ (c * 2 ^ 6) 12 (by norm_num; omega)]
  rw [(by ring : (a * 2 ^ 6 + b) * 2 ^ 12 + c * 2 ^ 6 = ((a * 2 ^ 6 + b) * 2 ^ 6 + c) * 2 ^ 6)]
  rw [lor_add_mul _ d 6 (by norm_num; omega)]
  ring

/-- write_as_utf8 in arithmetic form, one lemma per byte-length class. -/
theorem write_as_utf8_one (c : Nat) (h : c ≤ 0x7f) : write_as_utf8 c = [c] := by
  unfold write_as_utf8
  rw [if_pos h]

theorem write_as_utf8_two (c : Nat) (h1 : 0x80 ≤ c) (h2 : c ≤ 0x7ff) :
    write_as_utf8 c = [192 + c / 64, 128 + c % 64] := by
  unfold write_as_utf8
  rw [if_neg (by omega), if_pos h2, Nat.shiftRight_eq_div_pow, and63]
  norm_num
  rw [or_c0 _ (by omega), or_80 _ (by omega)]
  exact ⟨rfl, rfl⟩

theorem write_as_utf8_three (c : Nat) (h1 : 0x800 ≤ c) (h2 : c ≤ 0xffff) :
    write_as_utf8 c = [224 + c / 4096, 128 + c / 64 % 64, 128 + c % 64] := by
  unfold write_as_utf8
  rw [if_neg (by omega), if_neg (by omega), if_pos h2,
      Nat.shiftRight_eq_div_pow, Nat.shiftRight_eq_div_pow, and63, and63]
  norm_num
  rw [or_e0 _ (by omega), or_80 _ (by omega), or_80 _ (by omega)]
  exact ⟨rfl, rfl, rfl⟩

theorem write_as_utf8_four (c : Nat) (h1 : 0x10000 ≤ c) (h2 : c ≤ 0x10ffff) :
    write_as_utf8 c =
      [240 + c / 262144, 128 + c / 4096 % 64, 128 + c / 64 % 64, 128 + c % 64] := by
  unfold write_as_utf8
  rw [if_neg (by omega), if_neg (by omega), if_neg (by omega),
      Nat.shiftRight_eq_div_pow, Nat.shiftRight_eq_div_pow, Nat.shiftRight_eq_div_pow,
      and63, and63, and63]
  norm_num
  rw [or_f0 _ (by omega), or_80 _ (by omega), or_80 _ (by omega), or_80 _ (by omega)]
  exact ⟨rfl, rfl, rfl, rfl⟩

/-- read_as_utf8 inverts write_as_utf8 for every code point the encoder
can emit. -/
theorem read_write (c : Nat) (h : c ≤ 0x10ffff) (rest : List Nat) :
    read_as_utf8 (write_as_utf8 c ++ rest) = some (c, rest) := by
  by_cases hc1 : c ≤ 0x7f
  · rw [write_as_utf8_one c hc1]
    simp only [List.cons_append, List.nil_append, read_as_utf8]
    rw [if_pos (by omega : c < 0x80)]
  · by_cases hc2 : c ≤ 0x7ff
    · rw [write_as_utf8_two c (by omega) hc2]
      simp only [List.cons_append, List.nil_append, read_as_utf8]
      have hb1 : (192 + c / 64) < 256 := by omega
      have hb2 : (128 + c % 64) < 256 := by omega
      rw [if_neg (by omega),
          if_neg (by simp [(byte_class _ hb1).1]; omega),
          if_neg (by simp [(byte_class _ hb1).2.1]; omega),
          if_pos (by simp [(byte_class _ hb1).2.2.1]; omega)]
      rw [if_pos (by simp [(byte_class _ hb2).2.2.2.1]; omega)]
      have hv : (((192 + c / 64) &&& 0x1f) <<< 6) ||| ((128 + c % 64) &&& 0x3f) = c := by
        rw [(byte_mask _ hb1).2.2.1, (byte_mask _ hb2).2.2.2]
        rw [(by omega : (192 + c / 64) % 32 = c / 64),
            (by omega : (128 + c % 64) % 64 = c % 64),
            assemble2 _ _ (by omega)]
        omega
      rw [hv]
    · by_cases hc3 : c ≤ 0xffff
      · rw [write_as_utf8_three c (by omega) hc3]
        simp only [List.cons_append, List.nil_append, read_as_utf8]
        have hb1 : (224 + c / 4096) < 256 := by omega
        have hb2 : (128 + c / 64 % 64) < 256 := by omega
        have hb3 : (128 + c % 64) < 256 := by omega
        rw [if_neg (by omega),
            if_neg (by simp [(byte_class _ hb1).1]; omega),
            if_pos (by simp [(byte_class _ hb1).2.1]; omega)]
        rw [if_pos (by
              simp [(byte_class _ hb2).2.2.2.1, (byte_class _ hb3).2.2.2.1]
              omega)]
        have hv : (((224 + c / 4096) &&& 0xf) <<< 12) |||
              (((128 + c / 64 % 64) &&& 0x3f) <<< 6) ||| ((128 + c % 64) &&& 0x3f) = c := by
          rw [(byte_mask _ hb1).2.1, (byte_mask _ hb2).2.2.2, (byte_mask _ hb3).2.2.2]
          rw [(by omega : (224 + c / 4096) % 16 = c / 4096),
              (by omega : (128 + c / 64 % 64) % 64 = c / 64 % 64),
              (by omega : (128 + c % 64) % 64 = c % 64),
              assemble3 _ _ _ (by omega) (by omega)]
          omega
        rw [hv]
      · rw [write_as_utf8_four c (by omega) h]
        simp only [List.cons_append, List.nil_append, read_as_utf8]
        have hb1 : (240 + c / 262144) < 256 := by omega
        have hb2 : (128 + c / 4096 % 64) < 256 := by omega
        have hb3 : (128 + c / 64 % 64) < 256 := by omega
        have hb4 : (128 + c % 64) < 256 := by omega
        rw [if_neg (by omega),
            if_pos (by simp [(byte_class _ hb1).1]; omega)]
        rw [if_pos (by
              simp [(byte_class _ hb2).2.2.2.1, (byte_class _ hb3).2.2.2.1,
                    (byte_class _ hb4).2.2.2.1]
              omega)]
        have hv : (((240 + c / 262144) &&& 0x7) <<< 18) |||
              (((128 + c / 4096 % 64) &&& 0x3f) <<< 12) |||
              (((128 + c / 64 % 64) &&& 0x3f) <<< 6) ||| ((128 + c % 64) &&& 0x3f) = c := by
          rw [(byte_mask _ hb1).1, (byte_mask _ hb2).2.2.2, (byte_mask _ hb3).2.2.2,
              (byte_mask _ hb4).2.2.2]
          rw [(by omega : (240 + c / 262144) % 8 = c / 262144),
              (by omega : (128 + c / 4096 % 64) % 64 = c / 4096 % 64),
              (by omega : (128 + c / 64 % 64) % 64 = c / 64 % 64),
              (by omega : (128 + c % 64) % 64 = c % 64),
              assemble4 _ _ _ _ (by omega) (by omega) (by omega)]
          omega
        rw [hv]

/-! ### The encoder at code-point granularity. -/

/-- A Unicode scalar value as produced by a valid UTF-8 mailbox name:
nonzero (NUL terminates the C string), in range, not a surrogate. -/
def ValidScalar (c : Nat) : Prop :=
  1 ≤ c ∧ c ≤ 0x10ffff ∧ ¬(0xd800 ≤ c ∧ c ≤ 0xdfff)

/-- The UTF-16 unit a code point pushes into the fifo, and its width
(imap_utf7.c:144-147). -/
def unitOf (c : Nat) : Nat := if c ≤ 0xffff then c else utf16_encode c

def usize (c : Nat) : Nat := if c ≤ 0xffff then 16 else 32

theorem add_bits_unit (f : Fifo) (c : Nat) :
    (if c ≤ 0xffff then add_bits f c 16 else add_bits f (utf16_encode c) 32) =
      add_bits f (unitOf c) (usize c) := by
  unfold unitOf usize
  split_ifs <;> rfl

/-- utf8to7go with the UTF-8 byte parsing stripped away: the same loop
over the code-point list. -/
def enc7 (f : Fifo) (encoding : Bool) : List Nat → List Nat
  | [] => if encoding then endSeq f else []
  | c :: cs =>
      if needs_encoding c then
        (if encoding then [] else [38]) ++
        (drain (add_bits f (unitOf c) (usize c))).1 ++
        enc7 (drain (add_bits f (unitOf c) (usize c))).2 true cs
      else
        (if encoding then endSeq f else []) ++
        (if c == 38 then [38, 45] else [c]) ++
        enc7 ⟨f.value, 0⟩ false cs

/-- On the UTF-8 bytes of a list of valid scalars, the encoder loop is
the code-point loop. -/
theorem utf8to7go_flatMap (cps : List Nat) (hv : ∀ c ∈ cps, ValidScalar c)
    (f : Fifo) (e : Bool) :
    utf8to7go f e (cps.flatMap write_as_utf8) = some (enc7 f e cps) := by
  induction cps generalizing f e with
  | nil =>
      rw [List.flatMap_nil]
      unfold utf8to7go
      simp only [read_as_utf8]
      rw [if_pos (show ((0 : Nat) == 0) = true from rfl)]
      rfl
  | cons c cs ih =>
      have hc := hv c (List.mem_cons_self c cs)
      have hcs : ∀ x ∈ cs, ValidScalar x := fun x hx => hv x (List.mem_cons_of_mem c hx)
      rw [List.flatMap_cons]
      unfold utf8to7go
      rw [read_write c (by exact hc.2.1) (cs.flatMap write_as_utf8)]
      dsimp only
      rw [if_neg (show ¬((c == 0) = true) from by
            simp
            have := hc.1
            omega)]
      by_cases hne : needs_encoding c = true
      · rw [if_pos hne, ih hcs, add_bits_unit]
        dsimp only
        conv_rhs => rw [enc7]
        rw [if_pos hne]
      · rw [if_neg hne, ih hcs]
        dsimp only
        conv_rhs => rw [enc7]
        rw [if_neg hne]

/-! ### Base-64 digit streams.

`sextets k x` is the list of the k low base-64 digits of x, most
significant first. -/

def sextets : Nat → Nat → List Nat
  | 0, _ => []
  | k + 1, x => x / 64 ^ k % 64 :: sextets k x

theorem sextets_lt (k x : Nat) : ∀ s ∈ sextets k x, s < 64 := by
  induction k generalizing x with
  | zero => intro s hs; simp [sextets] at hs
  | succ k ih =>
      intro s hs
      simp only [sextets, List.mem_cons] at hs
      rcases hs with h | h
      · subst h; exact Nat.mod_lt _ (by norm_num)
      · exact ih x s h

theorem sextets_mod (k x : Nat) : sextets k (x % 64 ^ k) = sextets k x := by
  induction k generalizing x with
  | zero => rfl
  | succ k ih =>
      simp only [sextets]
      have hh : x % 64 ^ (k + 1) / 64 ^ k % 64 = x / 64 ^ k % 64 := by
        rw [pow_succ, Nat.mod_mul_right_div_self, Nat.mod_mod_of_dvd _ dvd_rfl]
      have ht : sextets k (x % 64 ^ (k + 1)) = sextets k x := by
        have h1 : x % 64 ^ (k + 1) % 64 ^ k = x % 64 ^ k :=
          Nat.mod_mod_of_dvd _ (pow_dvd_pow 64 (by omega))
        calc sextets k (x % 64 ^ (k + 1))
            = sextets k (x % 64 ^ (k + 1) % 64 ^ k) := (ih _).symm
          _ = sextets k (x % 64 ^ k) := by rw [h1]
          _ = sextets k x := ih _
      rw [hh, ht]

/-! ### UTF-16 unit streams. -/

/-- A well-formed UTF-16 unit as pushed by the encoder: either a BMP
non-high-surrogate 16-bit unit, or a 32-bit surrogate pair. -/
def WFunit : Nat × Nat → Prop
  | (u, s) =>
      (s = 16 ∧ u < 2 ^ 16 ∧ ¬(0xd800 ≤ u ∧ u < 0xdc00)) ∨
      (s = 32 ∧ u < 2 ^ 32 ∧ 0xd800 ≤ u / 2 ^ 16 ∧ u / 2 ^ 16 < 0xdc00 ∧
       0xdc00 ≤ u % 2 ^ 16 ∧ u % 2 ^ 16 < 0xe000)

/-- The UTF-8 bytes the decoder emits for one unit. -/
def bytesOfUnit : Nat × Nat → List Nat
  | (u, s) => if s = 16 then write_as_utf8 u else write_as_utf8 (utf16_decode u)

/-- Total bit length of a unit stream. -/
def streamB : List (Nat × Nat) → Nat
  | [] => 0
  | (_, s) :: us => s + streamB us

/-- The unit stream as a single number, first unit in the top bits. -/
def streamN : List (Nat × Nat) → Nat
  | [] => 0
  | (u, s) :: us => u * 2 ^ streamB us + streamN us

theorem streamN_lt (us : List (Nat × Nat)) (hwf : ∀ p ∈ us, WFunit p) :
    streamN us < 2 ^ streamB us := by
  induction us with
  | nil => simp [streamN, streamB]
  | cons p us ih =>
      obtain ⟨u, s⟩ := p
      have hu : u < 2 ^ s := by
        rcases hwf (u, s) (List.mem_cons_self _ _) with ⟨hs, hu, _⟩ | ⟨hs, hu, _⟩ <;>
          (subst hs; exact hu)
      have htl := ih (fun q hq => hwf q (List.mem_cons_of_mem _ hq))
      simp only [streamN, streamB, pow_add]
      calc u * 2 ^ streamB us + streamN us
          < u * 2 ^ streamB us + 2 ^ streamB us := by omega
        _ = (u + 1) * 2 ^ streamB us := by ring
        _ ≤ 2 ^ s * 2 ^ streamB us :=
            Nat.mul_le_mul_right _ (Nat.succ_le_of_lt hu)

/-- The zero padding appended to close a run of R remaining bits. -/
def padOf (r : Nat) : Nat := (6 - r % 6) % 6

/-- The per-character body iterated over a character list (the run of
imap_utf7.c:251-281 without the terminator handling). -/
def feed (f : Fifo) : List Nat → Option (List Nat × Fifo)
  | [] => some ([], f)
  | c :: cs =>
      match runStepFifo f c with
      | none => none
      | some (out, f2) =>
          match feed f2 cs with
          | none => none
          | some (out2, f3) => some (out ++ out2, f3)

/-- utf7run in terms of feed: the run processes its characters up to the
'-' and then applies the leftover-bits check. -/
theorem utf7run_feed (cs : List Nat) : ∀ (c : Nat) (f : Fifo) (rest : List Nat),
    (c == 45) = false → (∀ x ∈ cs, (x == 45) = false) →
    utf7run f c (cs ++ 45 :: rest) =
      (match feed f (c :: cs) with
       | none => none
       | some (out, f2) => if 6 < f2.bits then none else some (out, rest)) := by
  induction cs with
  | nil =>
      intro c f rest hc _
      unfold utf7run feed
      cases hs : runStepFifo f c with
      | none => rfl
      | some p =>
          obtain ⟨out, f2⟩ := p
          rw [List.nil_append]
          dsimp only
          rw [if_pos (show ((45 : Nat) == 45) = true from rfl)]
          unfold feed
          dsimp only
          rw [List.append_nil]
  | cons c2 cs2 ih =>
      intro c f rest hc hcs
      have hc2 : (c2 == 45) = false := hcs c2 (List.mem_cons_self _ _)
      have hcs2 : ∀ x ∈ cs2, (x == 45) = false :=
        fun x hx => hcs x (List.mem_cons_of_mem _ hx)
      unfold utf7run
      cases hs : runStepFifo f c with
      | none =>
          conv_rhs => unfold feed
          rw [hs]
      | some p =>
          obtain ⟨out, f2⟩ := p
          rw [List.cons_append]
          dsimp only
          rw [if_neg (by simp_all)]
          rw [ih c2 f2 rest hc2 hcs2]
          conv_rhs => unfold feed
          rw [hs]
          dsimp only
          cases hf : feed f2 (c2 :: cs2) with
          | none => rfl
          | some q =>
              obtain ⟨out2, f3⟩ := q
              dsimp only
              by_cases hb : 6 < f3.bits
              · rw [if_pos hb, if_pos hb]
              · rw [if_neg hb, if_neg hb]

/-- The drain loop emits the base-64 digits of the fifo's live bits above
the keep-remainder, and keeps bits % 6 bits. -/
theorem drain_spec : ∀ (n : Nat) (f : Fifo), f.bits ≤ n →
    (drain f).1 = (sextets (f.bits / 6) (content f / 2 ^ (f.bits % 6))).map b64_encode ∧
    (drain f).2.bits = f.bits % 6 ∧
    content (drain f).2 = content f % 2 ^ (f.bits % 6) := by
  intro n
  induction n with
  | zero =>
      intro f hf
      have hb : f.bits = 0 := by omega
      unfold drain
      rw [dif_neg (by omega)]
      refine ⟨?_, ?_, ?_⟩ <;> simp [hb, content, sextets]
  | succ n ih =>
      intro f hf
      by_cases h6 : 6 ≤ f.bits
      · have hC := content_lt f
        have heb : (eat_bits f 6).2.bits = f.bits - 6 := by rw [eat_bits_snd]
        have hrec := ih (eat_bits f 6).2 (by rw [heb]; omega)
        rw [heb, content_eat_bits] at hrec
        have hm6 : (f.bits - 6) % 6 = f.bits % 6 := by omega
        rw [hm6] at hrec
        obtain ⟨h1, h2, h3⟩ := hrec
        unfold drain
        rw [dif_pos h6]
        dsimp only
        refine ⟨?_, h2, ?_⟩
        · rw [h1, eat_bits_fst f 6 h6]
          have h6m : 6 * ((f.bits - 6) / 6) = f.bits - 6 - f.bits % 6 := by omega
          have h64 : (64 : Nat) ^ ((f.bits - 6) / 6) = 2 ^ (f.bits - 6 - f.bits % 6) := by
            rw [(by norm_num : (64 : Nat) = 2 ^ 6), ← pow_mul, h6m]
          have hhead : content f / 2 ^ (f.bits % 6) / 64 ^ ((f.bits - 6) / 6) % 64 =
              content f / 2 ^ (f.bits - 6) := by
            rw [h64, Nat.div_div_eq_div_mul, ← Nat.pow_add]
            have he : f.bits % 6 + (f.bits - 6 - f.bits % 6) = f.bits - 6 := by omega
            rw [he]
            refine Nat.mod_eq_of_lt (Nat.div_lt_of_lt_mul ?_)
            calc content f < 2 ^ f.bits := hC
              _ = 2 ^ (f.bits - 6) * 64 := by
                  rw [(by norm_num : (64 : Nat) = 2 ^ 6), ← Nat.pow_add]
                  congr 1
                  omega
          have htail : sextets ((f.bits - 6) / 6) (content f % 2 ^ (f.bits - 6) / 2 ^ (f.bits % 6)) =
              sextets ((f.bits - 6) / 6) (content f / 2 ^ (f.bits % 6)) := by
            have hx : content f % 2 ^ (f.bits - 6) / 2 ^ (f.bits % 6) =
                content f / 2 ^ (f.bits % 6) % 64 ^ ((f.bits - 6) / 6) := by
              rw [h64]
              have he : (2 : Nat) ^ (f.bits - 6) =
                  2 ^ (f.bits % 6) * 2 ^ (f.bits - 6 - f.bits % 6) := by
                rw [← Nat.pow_add]
                congr 1
                omega
              rw [he, Nat.mod_mul_right_div_self]
            rw [hx, sextets_mod]
          have hsx : sextets (f.bits / 6) (content f / 2 ^ (f.bits % 6)) =
              content f / 2 ^ (f.bits - 6) ::
                sextets ((f.bits - 6) / 6) (content f % 2 ^ (f.bits - 6) / 2 ^ (f.bits % 6)) := by
            have hq : f.bits / 6 = (f.bits - 6) / 6 + 1 := by omega
            rw [hq, sextets, hhead, htail]
          rw [hsx]
          rfl
        · rw [h3, Nat.mod_mod_of_dvd _ (Nat.pow_dvd_pow 2 (by omega))]
      · unfold drain
        rw [dif_neg h6]
        have hb6 : f.bits % 6 = f.bits := Nat.mod_eq_of_lt (by omega)
        refine ⟨?_, ?_, ?_⟩ <;> dsimp only
        · have hq : f.bits / 6 = 0 := by omega
          rw [hq]
          rfl
        · omega
        · rw [hb6, Nat.mod_eq_of_lt (content_lt f)]

/-! ### Division/remainder helpers for the bit-stream simulation. -/

theorem pow_cancel (a p q : Nat) : a * 2 ^ p / 2 ^ (q + p) = a / 2 ^ q := by
  rw [Nat.pow_add, Nat.mul_comm (2 ^ q) (2 ^ p), Nat.mul_comm a (2 ^ p)]
  exact Nat.mul_div_mul_left a (2 ^ q) (Nat.two_pow_pos p)

theorem stream_head_div (u bt n e : Nat) (hn : n < 2 ^ bt) :
    (u * 2 ^ bt + n) / 2 ^ (bt + e) = u / 2 ^ e := by
  rw [Nat.pow_add, ← Nat.div_div_eq_div_mul]
  congr 1
  rw [Nat.mul_comm u (2 ^ bt), Nat.mul_add_div (Nat.two_pow_pos bt),
      Nat.div_eq_of_lt hn]
  omega

theorem top6_split (n e : Nat) (h : 6 ≤ e) :
    n / 2 ^ (e - 6) = n / 2 ^ e * 64 + n % 2 ^ e / 2 ^ (e - 6) := by
  have he : (2 : Nat) ^ e = 2 ^ (e - 6) * 64 := by
    rw [(by norm_num : (64 : Nat) = 2 ^ 6), ← Nat.pow_add]
    congr 1
    omega
  have h1 : n / 2 ^ (e - 6) / 64 = n / 2 ^ e := by
    rw [Nat.div_div_eq_div_mul, ← he]
  have h2 : n / 2 ^ (e - 6) % 64 = n % 2 ^ e / 2 ^ (e - 6) := by
    rw [he, Nat.mod_mul_right_div_self]
  rw [← h1, ← h2]
  omega

theorem stream_mid_extract (u bt n w : Nat) (hn : n < 2 ^ bt) (hw : w ≤ bt) :
    (u * 2 ^ bt + n) / 2 ^ (bt - w) % 2 ^ w = n / 2 ^ (bt - w) := by
  have hsplit : u * 2 ^ bt = 2 ^ (bt - w) * (u * 2 ^ w) := by
    rw [(by rw [← Nat.pow_add]; congr 1; omega : (2 : Nat) ^ bt = 2 ^ (bt - w) * 2 ^ w)]
    ring
  rw [hsplit, Nat.mul_add_div (Nat.two_pow_pos _)]
  have hlt : n / 2 ^ (bt - w) < 2 ^ w := by
    apply Nat.div_lt_of_lt_mul
    calc n < 2 ^ bt := hn
      _ = 2 ^ (bt - w) * 2 ^ w := by rw [← Nat.pow_add]; congr 1; omega
  rw [Nat.mul_comm u (2 ^ w), Nat.mul_add_mod, Nat.mod_eq_of_lt hlt]

theorem stream_mod_low (u bt n m : Nat) (hm : m ≤ bt) :
    (u * 2 ^ bt + n) % 2 ^ m = n % 2 ^ m := by
  have hsplit : u * 2 ^ bt = 2 ^ m * (u * 2 ^ (bt - m)) := by
    rw [(by rw [← Nat.pow_add]; congr 1; omega : (2 : Nat) ^ bt = 2 ^ m * 2 ^ (bt - m))]
    ring
  rw [hsplit, Nat.mul_add_mod]

/-- runStepFifo on an alphabet character: the checks pass and the six
bits go in. -/
theorem runStepFifo_b64 (f : Fifo) (digit : Nat) (hd : digit < 64) :
    runStepFifo f (b64_encode digit) =
      (if 16 ≤ (add_bits f digit 6).bits then
         if need_another_16bit (peek_bits (add_bits f digit 6) 16) then
           if 32 ≤ (add_bits f digit 6).bits then
             if (eat_bits (add_bits f digit 6) 32).1 &&& 0xfc00 != 0xdc00 then none
             else some (write_as_utf8 (utf16_decode (eat_bits (add_bits f digit 6) 32).1),
                        (eat_bits (add_bits f digit 6) 32).2)
           else some ([], add_bits f digit 6)
         else some (write_as_utf8 (eat_bits (add_bits f digit 6) 16).1,
                    (eat_bits (add_bits f digit 6) 16).2)
       else some ([], add_bits f digit 6)) := by
  have hb := b64_facts digit hd
  unfold runStepFifo
  rw [if_neg (by simp [hb.2.2.2.2.1]),
      if_neg (by simp only [hb.1, NOTU]; simp; omega), hb.1]

/-- Feeding the base-64 characters of a zero-padded unit stream into the
shift-sequence machine decodes exactly the units' UTF-8 bytes and leaves
only the padding bits (all zero) in the fifo. -/
theorem feed_units (k : Nat) : ∀ (u s : Nat) (us' : List (Nat × Nat)) (f : Fifo),
    (∀ p ∈ (u, s) :: us', WFunit p) →
    f.bits < s →
    content f = streamN ((u, s) :: us') / 2 ^ (streamB ((u, s) :: us') - f.bits) →
    6 * k = streamB ((u, s) :: us') - f.bits + padOf (streamB ((u, s) :: us') - f.bits) →
    ∃ fend : Fifo,
      feed f ((sextets k ((streamN ((u, s) :: us') % 2 ^ (streamB ((u, s) :: us') - f.bits)) *
          2 ^ padOf (streamB ((u, s) :: us') - f.bits))).map b64_encode) =
        some (((u, s) :: us').flatMap bytesOfUnit, fend) ∧
      fend.bits = padOf (streamB ((u, s) :: us') - f.bits) ∧ content fend = 0 := by
  induction k with
  | zero =>
      intro u s us' f hwf hinv1 hinv2 hk
      exfalso
      have hs : 16 ≤ s := by
        rcases hwf (u, s) (List.mem_cons_self _ _) with ⟨h, _⟩ | ⟨h, _⟩ <;> omega
      have hB : streamB ((u, s) :: us') = s + streamB us' := rfl
      have hpos : 0 < streamB ((u, s) :: us') - f.bits := by omega
      have hpad : padOf (streamB ((u, s) :: us') - f.bits) < 6 := by
        unfold padOf
        omega
      omega
  | succ k ih =>
      intro u s us' f hwf hinv1 hinv2 hk
      have hwfu := hwf (u, s) (List.mem_cons_self _ _)
      have hs16 : s = 16 ∨ s = 32 := by
        rcases hwfu with ⟨h, _⟩ | ⟨h, _⟩
        · exact Or.inl h
        · exact Or.inr h
      have hu_lt : u < 2 ^ s := by
        rcases hwfu with ⟨hss, hu, _⟩ | ⟨hss, hu, _⟩ <;> (subst hss; exact hu)
      have hwftl : ∀ q ∈ us', WFunit q := fun q hq => hwf q (List.mem_cons_of_mem _ hq)
      have hNt_lt : streamN us' < 2 ^ streamB us' := streamN_lt us' hwftl
      obtain ⟨B, hB⟩ : ∃ x, streamB ((u, s) :: us') = x := ⟨_, rfl⟩
      obtain ⟨N, hN⟩ : ∃ x, streamN ((u, s) :: us') = x := ⟨_, rfl⟩
      obtain ⟨Bt, hBt⟩ : ∃ x, streamB us' = x := ⟨_, rfl⟩
      obtain ⟨Nt, hNt⟩ : ∃ x, streamN us' = x := ⟨_, rfl⟩
      have hBst : B = s + Bt := by rw [← hB, ← hBt]; rfl
      have hNst : N = u * 2 ^ Bt + Nt := by rw [← hN, ← hNt, ← hBt]; rfl
      rw [hBt] at hNt_lt
      rw [hNt] at hNt_lt
      rw [hB] at hinv2 hk ⊢
      rw [hN] at hinv2 ⊢
      -- the stream bound
      have hN_lt : N < 2 ^ B := by
        rw [hNst, hBst, Nat.pow_add]
        calc u * 2 ^ Bt + Nt < u * 2 ^ Bt + 2 ^ Bt := by omega
          _ = (u + 1) * 2 ^ Bt := by ring
          _ ≤ 2 ^ s * 2 ^ Bt := Nat.mul_le_mul_right _ (Nat.succ_le_of_lt hu_lt)
      have hs_le_B : s ≤ B := by omega
      have hd_lt_B : f.bits < B := by omega
      have hpadlt : padOf (B - f.bits) < 6 := by unfold padOf; omega
      have h16s : 16 ≤ s := by rcases hs16 with h | h <;> omega
      -- the first character is the next six stream bits
      have hXlt : (N % 2 ^ (B - f.bits)) * 2 ^ padOf (B - f.bits) < 2 ^ (6 * k) * 64 := by
        have h1 : N % 2 ^ (B - f.bits) < 2 ^ (B - f.bits) := Nat.mod_lt _ (Nat.two_pow_pos _)
        calc (N % 2 ^ (B - f.bits)) * 2 ^ padOf (B - f.bits)
            < 2 ^ (B - f.bits) * 2 ^ padOf (B - f.bits) :=
              (Nat.mul_lt_mul_right (Nat.two_pow_pos _)).mpr h1
          _ = 2 ^ (6 * k) * 64 := by
              rw [← Nat.pow_add, (by norm_num : (64 : Nat) = 2 ^ 6), ← Nat.pow_add]
              congr 1
              omega
      have hdig_eq : (N % 2 ^ (B - f.bits)) * 2 ^ padOf (B - f.bits) / 64 ^ k % 64 =
          (N % 2 ^ (B - f.bits)) * 2 ^ padOf (B - f.bits) / 2 ^ (6 * k) := by
        rw [(by rw [(by norm_num : (64 : Nat) = 2 ^ 6), ← pow_mul, Nat.mul_comm] :
              (64 : Nat) ^ k = 2 ^ (6 * k))]
        exact Nat.mod_eq_of_lt (Nat.div_lt_of_lt_mul hXlt)
      obtain ⟨digit, hdigit⟩ : ∃ x,
          (N % 2 ^ (B - f.bits)) * 2 ^ padOf (B - f.bits) / 2 ^ (6 * k) = x := ⟨_, rfl⟩
      have hdig64 : digit < 64 := by
        rw [← hdigit]
        exact Nat.div_lt_of_lt_mul hXlt
      have hchars : (sextets (k + 1)
            ((N % 2 ^ (B - f.bits)) * 2 ^ padOf (B - f.bits))).map b64_encode =
          b64_encode digit ::
            (sextets k ((N % 2 ^ (B - f.bits)) * 2 ^ padOf (B - f.bits))).map b64_encode := by
        rw [sextets, hdig_eq, hdigit]
        rfl
      -- the fifo after pushing the six bits
      have hc1 : content (add_bits f digit 6) = N * 2 ^ padOf (B - f.bits) / 2 ^ (6 * k) := by
        rw [content_add_bits f digit 6 (by norm_num; omega)]
        have htop : N * 2 ^ padOf (B - f.bits) / 2 ^ (6 * k) =
            N / 2 ^ (B - f.bits) * 64 + digit := by
          have hsp : N * 2 ^ padOf (B - f.bits) / 2 ^ (6 * k) =
              N * 2 ^ padOf (B - f.bits) / 2 ^ ((B - f.bits) + padOf (B - f.bits) - 6) := by
            congr 2
            omega
          rw [hsp, top6_split _ _ (by omega)]
          have h1 : N * 2 ^ padOf (B - f.bits) /
              2 ^ (B - f.bits + padOf (B - f.bits)) = N / 2 ^ (B - f.bits) :=
            pow_cancel N _ _
          have h2 : N * 2 ^ padOf (B - f.bits) % 2 ^ (B - f.bits + padOf (B - f.bits)) =
              (N % 2 ^ (B - f.bits)) * 2 ^ padOf (B - f.bits) := by
            rw [Nat.pow_add]
            exact Nat.mul_mod_mul_right _ _ _
          rw [h1, h2, (by omega : B - f.bits + padOf (B - f.bits) - 6 = 6 * k), hdigit]
        rw [htop, hinv2]
        norm_num
      have hb1 : (add_bits f digit 6).bits = f.bits + 6 := rfl
      -- the value of a 16-bit peek (defined whenever it is taken)
      have hpeek : 16 ≤ f.bits + 6 →
          peek_bits (add_bits f digit 6) 16 = u / 2 ^ (s - 16) := by
        intro h16
        rw [peek_bits_eq_eat, eat_bits_fst _ 16 (by rw [hb1]; omega), hb1, hc1,
            Nat.div_div_eq_div_mul, ← Nat.pow_add,
            (by omega : 6 * k + (f.bits + 6 - 16) = (B - 16) + padOf (B - f.bits)),
            pow_cancel, hNst,
            (by omega : B - 16 = Bt + (s - 16))]
        exact stream_head_div u Bt Nt (s - 16) hNt_lt
      by_cases hcomp : s ≤ f.bits + 6
      · -- this character completes the unit
        have hstep : runStepFifo f (b64_encode digit) =
            some (bytesOfUnit (u, s), (eat_bits (add_bits f digit 6) s).2) := by
          rw [runStepFifo_b64 f digit hdig64]
          rw [if_pos (by rw [hb1]; omega)]
          rcases hs16 with hs' | hs'
          · -- 16-bit unit: eaten at once
            have hna : need_another_16bit (peek_bits (add_bits f digit 6) 16) = false := by
              rw [hpeek (by omega), hs']
              unfold need_another_16bit
              rw [Nat.sub_self, pow_zero, Nat.div_one, and_fc00]
              have hnsur : ¬(0xd800 ≤ u ∧ u < 0xdc00) := by
                rcases hwfu with ⟨_, _, h⟩ | ⟨hss, _⟩
                · exact h
                · omega
              have hng : u / 1024 % 64 * 1024 ≠ 55296 := by
                have : u < 65536 := by
                  have := hu_lt
                  rw [hs'] at this
                  norm_num at this
                  omega
                omega
              simp [hng]
            rw [if_neg (by rw [hna]; simp)]
            have hv16 : (eat_bits (add_bits f digit 6) 16).1 = u := by
              rw [eat_bits_fst _ 16 (by rw [hb1]; omega), hb1, hc1,
                  Nat.div_div_eq_div_mul, ← Nat.pow_add,
                  (by omega : 6 * k + (f.bits + 6 - 16) = (B - 16) + padOf (B - f.bits)),
                  pow_cancel, hNst,
                  (by omega : B - 16 = Bt + (s - 16))]
              rw [stream_head_div u Bt Nt (s - 16) hNt_lt, hs', Nat.sub_self, pow_zero,
                  Nat.div_one]
            rw [hv16, hs']
            simp [bytesOfUnit]
          · -- 32-bit unit: wait for the low surrogate, then eat both
            have hhi : 0xd800 ≤ u / 2 ^ 16 ∧ u / 2 ^ 16 < 0xdc00 := by
              rcases hwfu with ⟨hss, _⟩ | ⟨_, _, h1, h2, _⟩
              · omega
              · exact ⟨h1, h2⟩
            have hna : need_another_16bit (peek_bits (add_bits f digit 6) 16) = true := by
              rw [hpeek (by omega), hs']
              unfold need_another_16bit
              rw [(by norm_num : (32 : Nat) - 16 = 16), and_fc00]
              have hub : u / 2 ^ 16 < 65536 := by
                have := hu_lt
                rw [hs'] at this
                omega
              have : u / 2 ^ 16 = u / 65536 := by norm_num
              rw [this] at hhi hub
              have heq : u / 65536 / 1024 % 64 * 1024 = 55296 := by omega
              simp [heq]
            rw [if_pos hna, if_pos (by rw [hb1]; omega)]
            have hv32 : (eat_bits (add_bits f digit 6) 32).1 = u := by
              rw [eat_bits_fst _ 32 (by rw [hb1]; omega), hb1, hc1,
                  Nat.div_div_eq_div_mul, ← Nat.pow_add,
                  (by omega : 6 * k + (f.bits + 6 - 32) = (B - 32) + padOf (B - f.bits)),
                  pow_cancel, hNst,
                  (by omega : B - 32 = Bt + (s - 32))]
              rw [stream_head_div u Bt Nt (s - 32) hNt_lt, hs', Nat.sub_self, pow_zero,
                  Nat.div_one]
            have hlo : 0xdc00 ≤ u % 2 ^ 16 ∧ u % 2 ^ 16 < 0xe000 := by
              rcases hwfu with ⟨hss, _⟩ | ⟨_, _, _, _, h1, h2⟩
              · omega
              · exact ⟨h1, h2⟩
            have hck : ((eat_bits (add_bits f digit 6) 32).1 &&& 0xfc00 != 0xdc00) = false := by
              rw [hv32, and_fc00]
              have h1 : u % 2 ^ 16 = u % 65536 := by norm_num
              rw [h1] at hlo
              have heq : u / 1024 % 64 * 1024 = 56320 := by omega
              simp [heq]
            rw [if_neg (by rw [hck]; simp), hv32, hs']
            simp [bytesOfUnit]
        -- the fifo after the eat
        have hf2b : (eat_bits (add_bits f digit 6) s).2.bits = f.bits + 6 - s := by
          rw [eat_bits_snd, hb1]
        have hf2c : content (eat_bits (add_bits f digit 6) s).2 =
            content (add_bits f digit 6) % 2 ^ (f.bits + 6 - s) := by
          rw [content_eat_bits, hb1]
        cases us' with
        | nil =>
            -- last unit of the run: only padding is left
            have hBt0 : Bt = 0 := by rw [← hBt]; rfl
            have hNt0 : Nt = 0 := by rw [← hNt]; rfl
            have hk0 : k = 0 := by
              unfold padOf at hk hpadlt
              omega
            have hpade : padOf (B - f.bits) = f.bits + 6 - s := by
              unfold padOf at hk ⊢
              omega
            refine ⟨(eat_bits (add_bits f digit 6) s).2, ?_, ?_, ?_⟩
            · rw [hchars, hk0]
              unfold feed
              rw [hstep]
              dsimp only [sextets, List.map]
              unfold feed
              dsimp only
              rw [List.append_nil]
              simp [List.flatMap_cons]
            · rw [hf2b, hpade]
            · rw [hf2c, hc1, hk0, ← hpade,
                  (by norm_num : (2 : Nat) ^ (6 * 0) = 1), Nat.div_one]
              exact Nat.mul_mod_left _ _
        | cons p us'' =>
            -- the eaten unit is followed by more units
            obtain ⟨u2, s2⟩ := p
            have hs2_16 : 16 ≤ s2 := by
              rcases hwftl (u2, s2) (List.mem_cons_self _ _) with ⟨h, _⟩ | ⟨h, _⟩ <;> omega
            have hBt_ge : 16 ≤ Bt := by
              rw [← hBt]
              have hrfl : streamB ((u2, s2) :: us'') = s2 + streamB us'' := rfl
              omega
            have hc2 : content (eat_bits (add_bits f digit 6) s).2 =
                Nt / 2 ^ (Bt - (f.bits + 6 - s)) := by
              rw [hf2c, hc1,
                  (by omega : 6 * k = (B - f.bits - 6) + padOf (B - f.bits)),
                  pow_cancel, hNst,
                  (by omega : B - f.bits - 6 = Bt - (f.bits + 6 - s))]
              exact stream_mid_extract u Bt Nt (f.bits + 6 - s) hNt_lt (by omega)
            have hpad6 : padOf (Bt - (f.bits + 6 - s)) = padOf (B - f.bits) := by
              unfold padOf
              omega
            have hXtail : sextets k
                ((Nt % 2 ^ (Bt - (f.bits + 6 - s))) * 2 ^ padOf (Bt - (f.bits + 6 - s))) =
                sextets k (N % 2 ^ (B - f.bits) * 2 ^ padOf (B - f.bits)) := by
              rw [hpad6]
              have hmod : (N % 2 ^ (B - f.bits) * 2 ^ padOf (B - f.bits)) % 64 ^ k =
                  Nt % 2 ^ (Bt - (f.bits + 6 - s)) * 2 ^ padOf (B - f.bits) := by
                rw [(by rw [(by norm_num : (64 : Nat) = 2 ^ 6), ← pow_mul, Nat.mul_comm] :
                      (64 : Nat) ^ k = 2 ^ (6 * k)),
                    (by omega : 6 * k = (B - f.bits - 6) + padOf (B - f.bits)),
                    Nat.pow_add, Nat.mul_mod_mul_right,
                    Nat.mod_mod_of_dvd _ (Nat.pow_dvd_pow 2 (by omega : B - f.bits - 6 ≤ B - f.bits)),
                    hNst, stream_mod_low u Bt Nt _ (by omega),
                    (by omega : B - f.bits - 6 = Bt - (f.bits + 6 - s))]
              rw [← hmod, sextets_mod]
            have hihyp2 : content (eat_bits (add_bits f digit 6) s).2 =
                streamN ((u2, s2) :: us'') /
                  2 ^ (streamB ((u2, s2) :: us'') -
                    (eat_bits (add_bits f digit 6) s).2.bits) := by
              rw [hf2b, hc2, hNt, hBt]
            have hk2 : 6 * k = streamB ((u2, s2) :: us'') -
                (eat_bits (add_bits f digit 6) s).2.bits +
                padOf (streamB ((u2, s2) :: us'') -
                  (eat_bits (add_bits f digit 6) s).2.bits) := by
              rw [hf2b, hBt, hpad6]
              omega
            obtain ⟨fend, hfeed, hfb, hfc⟩ :=
              ih u2 s2 us'' (eat_bits (add_bits f digit 6) s).2 hwftl
                (by rw [hf2b]; omega) hihyp2 hk2
            rw [hNt, hBt, hf2b, hXtail] at hfeed
            rw [hBt, hf2b, hpad6] at hfb
            refine ⟨fend, ?_, ?_, ?_⟩
            · rw [hchars]
              unfold feed
              rw [hstep]
              dsimp only
              rw [hfeed]
              dsimp only
              simp [List.flatMap_cons]
            · exact hfb
            · exact hfc
      · -- the unit is not completed by this character: the bits are queued
        have hstep : runStepFifo f (b64_encode digit) =
            some ([], add_bits f digit 6) := by
          rw [runStepFifo_b64 f digit hdig64]
          by_cases h16 : 16 ≤ f.bits + 6
          · rw [if_pos (by rw [hb1]; omega)]
            have hs32 : s = 32 := by rcases hs16 with h | h <;> omega
            have hhi : 0xd800 ≤ u / 2 ^ 16 ∧ u / 2 ^ 16 < 0xdc00 := by
              rcases hwfu with ⟨hss, _⟩ | ⟨_, _, h1, h2, _⟩
              · omega
              · exact ⟨h1, h2⟩
            have hna : need_another_16bit (peek_bits (add_bits f digit 6) 16) = true := by
              rw [hpeek h16, hs32]
              unfold need_another_16bit
              rw [(by norm_num : (32 : Nat) - 16 = 16), and_fc00]
              have hub : u / 2 ^ 16 < 65536 := by
                have := hu_lt
                rw [hs32] at this
                omega
              have h2 : u / 2 ^ 16 = u / 65536 := by norm_num
              rw [h2] at hhi hub
              have heq : u / 65536 / 1024 % 64 * 1024 = 55296 := by omega
              simp [heq]
            rw [if_pos hna, if_neg (by rw [hb1]; omega)]
          · rw [if_neg (by rw [hb1]; omega)]
        have hc2 : content (add_bits f digit 6) = N / 2 ^ (B - (f.bits + 6)) := by
          rw [hc1, (by omega : 6 * k = (B - (f.bits + 6)) + padOf (B - f.bits))]
          exact pow_cancel N _ _
        have hpad6 : padOf (B - (f.bits + 6)) = padOf (B - f.bits) := by
          unfold padOf
          omega
        have hXtail : sextets k
            ((N % 2 ^ (B - (f.bits + 6))) * 2 ^ padOf (B - (f.bits + 6))) =
            sextets k (N % 2 ^ (B - f.bits) * 2 ^ padOf (B - f.bits)) := by
          rw [hpad6]
          have hmod : (N % 2 ^ (B - f.bits) * 2 ^ padOf (B - f.bits)) % 64 ^ k =
              N % 2 ^ (B - (f.bits + 6)) * 2 ^ padOf (B - f.bits) := by
            rw [(by rw [(by norm_num : (64 : Nat) = 2 ^ 6), ← pow_mul, Nat.mul_comm] :
                  (64 : Nat) ^ k = 2 ^ (6 * k)),
                (by omega : 6 * k = (B - (f.bits + 6)) + padOf (B - f.bits)),
                Nat.pow_add, Nat.mul_mod_mul_right,
                Nat.mod_mod_of_dvd _ (Nat.pow_dvd_pow 2 (by omega : B - (f.bits + 6) ≤ B - f.bits))]
          rw [← hmod, sextets_mod]
        have hihyp2 : content (add_bits f digit 6) =
            streamN ((u, s) :: us') /
              2 ^ (streamB ((u, s) :: us') - (add_bits f digit 6).bits) := by
          rw [hb1, hc2, hN, hB]
        have hk2 : 6 * k = streamB ((u, s) :: us') - (add_bits f digit 6).bits +
            padOf (streamB ((u, s) :: us') - (add_bits f digit 6).bits) := by
          rw [hb1, hB, hpad6]
          omega
        obtain ⟨fend, hfeed, hfb, hfc⟩ :=
          ih u s us' (add_bits f digit 6) hwf (by rw [hb1]; omega) hihyp2 hk2
        rw [hN, hB, hb1, hXtail] at hfeed
        rw [hB, hb1, hpad6] at hfb
        refine ⟨fend, ?_, ?_, ?_⟩
        · rw [hchars]
          unfold feed
          rw [hstep]
          dsimp only
          rw [hfeed]
          dsimp only
          rw [List.nil_append]
        · exact hfb
        · exact hfc

/-! ### Per-code-point units. -/

def unitsOf (cs : List Nat) : List (Nat × Nat) := cs.map fun c => (unitOf c, usize c)

theorem sextets_snoc (m x : Nat) : sextets (m + 1) x = sextets m (x / 64) ++ [x % 64] := by
  induction m generalizing x with
  | zero => simp [sextets]
  | succ m ih =>
      have hh : x / 64 ^ (m + 1) % 64 = x / 64 / 64 ^ m % 64 := by
        rw [Nat.div_div_eq_div_mul, pow_succ, Nat.mul_comm (64 ^ m) 64]
      calc sextets (m + 1 + 1) x = x / 64 ^ (m + 1) % 64 :: sextets (m + 1) x := rfl
        _ = x / 64 ^ (m + 1) % 64 :: (sextets m (x / 64) ++ [x % 64]) := by rw [ih]
        _ = (x / 64 / 64 ^ m % 64 :: sextets m (x / 64)) ++ [x % 64] := by rw [hh]; rfl
        _ = sextets (m + 1) (x / 64) ++ [x % 64] := rfl

theorem utf16_encode_eq (c : Nat) (h1 : 0x10000 ≤ c) (h2 : c ≤ 0x10ffff) :
    utf16_encode c =
      ((c - 0x10000) / 1024 + 0xd800) * 65536 + ((c - 0x10000) % 1024 + 0xdc00) := by
  unfold utf16_encode
  rw [Nat.shiftRight_eq_div_pow, and1023,
      lor_add _ _ 16 (by norm_num; omega)]
  norm_num

theorem utf16_decode_encode (c : Nat) (h1 : 0x10000 ≤ c) (h2 : c ≤ 0x10ffff) :
    utf16_decode (utf16_encode c) = c := by
  rw [utf16_encode_eq c h1 h2]
  unfold utf16_decode
  rw [and65535, Nat.shiftLeft_eq, Nat.shiftRight_eq_div_pow]
  norm_num
  omega

theorem wf_unitOf (c : Nat) (hv : ValidScalar c) : WFunit (unitOf c, usize c) := by
  obtain ⟨hv1, hv2, hv3⟩ := hv
  unfold unitOf usize WFunit
  by_cases hc : c ≤ 0xffff
  · rw [if_pos hc, if_pos hc]
    exact Or.inl ⟨rfl, by norm_num; omega, by omega⟩
  · rw [if_neg hc, if_neg hc]
    refine Or.inr ⟨rfl, ?_, ?_, ?_, ?_, ?_⟩ <;>
      rw [utf16_encode_eq c (by omega) hv2] <;> norm_num <;> omega

theorem bytesOfUnit_unit (c : Nat) (hv : ValidScalar c) :
    bytesOfUnit (unitOf c, usize c) = write_as_utf8 c := by
  obtain ⟨hv1, hv2, hv3⟩ := hv
  unfold bytesOfUnit unitOf usize
  by_cases hc : c ≤ 0xffff
  · rw [if_pos hc, if_pos hc]
    dsimp only
    rw [if_pos rfl]
  · rw [if_neg hc, if_neg hc]
    dsimp only
    rw [if_neg (by norm_num), utf16_decode_encode c (by omega) hv2]

theorem flatMap_unitsOf (cs : List Nat) (hv : ∀ c ∈ cs, ValidScalar c) :
    (unitsOf cs).flatMap bytesOfUnit = cs.flatMap write_as_utf8 := by
  induction cs with
  | nil => rfl
  | cons c tl ih =>
      simp only [unitsOf, List.map_cons, List.flatMap_cons]
      rw [bytesOfUnit_unit c (hv c (List.mem_cons_self _ _))]
      have := ih (fun x hx => hv x (List.mem_cons_of_mem _ hx))
      unfold unitsOf at this
      rw [this]

theorem wf_unitsOf (cs : List Nat) (hv : ∀ c ∈ cs, ValidScalar c) :
    ∀ p ∈ unitsOf cs, WFunit p := by
  intro p hp
  simp only [unitsOf, List.mem_map] at hp
  obtain ⟨c, hc, hcp⟩ := hp
  rw [← hcp]
  exact wf_unitOf c (hv c hc)

theorem sextets_append (k1 k2 x1 x2 : Nat) (h2 : x2 < 64 ^ k2) :
    sextets k1 x1 ++ sextets k2 x2 = sextets (k1 + k2) (x1 * 64 ^ k2 + x2) := by
  induction k1 generalizing x1 with
  | zero =>
      simp only [sextets, List.nil_append, Nat.zero_add]
      rw [← sextets_mod k2 (x1 * 64 ^ k2 + x2), Nat.mul_comm x1 (64 ^ k2),
          Nat.mul_add_mod, Nat.mod_eq_of_lt h2]
  | succ k1 ih =>
      rw [sextets, List.cons_append, ih, (by omega : k1 + 1 + k2 = k1 + k2 + 1), sextets]
      congr 1
      have hdv : (x1 * 64 ^ k2 + x2) / 64 ^ (k1 + k2) = x1 / 64 ^ k1 := by
        rw [pow_add, Nat.mul_comm (64 ^ k1) (64 ^ k2), ← Nat.div_div_eq_div_mul,
            Nat.mul_comm x1 (64 ^ k2), Nat.mul_add_div (Nat.pos_pow_of_pos k2 (by norm_num)),
            Nat.div_eq_of_lt h2, Nat.add_zero]
      rw [hdv]

/-- Inside an encoding run, enc7 emits exactly the base-64 digits of the
accumulated unit stream above the kept remainder, and carries the
remainder in the fifo. -/
theorem enc7_mid (cs : List Nat) : ∀ (f : Fifo) (rest : List Nat),
    (∀ c ∈ cs, ValidScalar c) → (∀ c ∈ cs, needs_encoding c = true) →
    f.bits < 6 →
    ∃ ffin : Fifo,
      enc7 f true (cs ++ rest) =
        (sextets ((f.bits + streamB (unitsOf cs)) / 6)
          ((content f * 2 ^ streamB (unitsOf cs) + streamN (unitsOf cs)) /
            2 ^ ((f.bits + streamB (unitsOf cs)) % 6))).map b64_encode ++
        enc7 ffin true rest ∧
      ffin.bits = (f.bits + streamB (unitsOf cs)) % 6 ∧
      content ffin = (content f * 2 ^ streamB (unitsOf cs) + streamN (unitsOf cs)) %
        2 ^ ((f.bits + streamB (unitsOf cs)) % 6) := by
  induction cs with
  | nil =>
      intro f rest hv he hb
      refine ⟨f, ?_, ?_, ?_⟩
      · have h0 : f.bits / 6 = 0 := by omega
        rw [List.nil_append]
        show enc7 f true rest = (sextets ((f.bits + streamB (unitsOf [])) / 6) _).map b64_encode ++
          enc7 f true rest
        have hsb : streamB (unitsOf []) = 0 := rfl
        rw [hsb, Nat.add_zero, h0]
        rfl
      · show f.bits = (f.bits + streamB (unitsOf [])) % 6
        have hsb : streamB (unitsOf []) = 0 := rfl
        rw [hsb]
        omega
      · show content f = (content f * 2 ^ streamB (unitsOf []) + streamN (unitsOf [])) %
            2 ^ ((f.bits + streamB (unitsOf [])) % 6)
        have hsb : streamB (unitsOf []) = 0 := rfl
        have hsn : streamN (unitsOf []) = 0 := rfl
        rw [hsb, hsn, pow_zero, Nat.mul_one, Nat.add_zero, Nat.add_zero,
            (by omega : f.bits % 6 = f.bits), Nat.mod_eq_of_lt (content_lt f)]
  | cons c cs' ih =>
      intro f rest hv he hb
      have hvc := hv c (List.mem_cons_self _ _)
      have hec := he c (List.mem_cons_self _ _)
      have hv' : ∀ x ∈ cs', ValidScalar x := fun x hx => hv x (List.mem_cons_of_mem _ hx)
      have he' : ∀ x ∈ cs', needs_encoding x = true := fun x hx => he x (List.mem_cons_of_mem _ hx)
      have hwfc := wf_unitOf c hvc
      have hu_lt : unitOf c < 2 ^ usize c := by
        rcases hwfc with ⟨hs, hu, _⟩ | ⟨hs, hu, _⟩ <;> (rw [hs]; exact hu)
      have hsz16 : usize c = 16 ∨ usize c = 32 := by
        rcases hwfc with ⟨hs, _⟩ | ⟨hs, _⟩
        · exact Or.inl hs
        · exact Or.inr hs
      -- one step of the loop
      have hstep : enc7 f true ((c :: cs') ++ rest) =
          (drain (add_bits f (unitOf c) (usize c))).1 ++
          enc7 (drain (add_bits f (unitOf c) (usize c))).2 true (cs' ++ rest) := by
        rw [List.cons_append]
        conv_lhs => rw [enc7]
        rw [if_pos hec, if_pos rfl, List.nil_append]
      have hf1b : (add_bits f (unitOf c) (usize c)).bits = f.bits + usize c := rfl
      have hf1c : content (add_bits f (unitOf c) (usize c)) =
          content f * 2 ^ usize c + unitOf c := content_add_bits f _ _ hu_lt
      obtain ⟨hd1, hd2, hd3⟩ := drain_spec (f.bits + usize c)
        (add_bits f (unitOf c) (usize c)) (by rw [hf1b])
      rw [hf1b] at hd1 hd2 hd3
      rw [hf1c] at hd1 hd3
      obtain ⟨ffin, hih, hfb, hfc⟩ := ih (drain (add_bits f (unitOf c) (usize c))).2 rest hv' he'
        (by rw [hd2]; omega)
      rw [hd2] at hih hfb hfc
      rw [hd3] at hih hfc
      -- names for the accumulated quantities
      obtain ⟨Bt, hBt⟩ : ∃ x, streamB (unitsOf cs') = x := ⟨_, rfl⟩
      obtain ⟨Nt, hNt⟩ : ∃ x, streamN (unitsOf cs') = x := ⟨_, rfl⟩
      have hNt_lt : Nt < 2 ^ Bt := by
        rw [← hBt, ← hNt]
        exact streamN_lt _ (wf_unitsOf cs' hv')
      have hsbc : streamB (unitsOf (c :: cs')) = usize c + Bt := by
        rw [← hBt]
        rfl
      have hsnc : streamN (unitsOf (c :: cs')) = unitOf c * 2 ^ Bt + Nt := by
        rw [← hNt, ← hBt]
        rfl
      rw [hBt] at hih hfb hfc
      rw [hNt] at hih hfc
      refine ⟨ffin, ?_, ?_, ?_⟩
      · rw [hstep, hd1, hih, ← List.append_assoc, ← List.map_append]
        congr 2
        -- digits of the head chunk followed by digits of the tail chunk
        obtain ⟨w, hw⟩ : ∃ x, content f * 2 ^ usize c + unitOf c = x := ⟨_, rfl⟩
        have hw_lt : w < 2 ^ (f.bits + usize c) := by
          rw [← hw, Nat.pow_add]
          have h1 : content f < 2 ^ f.bits := content_lt f
          calc content f * 2 ^ usize c + unitOf c
              < content f * 2 ^ usize c + 2 ^ usize c := by omega
            _ = (content f + 1) * 2 ^ usize c := by ring
            _ ≤ 2 ^ f.bits * 2 ^ usize c := Nat.mul_le_mul_right _ (Nat.succ_le_of_lt h1)
        rw [hw]
        have hS : content f * 2 ^ streamB (unitsOf (c :: cs')) + streamN (unitsOf (c :: cs')) =
            w * 2 ^ Bt + Nt := by
          rw [hsbc, hsnc, ← hw, Nat.pow_add]
          ring
        rw [hS, hsbc]
        -- let q be the kept remainder of the head chunk
        have ha2lt : (w % 2 ^ ((f.bits + usize c) % 6) * 2 ^ Bt + Nt) /
            2 ^ (((f.bits + usize c) % 6 + Bt) % 6) <
            64 ^ (((f.bits + usize c) % 6 + Bt) / 6) := by
          rw [(by rw [(by norm_num : (64 : Nat) = 2 ^ 6), ← pow_mul, Nat.mul_comm] :
                (64 : Nat) ^ (((f.bits + usize c) % 6 + Bt) / 6) =
                  2 ^ (6 * (((f.bits + usize c) % 6 + Bt) / 6)))]
          apply Nat.div_lt_of_lt_mul
          rw [← Nat.pow_add]
          have hwm : w % 2 ^ ((f.bits + usize c) % 6) < 2 ^ ((f.bits + usize c) % 6) :=
            Nat.mod_lt _ (Nat.two_pow_pos _)
          calc w % 2 ^ ((f.bits + usize c) % 6) * 2 ^ Bt + Nt
              < w % 2 ^ ((f.bits + usize c) % 6) * 2 ^ Bt + 2 ^ Bt := by omega
            _ = (w % 2 ^ ((f.bits + usize c) % 6) + 1) * 2 ^ Bt := by ring
            _ ≤ 2 ^ ((f.bits + usize c) % 6) * 2 ^ Bt :=
                Nat.mul_le_mul_right _ (Nat.succ_le_of_lt hwm)
            _ = 2 ^ ((f.bits + usize c) % 6 + Bt) := by rw [← Nat.pow_add]
            _ ≤ 2 ^ (((f.bits + usize c) % 6 + Bt) % 6 +
                  6 * (((f.bits + usize c) % 6 + Bt) / 6)) := by
                apply Nat.pow_le_pow_right (by norm_num)
                omega
        rw [sextets_append _ _ _ _ ha2lt]
        -- counts and values agree
        have hcnt : (f.bits + usize c) / 6 + ((f.bits + usize c) % 6 + Bt) / 6 =
            (f.bits + (usize c + Bt)) / 6 := by omega
        have hval : w / 2 ^ ((f.bits + usize c) % 6) *
              64 ^ (((f.bits + usize c) % 6 + Bt) / 6) +
            (w % 2 ^ ((f.bits + usize c) % 6) * 2 ^ Bt + Nt) /
              2 ^ (((f.bits + usize c) % 6 + Bt) % 6) =
            (w * 2 ^ Bt + Nt) / 2 ^ ((f.bits + (usize c + Bt)) % 6) := by
          have hsplit : w * 2 ^ Bt + Nt =
              w / 2 ^ ((f.bits + usize c) % 6) *
                2 ^ ((f.bits + usize c) % 6 + Bt) +
              (w % 2 ^ ((f.bits + usize c) % 6) * 2 ^ Bt + Nt) := by
            rw [Nat.pow_add]
            have hdm := Nat.div_add_mod w (2 ^ ((f.bits + usize c) % 6))
            calc w * 2 ^ Bt + Nt
                = (2 ^ ((f.bits + usize c) % 6) * (w / 2 ^ ((f.bits + usize c) % 6)) +
                    w % 2 ^ ((f.bits + usize c) % 6)) * 2 ^ Bt + Nt := by rw [hdm]
              _ = _ := by ring
          rw [hsplit]
          have hmod6 : (f.bits + (usize c + Bt)) % 6 = ((f.bits + usize c) % 6 + Bt) % 6 := by
            omega
          rw [hmod6]
          have hre : w / 2 ^ ((f.bits + usize c) % 6) * 2 ^ ((f.bits + usize c) % 6 + Bt) =
              2 ^ (((f.bits + usize c) % 6 + Bt) % 6) *
                (w / 2 ^ ((f.bits + usize c) % 6) *
                  2 ^ ((f.bits + usize c) % 6 + Bt - ((f.bits + usize c) % 6 + Bt) % 6)) := by
            rw [(by rw [← Nat.pow_add]; congr 1; omega :
                  (2 : Nat) ^ ((f.bits + usize c) % 6 + Bt) =
                    2 ^ (((f.bits + usize c) % 6 + Bt) % 6) *
                      2 ^ ((f.bits + usize c) % 6 + Bt - ((f.bits + usize c) % 6 + Bt) % 6))]
            ring
          rw [hre, Nat.mul_add_div (Nat.two_pow_pos _)]
          have h64 : (64 : Nat) ^ (((f.bits + usize c) % 6 + Bt) / 6) =
              2 ^ ((f.bits + usize c) % 6 + Bt - ((f.bits + usize c) % 6 + Bt) % 6) := by
            rw [(by norm_num : (64 : Nat) = 2 ^ 6), ← pow_mul]
            congr 1
            omega
          rw [h64]
        rw [hcnt, hval]
      · rw [hfb, hsbc]
        omega
      · rw [hfc, hsbc, hsnc]
        obtain ⟨w, hw⟩ : ∃ x, content f * 2 ^ usize c + unitOf c = x := ⟨_, rfl⟩
        rw [hw]
        have hS : content f * 2 ^ (usize c + Bt) + (unitOf c * 2 ^ Bt + Nt) =
            w * 2 ^ Bt + Nt := by
          rw [← hw, Nat.pow_add]
          ring
        rw [hS]
        have hmod6 : (f.bits + (usize c + Bt)) % 6 = ((f.bits + usize c) % 6 + Bt) % 6 := by
          omega
        rw [hmod6]
        have hsplit : w * 2 ^ Bt + Nt =
            w / 2 ^ ((f.bits + usize c) % 6) * 2 ^ ((f.bits + usize c) % 6 + Bt) +
            (w % 2 ^ ((f.bits + usize c) % 6) * 2 ^ Bt + Nt) := by
          rw [Nat.pow_add]
          have hdm := Nat.div_add_mod w (2 ^ ((f.bits + usize c) % 6))
          calc w * 2 ^ Bt + Nt
              = (2 ^ ((f.bits + usize c) % 6) * (w / 2 ^ ((f.bits + usize c) % 6)) +
                  w % 2 ^ ((f.bits + usize c) % 6)) * 2 ^ Bt + Nt := by rw [hdm]
            _ = _ := by ring
        rw [hsplit]
        exact (stream_mod_low _ _ _ _ (by omega)).symm

theorem sextets_length (k x : Nat) : (sextets k x).length = k := by
  induction k generalizing x with
  | zero => rfl
  | succ k ih => simp [sextets, ih]

/-- Closing a run: the final padded character (if any) appended to the
emitted digits gives exactly the digits of the zero-padded stream. -/
theorem endSeq_pad (ffin : Fifo) (t n : Nat) (hb : ffin.bits = t % 6)
    (hc : content ffin = n % 2 ^ (t % 6)) (hn : n < 2 ^ t) :
    (sextets (t / 6) (n / 2 ^ (t % 6))).map b64_encode ++
      (if ffin.bits != 0 then
        [b64_encode ((eat_bits ffin ffin.bits).1 <<< (6 - ffin.bits))]
       else []) =
    (sextets ((t + padOf t) / 6) (n * 2 ^ padOf t)).map b64_encode := by
  by_cases hr : t % 6 = 0
  · have hp : padOf t = 0 := by unfold padOf; omega
    rw [hb, hr, hp]
    simp
  · have hp : padOf t = 6 - t % 6 := by unfold padOf; omega
    have hq : (t + padOf t) / 6 = t / 6 + 1 := by rw [hp]; omega
    rw [hq, sextets_snoc]
    have hdv : n * 2 ^ padOf t / 64 = n / 2 ^ (t % 6) := by
      rw [hp, (by have h6 : t % 6 + (6 - t % 6) = 6 := by omega
                  rw [h6]; norm_num : (64 : Nat) = 2 ^ (t % 6 + (6 - t % 6)))]
      exact pow_cancel n _ _
    have hmd : n * 2 ^ padOf t % 64 = n % 2 ^ (t % 6) * 2 ^ padOf t := by
      rw [hp, (by have h6 : t % 6 + (6 - t % 6) = 6 := by omega
                  rw [← Nat.pow_add, h6] :
            (64 : Nat) = 2 ^ (t % 6) * 2 ^ (6 - t % 6))]
      exact Nat.mul_mod_mul_right _ _ _
    have htr : (eat_bits ffin ffin.bits).1 <<< (6 - ffin.bits) =
        n % 2 ^ (t % 6) * 2 ^ padOf t := by
      rw [eat_bits_fst ffin ffin.bits (le_refl _), Nat.sub_self, pow_zero, Nat.div_one,
          hc, Nat.shiftLeft_eq, hb, hp]
    rw [if_pos (by rw [hb]; simpa using hr), htr, hdv, hmd, List.map_append]
    simp

/-- Starting a run from pass-through state just emits the '&' first. -/
theorem enc7_amp (f : Fifo) (c : Nat) (cs : List Nat) (he : needs_encoding c = true) :
    enc7 f false (c :: cs) = 38 :: enc7 f true (c :: cs) := by
  conv_lhs => rw [enc7]
  conv_rhs => rw [enc7]
  rw [if_pos he, if_pos he, if_neg (by simp), if_pos rfl, List.nil_append]
  rfl

/-- Ending a run: the trail and '-' are emitted, and the loop continues in
pass-through state. -/
theorem enc7_close (ffin : Fifo) (rest : List Nat)
    (h : rest = [] ∨ ∃ c2 tl, rest = c2 :: tl ∧ needs_encoding c2 = false) :
    enc7 ffin true rest = endSeq ffin ++ enc7 ⟨ffin.value, 0⟩ false rest := by
  rcases h with h | ⟨c2, tl, h, hne⟩ <;> subst h
  · simp [enc7]
  · conv_lhs => rw [enc7]
    conv_rhs => rw [enc7]
    rw [hne]
    simp

theorem dropWhile_head_false (p : Nat → Bool) :
    ∀ (l : List Nat) (c2 : Nat) (tl : List Nat),
      l.dropWhile p = c2 :: tl → p c2 = false := by
  intro l
  induction l with
  | nil => intro c2 tl h; simp [List.dropWhile] at h
  | cons x xs ih =>
      intro c2 tl h
      rw [List.dropWhile_cons] at h
      split_ifs at h with hx
      · exact ih c2 tl h
      · injection h with h1 h2
        subst h1
        simpa using hx

theorem omap_some (f : List Nat → List Nat) (a : List Nat) :
    Option.map f (some a) = some (f a) := rfl

theorem pcs_not45 (k x : Nat) :
    ∀ y ∈ (sextets k x).map b64_encode, (y == 45) = false := by
  intro y hy
  simp only [List.mem_map] at hy
  obtain ⟨s, hs, rfl⟩ := hy
  have h := (b64_facts s (sextets_lt k x s hs)).2.2.1
  simpa using h

/-- Equation: decoding the empty string. -/
theorem dec_nil : imap_utf7_to_utf8 [] = some [] := by
  unfold imap_utf7_to_utf8
  rfl

/-- Equation: decoding a plain (pass-through) character. -/
theorem dec_plain (c : Nat) (rest : List Nat) (h38 : (c != 38) = true)
    (h80 : (c &&& 128 != 0) = false) :
    imap_utf7_to_utf8 (c :: rest) =
      Option.map (fun out => c :: out) (imap_utf7_to_utf8 rest) := by
  conv_lhs => unfold imap_utf7_to_utf8
  rw [if_pos h38, if_neg (by simp [h80])]

/-- Equation: decoding an escaped ampersand. -/
theorem dec_amp_dash (rest2 : List Nat) :
    imap_utf7_to_utf8 (38 :: 45 :: rest2) =
      Option.map (fun out => 38 :: out) (imap_utf7_to_utf8 rest2) := by
  conv_lhs => unfold imap_utf7_to_utf8
  dsimp only
  rw [if_neg (by decide), if_pos (by decide)]

/-- Equation: decoding a shift sequence. -/
theorem dec_run (c2 : Nat) (rest2 : List Nat) (h45 : (c2 == 45) = false) :
    imap_utf7_to_utf8 (38 :: c2 :: rest2) =
      match utf7run ⟨0, 0⟩ c2 rest2 with
      | none => none
      | some (out, rest3) =>
          Option.map (fun out2 => out ++ out2) (imap_utf7_to_utf8 rest3) := by
  conv_lhs => unfold imap_utf7_to_utf8
  dsimp only
  rw [if_neg (by decide), if_neg (by simp [h45])]
  split <;> (rename_i heq; rw [heq])

/-- Decoding inverts encoding, at code-point granularity: decoding the
encoder-loop output of any valid scalar list recovers its UTF-8 bytes. -/
theorem dec7_enc7 (n : Nat) : ∀ (cps : List Nat) (f0 : Fifo),
    cps.length ≤ n → f0.bits = 0 → (∀ c ∈ cps, ValidScalar c) →
    imap_utf7_to_utf8 (enc7 f0 false cps) = some (cps.flatMap write_as_utf8) := by
  induction n with
  | zero =>
      intro cps f0 hlen hb hv
      have h0 : cps = [] := List.length_eq_zero.mp (Nat.le_zero.mp hlen)
      subst h0
      simp only [List.flatMap_nil]
      show imap_utf7_to_utf8 [] = some []
      exact dec_nil
  | succ n ih =>
      intro cps f0 hlen hb hv
      cases cps with
      | nil =>
          simp only [List.flatMap_nil]
          show imap_utf7_to_utf8 [] = some []
          exact dec_nil
      | cons c cs =>
          have hvc := hv c (List.mem_cons_self _ _)
          have hv' : ∀ x ∈ cs, ValidScalar x := fun x hx => hv x (List.mem_cons_of_mem _ hx)
          have hlen' : cs.length ≤ n := by
            have h := hlen
            rw [List.length_cons] at h
            omega
          cases henc : needs_encoding c with
          | false =>
              -- pass-through character
              have hcr : 32 ≤ c ∧ c ≤ 126 := by
                have h0 : c ≠ 0 := by
                  have h1 := hvc.1
                  omega
                unfold needs_encoding at henc
                simp [h0] at henc
                constructor <;> omega
              have hstep : enc7 f0 false (c :: cs) =
                  (if c == 38 then [38, 45] else [c]) ++ enc7 ⟨f0.value, 0⟩ false cs := by
                conv_lhs => rw [enc7]
                rw [if_neg (by simp [henc]), if_neg (by simp)]
                rw [List.nil_append]
              have hK := ih cs ⟨f0.value, 0⟩ hlen' rfl hv'
              by_cases hc38 : c = 38
              · subst hc38
                rw [hstep, if_pos (show ((38 : Nat) == 38) = true from rfl)]
                simp only [List.cons_append, List.nil_append]
                rw [dec_amp_dash, hK, omap_some]
                rw [List.flatMap_cons, write_as_utf8_one 38 (by norm_num)]
                rfl
              · rw [hstep, if_neg (by simp [hc38])]
                simp only [List.cons_append, List.nil_append]
                rw [dec_plain c _ (by simp [hc38])
                      (by rw [(byte_class c (by omega)).2.2.2.2]; simp; omega),
                    hK, omap_some]
                rw [List.flatMap_cons, write_as_utf8_one c (by omega)]
                rfl
          | true =>
              -- an encoded run starts here
              have hva : ∀ x ∈ c :: List.takeWhile needs_encoding cs, ValidScalar x := by
                intro x hx
                rcases List.mem_cons.mp hx with rfl | hx2
                · exact hvc
                · exact hv' x ((List.takeWhile_sublist _).subset hx2)
              have hea : ∀ x ∈ c :: List.takeWhile needs_encoding cs,
                  needs_encoding x = true := by
                intro x hx
                rcases List.mem_cons.mp hx with rfl | hx2
                · exact henc
                · exact List.mem_takeWhile_imp hx2
              have hsplit : c :: cs =
                  (c :: List.takeWhile needs_encoding cs) ++
                    List.dropWhile needs_encoding cs := by
                rw [List.cons_append, List.takeWhile_append_dropWhile]
              have hcf0 : content f0 = 0 := by
                unfold content
                rw [hb]
                omega
              obtain ⟨ffin, hmid, hfb, hfc⟩ := enc7_mid
                (c :: List.takeWhile needs_encoding cs) f0
                (List.dropWhile needs_encoding cs) hva hea (by rw [hb]; norm_num)
              obtain ⟨B, hB⟩ : ∃ x,
                  streamB (unitsOf (c :: List.takeWhile needs_encoding cs)) = x := ⟨_, rfl⟩
              obtain ⟨N, hN⟩ : ∃ x,
                  streamN (unitsOf (c :: List.takeWhile needs_encoding cs)) = x := ⟨_, rfl⟩
              rw [hB, hN, hcf0, hb] at hmid hfc
              rw [hB, hb] at hfb
              simp only [Nat.zero_mul, Nat.zero_add] at hmid hfc hfb
              have hN_lt : N < 2 ^ B := by
                rw [← hB, ← hN]
                exact streamN_lt _ (wf_unitsOf _ hva)
              have hu : unitsOf (c :: List.takeWhile needs_encoding cs) =
                  (unitOf c, usize c) :: unitsOf (List.takeWhile needs_encoding cs) := rfl
              have hB16 : 16 ≤ B := by
                rw [← hB, hu]
                show 16 ≤ usize c + streamB (unitsOf (List.takeWhile needs_encoding cs))
                have hsz : usize c = 16 ∨ usize c = 32 := by
                  unfold usize
                  split_ifs <;> simp
                omega
              have hrest_v : ∀ x ∈ List.dropWhile needs_encoding cs, ValidScalar x :=
                fun x hx => hv' x ((List.dropWhile_sublist _).subset hx)
              have hshape : List.dropWhile needs_encoding cs = [] ∨
                  ∃ c2 tl, List.dropWhile needs_encoding cs = c2 :: tl ∧
                    needs_encoding c2 = false := by
                cases hdw : List.dropWhile needs_encoding cs with
                | nil => exact Or.inl rfl
                | cons c2 tl =>
                    exact Or.inr ⟨c2, tl, rfl, dropWhile_head_false _ cs c2 tl hdw⟩
              have hclose := enc7_close ffin (List.dropWhile needs_encoding cs) hshape
              have hpad := endSeq_pad ffin B N hfb hfc hN_lt
              have hout : enc7 f0 false (c :: cs) =
                  38 :: ((sextets ((B + padOf B) / 6) (N * 2 ^ padOf B)).map b64_encode ++
                    45 :: enc7 ⟨ffin.value, 0⟩ false (List.dropWhile needs_encoding cs)) := by
                rw [enc7_amp f0 c cs henc]
                conv_lhs => rw [hsplit]
                rw [hmid, hclose]
                unfold endSeq
                simp only [List.append_assoc, List.cons_append, List.nil_append]
                rw [← List.append_assoc, hpad]
              rw [hout]
              have hlenp : ((sextets ((B + padOf B) / 6) (N * 2 ^ padOf B)).map
                  b64_encode).length = (B + padOf B) / 6 := by
                rw [List.length_map, sextets_length]
              obtain ⟨p1, ptl, hp⟩ : ∃ p1 ptl,
                  (sextets ((B + padOf B) / 6) (N * 2 ^ padOf B)).map b64_encode =
                    p1 :: ptl := by
                cases hx : (sextets ((B + padOf B) / 6) (N * 2 ^ padOf B)).map b64_encode with
                | nil =>
                    rw [hx] at hlenp
                    simp at hlenp
                    omega
                | cons a l => exact ⟨a, l, rfl⟩
              have hmem45 := pcs_not45 ((B + padOf B) / 6) (N * 2 ^ padOf B)
              have hp1_45 : (p1 == 45) = false :=
                hmem45 p1 (by rw [hp]; exact List.mem_cons_self _ _)
              have hptl_45 : ∀ x ∈ ptl, (x == 45) = false :=
                fun x hx => hmem45 x (by rw [hp]; exact List.mem_cons_of_mem _ hx)
              rw [hp, List.cons_append,
                  dec_run p1 (ptl ++ 45 :: enc7 ⟨ffin.value, 0⟩ false
                    (List.dropWhile needs_encoding cs)) hp1_45,
                  utf7run_feed ptl p1 ⟨0, 0⟩ _ hp1_45 hptl_45, ← hp]
              obtain ⟨fend, hfeed, hfendb, hfendc⟩ := feed_units ((B + padOf B) / 6)
                (unitOf c) (usize c) (unitsOf (List.takeWhile needs_encoding cs)) ⟨0, 0⟩
                (by rw [← hu]; exact wf_unitsOf _ hva)
                (by show 0 < usize c
                    unfold usize
                    split_ifs <;> norm_num)
                (by rw [show streamB ((unitOf c, usize c) ::
                        unitsOf (List.takeWhile needs_encoding cs)) = B from by
                          rw [← hu]; exact hB,
                      show streamN ((unitOf c, usize c) ::
                        unitsOf (List.takeWhile needs_encoding cs)) = N from by
                          rw [← hu]; exact hN]
                    show content ⟨0, 0⟩ = N / 2 ^ (B - 0)
                    rw [Nat.sub_zero, Nat.div_eq_of_lt hN_lt]
                    rfl)
                (by rw [show streamB ((unitOf c, usize c) ::
                        unitsOf (List.takeWhile needs_encoding cs)) = B from by
                          rw [← hu]; exact hB]
                    show 6 * ((B + padOf B) / 6) = B - 0 + padOf (B - 0)
                    rw [Nat.sub_zero]
                    unfold padOf
                    omega)
              rw [show streamB ((unitOf c, usize c) ::
                    unitsOf (List.takeWhile needs_encoding cs)) = B from by
                      rw [← hu]; exact hB,
                  show streamN ((unitOf c, usize c) ::
                    unitsOf (List.takeWhile needs_encoding cs)) = N from by
                      rw [← hu]; exact hN] at hfeed
              rw [show streamB ((unitOf c, usize c) ::
                    unitsOf (List.takeWhile needs_encoding cs)) = B from by
                      rw [← hu]; exact hB] at hfendb
              rw [show (⟨0, 0⟩ : Fifo).bits = 0 from rfl] at hfeed hfendb
              rw [Nat.sub_zero] at hfeed hfendb
              rw [Nat.mod_eq_of_lt hN_lt] at hfeed
              rw [← hu, flatMap_unitsOf _ hva] at hfeed
              rw [hfeed]
              dsimp only
              rw [if_neg (by rw [hfendb]; unfold padOf; omega)]
              dsimp only
              have hK := ih (List.dropWhile needs_encoding cs) ⟨ffin.value, 0⟩
                (le_trans ((List.dropWhile_sublist _).length_le) hlen') rfl hrest_v
              rw [hK, omap_some]
              rw [← List.flatMap_append, ← hsplit]

theorem utf7run_nil (f : Fifo) (c : Nat) : utf7run f c [] = none := by
  unfold utf7run
  rcases hs : runStepFifo f c with _ | ⟨o, f2⟩
  · rfl
  · rfl

theorem runStep_byte_ok (f : Fifo) (c : Nat) (p : List Nat × Fifo)
    (h : runStepFifo f c = some p) : (c &&& 128 != 0) = false := by
  cases hx : (c &&& 128 != 0) with
  | false => rfl
  | true =>
      unfold runStepFifo at h
      rw [if_pos hx] at h
      exact absurd h (by simp)

/-- A byte with the high bit set inside a shift sequence makes the run
fail; when the run succeeds, such a byte can only be in the remainder. -/
theorem utf7run_bad (b : Nat) (hb1 : 128 ≤ b) (hb2 : b < 256) :
    ∀ (l : List Nat) (f : Fifo) (c : Nat) (out rest3 : List Nat),
      utf7run f c l = some (out, rest3) → b ∈ c :: l → b ∈ rest3 := by
  intro l
  induction l with
  | nil =>
      intro f c out rest3 h _
      rw [utf7run_nil] at h
      exact absurd h (by simp)
  | cons c2 tl ih =>
      intro f c out rest3 h hmem
      unfold utf7run at h
      rcases hs : runStepFifo f c with _ | ⟨o0, f2⟩ <;> rw [hs] at h
      · exact absurd h (by simp)
      · dsimp only at h
        have hbc : b ≠ c := by
          intro he
          subst he
          have h80 := runStep_byte_ok f b (o0, f2) hs
          rw [(byte_class b hb2).2.2.2.2] at h80
          simp at h80
          omega
        have hmem2 : b ∈ c2 :: tl := by
          rcases List.mem_cons.mp hmem with he | h2
          · exact absurd he hbc
          · exact h2
        cases hd : (c2 == 45) with
        | true =>
            rw [if_pos hd] at h
            by_cases hb6 : 6 < f2.bits
            · rw [if_pos hb6] at h
              exact absurd h (by simp)
            · rw [if_neg hb6] at h
              injection h with h
              injection h with hh1 hh2
              subst hh2
              rcases List.mem_cons.mp hmem2 with he | h3
              · exfalso
                have hc2 : c2 = 45 := by simpa using hd
                omega
              · exact h3
        | false =>
            rw [if_neg (by simp [hd])] at h
            rcases hr : utf7run f2 c2 tl with _ | ⟨o2, r2⟩ <;> rw [hr] at h
            · exact absurd h (by simp)
            · dsimp only at h
              injection h with h
              injection h with hh1 hh2
              subst hh2
              exact ih f2 c2 o2 r2 hr hmem2

/-- When the input of a run ends with '&', the remainder after the run
still ends with '&'. -/
theorem utf7run_suffix : ∀ (l2 : List Nat) (f : Fifo) (c : Nat) (out rest3 : List Nat),
    utf7run f c (l2 ++ [38]) = some (out, rest3) → ∃ l4, rest3 = l4 ++ [38] := by
  intro l2
  induction l2 with
  | nil =>
      intro f c out rest3 h
      unfold utf7run at h
      rcases hs : runStepFifo f c with _ | ⟨o0, f2⟩ <;> rw [hs] at h
      · exact absurd h (by simp)
      · rw [List.nil_append] at h
        dsimp only at h
        rw [if_neg (by decide)] at h
        rw [utf7run_nil] at h
        exact absurd h (by simp)
  | cons c2 tl ih =>
      intro f c out rest3 h
      unfold utf7run at h
      rcases hs : runStepFifo f c with _ | ⟨o0, f2⟩ <;> rw [hs] at h
      · exact absurd h (by simp)
      · rw [List.cons_append] at h
        dsimp only at h
        cases hd : (c2 == 45) with
        | true =>
            rw [if_pos hd] at h
            by_cases hb6 : 6 < f2.bits
            · rw [if_pos hb6] at h
              exact absurd h (by simp)
            · rw [if_neg hb6] at h
              injection h with h
              injection h with hh1 hh2
              exact ⟨tl, hh2.symm⟩
        | false =>
            rw [if_neg (by simp [hd])] at h
            rcases hr : utf7run f2 c2 (tl ++ [38]) with _ | ⟨o2, r2⟩ <;> rw [hr] at h
            · exact absurd h (by simp)
            · dsimp only at h
              injection h with h
              injection h with hh1 hh2
              obtain ⟨l4, hl4⟩ := ih f2 c2 o2 r2 hr
              exact ⟨l4, hh2 ▸ hl4⟩

/-- Any input containing an 8-bit byte is rejected. -/
theorem dec_bad_byte (n : Nat) : ∀ (l : List Nat), l.length ≤ n →
    ∀ b ∈ l, 128 ≤ b → b < 256 → imap_utf7_to_utf8 l = none := by
  induction n with
  | zero =>
      intro l hlen b hbmem hb1 hb2
      have h0 : l = [] := List.length_eq_zero.mp (Nat.le_zero.mp hlen)
      subst h0
      simp at hbmem
  | succ n ih =>
      intro l hlen b hbmem hb1 hb2
      cases l with
      | nil => simp at hbmem
      | cons chr rest =>
          have hlen' : rest.length ≤ n := by
            have h := hlen
            rw [List.length_cons] at h
            omega
          by_cases h38 : chr = 38
          · subst h38
            have hbne : b ∈ rest := by
              rcases List.mem_cons.mp hbmem with he | h2
              · exact absurd he (by omega)
              · exact h2
            cases rest with
            | nil => simp at hbne
            | cons c2 rest2 =>
                cases h45 : (c2 == 45) with
                | true =>
                    have hc2 : c2 = 45 := by simpa using h45
                    subst hc2
                    rw [dec_amp_dash]
                    have hbrest2 : b ∈ rest2 := by
                      rcases List.mem_cons.mp hbne with he | h2
                      · exact absurd he (by omega)
                      · exact h2
                    have hlen2 : rest2.length ≤ n := by
                      have h := hlen
                      rw [List.length_cons, List.length_cons] at h
                      omega
                    rw [ih rest2 hlen2 b hbrest2 hb1 hb2]
                    rfl
                | false =>
                    rw [dec_run c2 rest2 h45]
                    rcases hr : utf7run ⟨0, 0⟩ c2 rest2 with _ | ⟨out, rest3⟩
                    · rfl
                    · dsimp only
                      have hb3 : b ∈ rest3 :=
                        utf7run_bad b hb1 hb2 rest2 ⟨0, 0⟩ c2 out rest3 hr hbne
                      have hlen3 : rest3.length ≤ n := by
                        have hL := utf7run_length ⟨0, 0⟩ c2 rest2 out rest3 hr
                        have h := hlen
                        rw [List.length_cons, List.length_cons] at h
                        omega
                      rw [ih rest3 hlen3 b hb3 hb1 hb2]
                      rfl
          · cases hhi : (chr &&& 128 != 0) with
            | true =>
                conv_lhs => unfold imap_utf7_to_utf8
                rw [if_pos (by simp [h38]), if_pos hhi]
            | false =>
                have hbne : b ∈ rest := by
                  rcases List.mem_cons.mp hbmem with he | h2
                  · exfalso
                    subst he
                    rw [(byte_class b hb2).2.2.2.2] at hhi
                    simp at hhi
                    omega
                  · exact h2
                rw [dec_plain chr rest (by simp [h38]) hhi, ih rest hlen' b hbne hb1 hb2]
                rfl

/-- An input ending in an unterminated '&' is rejected. -/
theorem dec_amp_end (n : Nat) : ∀ (l : List Nat), l.length ≤ n →
    imap_utf7_to_utf8 (l ++ [38]) = none := by
  induction n with
  | zero =>
      intro l hlen
      have h0 : l = [] := List.length_eq_zero.mp (Nat.le_zero.mp hlen)
      subst h0
      rw [List.nil_append]
      unfold imap_utf7_to_utf8
      rfl
  | succ n ih =>
      intro l hlen
      cases l with
      | nil =>
          rw [List.nil_append]
          unfold imap_utf7_to_utf8
          rfl
      | cons chr rest =>
          have hlen' : rest.length ≤ n := by
            have h := hlen
            rw [List.length_cons] at h
            omega
          rw [List.cons_append]
          by_cases h38 : chr = 38
          · subst h38
            cases rest with
            | nil =>
                rw [List.nil_append]
                rw [dec_run 38 [] (by decide), utf7run_nil]
            | cons r0 rtl =>
                rw [List.cons_append]
                cases h45 : (r0 == 45) with
                | true =>
                    have hr0 : r0 = 45 := by simpa using h45
                    subst hr0
                    rw [dec_amp_dash]
                    have hlen2 : rtl.length ≤ n := by
                      have h := hlen
                      rw [List.length_cons, List.length_cons] at h
                      omega
                    rw [ih rtl hlen2]
                    rfl
                | false =>
                    rw [dec_run r0 (rtl ++ [38]) h45]
                    rcases hr : utf7run ⟨0, 0⟩ r0 (rtl ++ [38]) with _ | ⟨out, rest3⟩
                    · rfl
                    · dsimp only
                      obtain ⟨l4, hl4⟩ := utf7run_suffix rtl ⟨0, 0⟩ r0 out rest3 hr
                      subst hl4
                      have hlen4 : l4.length ≤ n := by
                        have hL := utf7run_length ⟨0, 0⟩ r0 (rtl ++ [38]) out (l4 ++ [38]) hr
                        rw [List.length_append, List.length_append] at hL
                        have h := hlen
                        rw [List.length_cons, List.length_cons] at h
                        simp at hL
                        omega
                      rw [ih l4 hlen4]
                      rfl
          · cases hhi : (chr &&& 128 != 0) with
            | true =>
                conv_lhs => unfold imap_utf7_to_utf8
                rw [if_pos (by simp [h38]), if_pos hhi]
            | false =>
                rw [dec_plain chr _ (by simp [h38]) hhi, ih rest hlen']
                rfl

/-- A shift sequence closed after exactly two base-64 digits leaves 12
pending bits (more than 6), which the terminator check rejects. -/
theorem dec_two_digits (s1 s2 : Nat) (h1 : s1 < 64) (h2 : s2 < 64) (rest : List Nat) :
    imap_utf7_to_utf8 (38 :: b64_encode s1 :: b64_encode s2 :: 45 :: rest) = none := by
  have hf1 : runStepFifo ⟨0, 0⟩ (b64_encode s1) = some ([], add_bits ⟨0, 0⟩ s1 6) := by
    rw [runStepFifo_b64 ⟨0, 0⟩ s1 h1,
        if_neg (by rw [add_bits_bits]; show ¬(16 ≤ 0 + 6); norm_num)]
  have hf2 : runStepFifo (add_bits ⟨0, 0⟩ s1 6) (b64_encode s2) =
      some ([], add_bits (add_bits ⟨0, 0⟩ s1 6) s2 6) := by
    rw [runStepFifo_b64 _ s2 h2,
        if_neg (by rw [add_bits_bits, add_bits_bits]; show ¬(16 ≤ 0 + 6 + 6); norm_num)]
  have hin : utf7run (add_bits ⟨0, 0⟩ s1 6) (b64_encode s2) (45 :: rest) = none := by
    unfold utf7run
    rw [hf2]
    dsimp only
    rw [if_pos (show ((45 : Nat) == 45) = true from rfl),
        if_pos (by rw [add_bits_bits, add_bits_bits]; show 6 < 0 + 6 + 6; norm_num)]
  have hrun : utf7run ⟨0, 0⟩ (b64_encode s1) (b64_encode s2 :: 45 :: rest) = none := by
    unfold utf7run
    rw [hf1]
    dsimp only
    rw [if_neg (by simpa using (b64_facts s2 h2).2.2.1), hin]
  rw [dec_run (b64_encode s1) _ (by simpa using (b64_facts s1 h1).2.2.1), hrun]

/-- "&2AA-" carries the lone HIGH surrogate U+D800: the decoder keeps
waiting for the low half and the terminator check rejects the sequence. -/
theorem dec_high_surrogate : imap_utf7_to_utf8 [38, 50, 65, 65, 45] = none := by
  rw [dec_run 50 [65, 65, 45] (by decide),
      show utf7run ⟨0, 0⟩ 50 [65, 65, 45] = none from rfl]

end Utf7

/-- Claim C6 as stated: encoding a valid Unicode mailbox name with
imap_utf8_to_utf7 and decoding it back yields the original string, and
imap_utf7_to_utf8 rejects every input with an invalid shift sequence,
among which unpaired surrogates.  The second conjunct instantiates the
surrogate rejection at "&3AA-", whose single complete 16-bit unit is the
lone LOW surrogate U+DC00. -/
def claimC6asStated : Prop :=
  (∀ cps : List Nat, (∀ c ∈ cps, Utf7.ValidScalar c) →
    (Utf7.imap_utf8_to_utf7 (cps.flatMap Utf7.write_as_utf8)).bind Utf7.imap_utf7_to_utf8 =
      some (cps.flatMap Utf7.write_as_utf8)) ∧
  Utf7.imap_utf7_to_utf8 [38, 51, 65, 65, 45] = none

/-- C6: the claim is FALSE as stated.  The decoder checks the surrogate
pairing only when the leading half is a HIGH surrogate
(need_another_16bit, imap_utf7.c:190-194 and 262-270); an isolated LOW
surrogate such as U+DC00 ("&3AA-") is accepted and emitted as the UTF-8
encoding of the surrogate code point, not rejected. -/
theorem C6_counterexample : ¬ claimC6asStated := by
  intro h
  have h2 := h.2
  rw [Utf7.dec_run 51 [65, 65, 45] (by decide),
      show Utf7.utf7run ⟨0, 0⟩ 51 [65, 65, 45] = some ([237, 176, 128], []) from rfl] at h2
  dsimp only at h2
  rw [Utf7.dec_nil] at h2
  simp at h2

/-- C6 (amended): the round trip holds for every valid Unicode name, and
the decoder rejects 8-bit octets, unterminated '&' sequences, runs whose
leftover exceeds 6 bits (incomplete code points, such as two-digit runs),
and unpaired HIGH surrogates ("&2AA-"); but an isolated LOW surrogate in
a complete 16-bit unit is accepted ("&3AA-" decodes to the UTF-8 bytes
of U+DC00). -/
theorem C6_utf7_conversion :
    (∀ cps : List Nat, (∀ c ∈ cps, Utf7.ValidScalar c) →
      (Utf7.imap_utf8_to_utf7 (cps.flatMap Utf7.write_as_utf8)).bind Utf7.imap_utf7_to_utf8 =
        some (cps.flatMap Utf7.write_as_utf8)) ∧
    (∀ (l : List Nat) (b : Nat), b ∈ l → 128 ≤ b → b < 256 →
      Utf7.imap_utf7_to_utf8 l = none) ∧
    (∀ l : List Nat, Utf7.imap_utf7_to_utf8 (l ++ [38]) = none) ∧
    (∀ (s1 s2 : Nat) (rest : List Nat), s1 < 64 → s2 < 64 →
      Utf7.imap_utf7_to_utf8
        (38 :: Utf7.b64_encode s1 :: Utf7.b64_encode s2 :: 45 :: rest) = none) ∧
    Utf7.imap_utf7_to_utf8 [38, 50, 65, 65, 45] = none ∧
    Utf7.imap_utf7_to_utf8 [38, 51, 65, 65, 45] = some [237, 176, 128] := by
  refine ⟨?_, ?_, ?_, ?_, ?_, ?_⟩
  · intro cps hv
    unfold Utf7.imap_utf8_to_utf7
    rw [Utf7.utf8to7go_flatMap cps hv ⟨0, 0⟩ false]
    show Utf7.imap_utf7_to_utf8 (Utf7.enc7 ⟨0, 0⟩ false cps) = _
    exact Utf7.dec7_enc7 cps.length cps ⟨0, 0⟩ (le_refl _) rfl hv
  · intro l b hmem hb1 hb2
    exact Utf7.dec_bad_byte l.length l (le_refl _) b hmem hb1 hb2
  · intro l
    exact Utf7.dec_amp_end l.length l (le_refl _)
  · intro s1 s2 rest h1 h2
    exact Utf7.dec_two_digits s1 s2 h1 h2 rest
  · exact Utf7.dec_high_surrogate
  · rw [Utf7.dec_run 51 [65, 65, 45] (by decide),
        show Utf7.utf7run ⟨0, 0⟩ 51 [65, 65, 45] = some ([237, 176, 128], []) from rfl]
    dsimp only
    rw [Utf7.dec_nil]
    rfl

/-- C6 witness: the amended theorem applied at concrete inputs: the name
"H☺😀" (one ASCII, one 16-bit, one surrogate-pair code point), a stray
byte 200, "Hi&", and the two-digit run "&DH-F". -/
theorem C6_witness :
    ((Utf7.imap_utf8_to_utf7 ([72, 9786, 128512].flatMap Utf7.write_as_utf8)).bind
        Utf7.imap_utf7_to_utf8 = some ([72, 9786, 128512].flatMap Utf7.write_as_utf8)) ∧
    Utf7.imap_utf7_to_utf8 [65, 200, 66] = none ∧
    Utf7.imap_utf7_to_utf8 ([72, 105] ++ [38]) = none ∧
    Utf7.imap_utf7_to_utf8
      (38 :: Utf7.b64_encode 3 :: Utf7.b64_encode 7 :: 45 :: [70]) = none :=
  ⟨C6_utf7_conversion.1 [72, 9786, 128512]
      (by intro c hc
          rcases List.mem_cons.mp hc with rfl | hc2
          · exact ⟨by omega, by omega, by omega⟩
          rcases List.mem_cons.mp hc2 with rfl | hc3
          · exact ⟨by omega, by omega, by omega⟩
          rcases List.mem_cons.mp hc3 with rfl | hc4
          · exact ⟨by omega, by omega, by omega⟩
          simp at hc4),
   C6_utf7_conversion.2.1 [65, 200, 66] 200 (by simp) (by norm_num) (by norm_num),
   C6_utf7_conversion.2.2.1 [72, 105],
   C6_utf7_conversion.2.2.2.1 3 7 [70] (by norm_num) (by norm_num)⟩


end Isync
